import Mathlib

/-!
# bigint-cpp: arbitrary-precision signed decimal integers

A shallow embedding of `bigint.hpp`.  A `bigint` is a sign character and a vector of decimal
digits, most significant first.  Vector and string accesses are checked: an access outside the
container is undefined behaviour in the source and is `none` (for the arithmetic) or
`outcome.undefined` (for the string constructor) here.  Narrowing casts to `uint8_t` and
`int8_t` are explicit reductions modulo 256.
-/

namespace BigintCpp

/-! ## Data model -/

/-- The class `bigint`: `char sign` and `std::vector<uint8_t> digits`. -/
structure bigint where
  sign : Char
  digits : List Nat
deriving DecidableEq

/-- Narrowing `static_cast<uint8_t>` of an `int` value. -/
def to_uint8 (x : Int) : Nat := (x % 256).toNat

/-- Narrowing `static_cast<int8_t>` of an `int` value. -/
def to_int8 (x : Int) : Int := (x + 128) % 256 - 128

/-- The index `size - 1 - i` in unsigned 64-bit arithmetic.  For `i >= size` the subtraction
wraps around to an index beyond the end of every vector: `none`. -/
def index_back (size i : Nat) : Option Nat :=
  if i < size then some (size - 1 - i) else none

/-- The assignment `v[k] = x`, defined for `k < v.size()`. -/
def write (v : List Nat) (k x : Nat) : Option (List Nat) :=
  if k < v.length then some (v.set k x) else none

/-- A counted loop `for (i = start; i < start + count; i++)` over a state; every step may
leave the defined behaviour. -/
def for_loop {σ : Type} (body : Nat → σ → Option σ) : Nat → Nat → σ → Option σ
  | _, 0, s => some s
  | i, n + 1, s => (body i s).bind (for_loop body (i + 1) n)

/-- The comparison `a < b` of two `std::vector<uint8_t>` (lexicographic). -/
def vector_lt : List Nat → List Nat → Bool
  | [], [] => false
  | [], _ :: _ => true
  | _ :: _, [] => false
  | x :: xs, y :: ys => if x < y then true else if y < x then false else vector_lt xs ys

/-! ## Constructors -/

/-- The default constructor `bigint()` (the spec's `zero()`). -/
def default_bigint : bigint := ⟨'+', [0]⟩

/-- Two's-complement wrap of a value into the range of `int64_t`. -/
def wrap_int64 (x : Int) : Int := (x + 2 ^ 63) % 2 ^ 64 - 2 ^ 63

/-- The loop `while (int_num != 0)` of the integer constructor: `%` and `/` truncate toward
zero, the digit is narrowed to `uint8_t` and inserted at the front. -/
def int_digits_loop : Nat → Int → List Nat → List Nat
  | 0, _, ds => ds
  | fuel + 1, n, ds =>
    if n = 0 then ds else int_digits_loop fuel (n.tdiv 10) (to_uint8 (n.tmod 10) :: ds)

/-- The constructor `bigint(int64_t int_num)` (the spec's `fromInteger`).  The negation
`int_num = -int_num` is taken in two's complement, so the minimum value stays negative.  A
64-bit value has at most 19 decimal digits, so 20 rounds of the loop always reach
`int_num == 0`. -/
def from_int64 (int_num : Int) : bigint :=
  let sign := if int_num < 0 then '-' else '+'
  let n := if int_num < 0 then wrap_int64 (-int_num) else int_num
  if n = 0 then ⟨sign, [0]⟩ else ⟨sign, int_digits_loop 20 n []⟩

/-- Results of the string constructor: a value, one of the three exceptions, or undefined
behaviour (a read outside the string). -/
inductive outcome (α : Type) where
  | ok (value : α)
  | empty_string
  | no_digit
  | non_digit
  | undefined
deriving DecidableEq

/-- The character `int_str[k]`: an element for `k < size`, the terminating null character for
`k = size`, undefined beyond. -/
def char_at (s : List Char) (k : Nat) : Option Char :=
  if k < s.length then s[k]? else if k = s.length then some (Char.ofNat 0) else none

/-- The C function `isdigit` on a character of the string: true for `'0'` to `'9'` only. -/
def isdigit (c : Char) : Bool := decide (48 ≤ c.toNat) && decide (c.toNat ≤ 57)

/-- The loop `while (int_str[i] == ' ') i++`. -/
def skip_spaces_up (s : List Char) : Nat → Nat → Option Nat
  | 0, _ => none
  | fuel + 1, i =>
    match char_at s i with
    | none => none
    | some c => if c = ' ' then skip_spaces_up s fuel (i + 1) else some i

/-- The loop `while (int_str[l] == ' ') l--`.  Decrementing `l = 0` wraps around to
`2^64 - 1`, an index outside the string: `none`. -/
def skip_spaces_down (s : List Char) : Nat → Option Nat
  | 0 =>
    match char_at s 0 with
    | none => none
    | some c => if c = ' ' then none else some 0
  | l + 1 =>
    match char_at s (l + 1) with
    | none => none
    | some c => if c = ' ' then skip_spaces_down s l else some (l + 1)

/-- The loop `while (int_str[i] == '0')` that skips leading zeros; at `i == l` it stores the
digit 0 and, in the branch with a sign character (`signed`), resets the sign to `+`. -/
def skip_zeros (s : List Char) (l : Nat) (signed : Bool) :
    Nat → Nat → Char → List Nat → Option (Nat × Char × List Nat)
  | 0, _, _, _ => none
  | fuel + 1, i, sign, digits =>
    match char_at s i with
    | none => none
    | some c =>
      if c = '0' then
        if i = l then skip_zeros s l signed fuel (i + 1) (if signed then '+' else sign) (0 :: digits)
        else skip_zeros s l signed fuel (i + 1) sign digits
      else some (i, sign, digits)

/-- The stored digit `(uint8_t)(int_str[j] - '0')`. -/
def char_digit (c : Char) : Nat := to_uint8 ((c.toNat : Int) - 48)

/-- The loop `for (j = i; j < l + 1; j++)` that stores the digits: `count` is the number of
rounds left. -/
def store_digits (s : List Char) : Nat → Nat → List Nat → outcome (List Nat)
  | 0, _, digits => outcome.ok digits
  | count + 1, j, digits =>
    match char_at s j with
    | none => outcome.undefined
    | some c =>
      if isdigit c then store_digits s count (j + 1) (digits ++ [char_digit c])
      else outcome.non_digit

/-- The part of the string constructor after the first significant character has been
classified: skip zeros, then store the digits. -/
def parse_digits (s : List Char) (l : Nat) (signed : Bool) (i : Nat) (sign : Char) :
    outcome bigint :=
  match skip_zeros s l signed (s.length + 1) i sign [] with
  | none => outcome.undefined
  | some (i2, sign2, digits) =>
    match store_digits s (l + 1 - i2) i2 digits with
    | outcome.ok ds => outcome.ok ⟨sign2, ds⟩
    | outcome.empty_string => outcome.empty_string
    | outcome.no_digit => outcome.no_digit
    | outcome.non_digit => outcome.non_digit
    | outcome.undefined => outcome.undefined

/-- The constructor `bigint(const std::string &int_str)` (the spec's `fromString`). -/
def from_string (int_str : List Char) : outcome bigint :=
  if int_str.length = 0 then outcome.empty_string
  else
    match skip_spaces_up int_str (int_str.length + 1) 0 with
    | none => outcome.undefined
    | some i =>
      match skip_spaces_down int_str (int_str.length - 1) with
      | none => outcome.undefined
      | some l =>
        match char_at int_str i with
        | none => outcome.undefined
        | some c =>
          if c = '-' ∨ c = '+' then
            if i = l then outcome.no_digit
            else
              match char_at int_str (i + 1) with
              | none => outcome.undefined
              | some c1 =>
                if c1 = ' ' then outcome.no_digit
                else parse_digits int_str l true (i + 1) c
          else if isdigit c then parse_digits int_str l false i '+'
          else outcome.non_digit

/-! ## Comparison -/

/-- The member `operator==` (the spec's `equal`). -/
def operator_eq (this other : bigint) : Bool :=
  if this.sign ≠ other.sign then false
  else if this.digits.length ≠ other.digits.length then false
  else if this.digits ≠ other.digits then false
  else true

/-- The member `operator!=`. -/
def operator_ne (this other : bigint) : Bool := !(operator_eq this other)

/-- The member `operator<=` (the spec's `compareLessEqual`). -/
def operator_le (this other : bigint) : Bool :=
  if this.sign ≠ other.sign then
    if this.sign = '+' then false else true
  else if this.sign = '+' then
    if this.digits.length > other.digits.length then false
    else if this.digits.length = other.digits.length ∧ vector_lt other.digits this.digits then
      false
    else true
  else
    if this.digits.length < other.digits.length then false
    else if this.digits.length = other.digits.length ∧ vector_lt this.digits other.digits then
      false
    else true

/-- The member `operator<` (the spec's `less`). -/
def operator_lt (this other : bigint) : Bool := operator_le this other && operator_ne this other

/-- The member `operator>=`. -/
def operator_ge (this other : bigint) : Bool := !(operator_lt this other)

/-- The member `operator>`. -/
def operator_gt (this other : bigint) : Bool := !(operator_le this other)

/-! ## Negation, addition, subtraction -/

/-- The unary member `operator-` (the spec's `negate`). -/
def operator_neg (this : bigint) : bigint :=
  if this.sign = '+' then ⟨'-', this.digits⟩ else ⟨'+', this.digits⟩

/-- Same-sign addition, the loop over the digits both operands have. -/
def add_both_step (od : List Nat) (i : Nat) (st : List Nat × Nat) : Option (List Nat × Nat) := do
  let k ← index_back st.1.length i
  let ko ← index_back od.length i
  let d ← st.1[k]?
  let o ← od[ko]?
  let temp := (d + o + st.2) % 256
  let ds ← write st.1 k (temp % 10)
  pure (ds, temp / 10)

/-- Same-sign addition, the remaining digits when `this` is the longer operand. -/
def add_this_step (i : Nat) (st : List Nat × Nat) : Option (List Nat × Nat) := do
  let k ← index_back st.1.length i
  let d ← st.1[k]?
  let temp := (d + st.2) % 256
  let ds ← write st.1 k (temp % 10)
  pure (ds, temp / 10)

/-- Same-sign addition, the remaining digits when `other` is the longer operand. -/
def add_other_step (od : List Nat) (i : Nat) (st : List Nat × Nat) : Option (List Nat × Nat) := do
  let ko ← index_back od.length i
  let o ← od[ko]?
  let temp := (o + st.2) % 256
  pure ((temp % 10) :: st.1, temp / 10)

/-- The branch on `temp < 0` shared by the borrow loops: the digit stored and the borrow. -/
def borrow_digit (temp : Int) : Nat × Nat :=
  if temp < 0 then (to_uint8 (temp + 10), 1) else (to_uint8 temp, 0)

/-- Opposite signs, `this` the larger magnitude: the loop over the digits of `other`. -/
def sub_other_step (od : List Nat) (i : Nat) (st : List Nat × Nat) : Option (List Nat × Nat) := do
  let k ← index_back st.1.length i
  let ko ← index_back od.length i
  let d ← st.1[k]?
  let o ← od[ko]?
  let temp := to_int8 ((d : Int) - (o : Int) - (st.2 : Int))
  let ds ← write st.1 k (borrow_digit temp).1
  pure (ds, (borrow_digit temp).2)

/-- Opposite signs, `this` the larger magnitude: the loop `while (b != 0)`.  The fuel is the
number of digits left of position `i`; with none left the index wraps around. -/
def borrow_while : Nat → Nat → List Nat × Nat → Option (List Nat × Nat)
  | 0, _, st => if st.2 ≠ 0 then none else some st
  | fuel + 1, i, st =>
    if st.2 ≠ 0 then do
      let k ← index_back st.1.length i
      let d ← st.1[k]?
      let temp := to_int8 ((d : Int) - (st.2 : Int))
      let ds ← write st.1 k (borrow_digit temp).1
      borrow_while fuel (i + 1) (ds, (borrow_digit temp).2)
    else some st

/-- Opposite signs, `other` the larger magnitude: the loop over the digits of `this`. -/
def rsub_this_step (od : List Nat) (i : Nat) (st : List Nat × Nat) : Option (List Nat × Nat) := do
  let k ← index_back st.1.length i
  let ko ← index_back od.length i
  let d ← st.1[k]?
  let o ← od[ko]?
  let temp := to_int8 ((o : Int) - (d : Int) - (st.2 : Int))
  let ds ← write st.1 k (borrow_digit temp).1
  pure (ds, (borrow_digit temp).2)

/-- Opposite signs, `other` the larger magnitude: the remaining digits of `other`. -/
def rsub_other_step (od : List Nat) (i : Nat) (st : List Nat × Nat) : Option (List Nat × Nat) := do
  let ko ← index_back od.length i
  let o ← od[ko]?
  let temp := to_int8 ((o : Int) - (st.2 : Int))
  pure ((borrow_digit temp).1 :: st.1, (borrow_digit temp).2)

/-- The loop `while ((digits.size() > 1) and (digits[0] == 0))` erasing the first digit. -/
def strip_leading_zeros : List Nat → List Nat
  | [] => []
  | [d] => [d]
  | d :: e :: ds => if d = 0 then strip_leading_zeros (e :: ds) else d :: e :: ds

/-- The same-sign branch of `operator+=`. -/
def add_same_sign (digits od : List Nat) : Option (List Nat) := do
  let min_size := min digits.length od.length
  let st1 ← for_loop (add_both_step od) 0 min_size (digits, 0)
  let st2 ←
    if digits.length > od.length then
      for_loop add_this_step min_size (digits.length - min_size) st1
    else if digits.length < od.length then
      for_loop (add_other_step od) min_size (od.length - min_size) st1
    else some st1
  pure (if st2.2 ≠ 0 then st2.2 :: st2.1 else st2.1)

/-- The opposite-sign branch of `operator+=`: the new sign and digits before stripping. -/
def add_opposite_sign (sign : Char) (digits : List Nat) (other : bigint) :
    Option (Char × List Nat) :=
  if digits.length > other.digits.length ∨
      (digits.length = other.digits.length ∧ vector_lt other.digits digits) then do
    let st1 ← for_loop (sub_other_step other.digits) 0 other.digits.length (digits, 0)
    let st2 ← borrow_while (digits.length - other.digits.length) other.digits.length st1
    pure (sign, st2.1)
  else do
    let st1 ← for_loop (rsub_this_step other.digits) 0 digits.length (digits, 0)
    let st2 ← for_loop (rsub_other_step other.digits) digits.length
      (other.digits.length - digits.length) st1
    pure (other.sign, st2.1)

/-- The member `operator+=`; `none` is undefined behaviour. -/
def operator_add_assign (this other : bigint) : Option bigint := do
  let d0 ← this.digits[0]?
  if d0 = 0 then some other
  else do
    let o0 ← other.digits[0]?
    if o0 = 0 then some this
    else if operator_eq this (operator_neg other) then some ⟨'+', [0]⟩
    else if this.sign = other.sign then do
      let ds ← add_same_sign this.digits other.digits
      pure ⟨this.sign, strip_leading_zeros ds⟩
    else do
      let r ← add_opposite_sign this.sign this.digits other
      pure ⟨r.1, strip_leading_zeros r.2⟩

/-- The member `operator-=`; `none` is undefined behaviour. -/
def operator_sub_assign (this other : bigint) : Option bigint := do
  let d0 ← this.digits[0]?
  if d0 = 0 then some (operator_neg other)
  else do
    let o0 ← other.digits[0]?
    if o0 = 0 then some this
    else if operator_eq this other then some ⟨'+', [0]⟩
    else operator_add_assign this (operator_neg other)

/-- The free `operator+` (the spec's `add`): `lhs` is a copy. -/
def operator_add (lhs rhs : bigint) : Option bigint := operator_add_assign lhs rhs

/-- The free `operator-` (the spec's `subtract`). -/
def operator_sub (lhs rhs : bigint) : Option bigint := operator_sub_assign lhs rhs

/-! ## Multiplication -/

/-- The inner loop body of `operator*=`: the state is the accumulator and the carry `c`. -/
def mul_inner_step (digits od : List Nat) (i j : Nat) (st : List Nat × Nat) :
    Option (List Nat × Nat) := do
  let k ← index_back digits.length i
  let ko ← index_back od.length j
  let d ← digits[k]?
  let o ← od[ko]?
  let temp := (d * o + st.2) % 256
  let kp ← index_back st.1.length (i + j)
  let p ← st.1[kp]?
  let p1 := (p + temp % 10) % 256
  let acc ← write st.1 kp (p1 % 10)
  pure (acc, (temp / 10 + p1 / 10) % 256)

/-- The outer loop body of `operator*=`: the state is the accumulator. -/
def mul_outer_step (digits od : List Nat) (i : Nat) (acc : List Nat) : Option (List Nat) := do
  let st ← for_loop (mul_inner_step digits od i) 0 od.length (acc, 0)
  let k ← index_back digits.length i
  write st.1 k st.2

/-- The loop `while (partial_products[0] == 0)` erasing the first element; it has no guard on
the size, so on a vector of zeros it reads element 0 of an empty vector. -/
def strip_zeros_unguarded : List Nat → Option (List Nat)
  | [] => none
  | d :: ds => if d = 0 then strip_zeros_unguarded ds else some (d :: ds)

/-- The member `operator*=`; `none` is undefined behaviour. -/
def operator_mul_assign (this other : bigint) : Option bigint := do
  let d0 ← this.digits[0]?
  let zero_seen ← if d0 = 0 then some true else (other.digits[0]?).map (fun o0 => decide (o0 = 0))
  if zero_seen then some ⟨'+', [0]⟩
  else do
    let o0 ← other.digits[0]?
    if this.sign = '+' ∧ d0 = 1 ∧ this.digits.length = 1 then some other
    else if other.sign = '+' ∧ o0 = 1 ∧ other.digits.length = 1 then some this
    else if this.sign = '-' ∧ d0 = 1 ∧ this.digits.length = 1 then some (operator_neg other)
    else if other.sign = '-' ∧ o0 = 1 ∧ other.digits.length = 1 then
      some ⟨if this.sign = '-' then '+' else '-', this.digits⟩
    else do
      let sign := if this.sign = other.sign then '+' else '-'
      let acc0 := List.replicate (this.digits.length + other.digits.length) 0
      let acc ← for_loop (mul_outer_step this.digits other.digits) 0 this.digits.length acc0
      let ds ← strip_zeros_unguarded acc
      pure ⟨sign, ds⟩

/-- The free `operator*` (the spec's `multiply`). -/
def operator_mul (lhs rhs : bigint) : Option bigint := operator_mul_assign lhs rhs

/-! ## Printing -/

/-- The stream insertion `operator<<` (the spec's `toString`): the sign character, then each
digit printed as a decimal number. -/
def to_string (num_bigint : bigint) : List Char :=
  num_bigint.sign :: (num_bigint.digits.map (fun d => (Nat.repr d).toList)).flatten

/-! ## Denotation and invariants -/

/-- The natural number written by most-significant-first decimal digits. -/
def magnitude (ds : List Nat) : Nat := ds.foldl (fun acc d => 10 * acc + d) 0

/-- The integer denoted by a `bigint`. -/
def value (a : bigint) : Int :=
  if a.sign = '-' then -(magnitude a.digits : Int) else (magnitude a.digits : Int)

/-- The data-model invariants: the sign is one of the two sign characters, the magnitude is
non-empty, every digit is in `[0,9]`, no leading zero unless the length is 1, zero is
positive. -/
def invariants (a : bigint) : Prop :=
  (a.sign = '+' ∨ a.sign = '-') ∧ a.digits ≠ [] ∧ (∀ d ∈ a.digits, d ≤ 9) ∧
    (1 < a.digits.length → a.digits.head? ≠ some 0) ∧ (a.digits = [0] → a.sign = '+')

instance (a : bigint) : Decidable (invariants a) := by
  unfold invariants; infer_instance

/-! ## Proof devices for the string constructor

The constructor works with indices into the string.  The two functions below describe its
result on the list of significant characters (the string without the spaces at both ends);
`from_string_trimmed` proves that the constructor computes them. -/

/-- The result of the zero-skipping and digit-storing loops on the characters from the current
position to the last significant one. -/
def digits_outcome (signed : Bool) (sign : Char) (body : List Char) : outcome bigint :=
  match body.dropWhile (fun c => decide (c = '0')) with
  | [] => outcome.ok ⟨if signed then '+' else sign, [0]⟩
  | z :: zs =>
    if (z :: zs).all isdigit then outcome.ok ⟨sign, (z :: zs).map char_digit⟩
    else outcome.non_digit

/-- The result of the constructor on the significant characters of the string. -/
def trimmed_outcome : List Char → outcome bigint
  | [] => outcome.undefined
  | c :: rest =>
    if c = '-' ∨ c = '+' then
      match rest with
      | [] => outcome.no_digit
      | c1 :: rest1 =>
        if c1 = ' ' then outcome.no_digit else digits_outcome true c (c1 :: rest1)
    else if isdigit c then digits_outcome false '+' (c :: rest)
    else outcome.non_digit

/-! ## Facts about the denotation -/

theorem foldl_digits_acc (ds : List Nat) (a : Nat) :
    ds.foldl (fun acc d => 10 * acc + d) a = a * 10 ^ ds.length + magnitude ds := by
  induction ds generalizing a with
  | nil => simp [magnitude]
  | cons x xs ih =>
    have h1 := ih (10 * a + x)
    have h2 := ih (10 * 0 + x)
    simp only [magnitude, List.foldl_cons, List.length_cons] at *
    rw [h1, h2]; ring

theorem magnitude_nil : magnitude [] = 0 := rfl

theorem magnitude_cons (x : Nat) (xs : List Nat) :
    magnitude (x :: xs) = x * 10 ^ xs.length + magnitude xs := by
  have h := foldl_digits_acc xs (10 * 0 + x)
  simp only [magnitude, List.foldl_cons] at *
  rw [h]; ring

theorem magnitude_append (xs ys : List Nat) :
    magnitude (xs ++ ys) = magnitude xs * 10 ^ ys.length + magnitude ys := by
  induction xs with
  | nil => simp [magnitude_nil]
  | cons x xs ih =>
    rw [List.cons_append, magnitude_cons, magnitude_cons, ih, List.length_append]
    ring

theorem magnitude_lt_pow (ds : List Nat) (h : ∀ d ∈ ds, d ≤ 9) :
    magnitude ds < 10 ^ ds.length := by
  induction ds with
  | nil => simp [magnitude_nil]
  | cons x xs ih =>
    have hx : x ≤ 9 := h x (List.mem_cons_self _ _)
    have hxs := ih (fun d hd => h d (List.mem_cons_of_mem _ hd))
    rw [magnitude_cons, List.length_cons, pow_succ]
    nlinarith

theorem magnitude_ge_pow (x : Nat) (xs : List Nat) (hx : x ≠ 0) :
    10 ^ xs.length ≤ magnitude (x :: xs) := by
  rw [magnitude_cons]
  have : 1 ≤ x := Nat.one_le_iff_ne_zero.mpr hx
  nlinarith [Nat.zero_le (magnitude xs), Nat.pos_pow_of_pos xs.length (show 0 < 10 by norm_num)]

theorem magnitude_replicate_zero (n : Nat) : magnitude (List.replicate n 0) = 0 := by
  induction n with
  | zero => rfl
  | succ n ih => rw [List.replicate_succ, magnitude_cons, ih]; simp

/-- Writing one element changes the magnitude by the difference at that element's weight. -/
theorem magnitude_set (ds : List Nat) (k x : Nat) (hk : k < ds.length) :
    magnitude (ds.set k x) + ds[k] * 10 ^ (ds.length - 1 - k)
      = magnitude ds + x * 10 ^ (ds.length - 1 - k) := by
  induction ds generalizing k with
  | nil => simp at hk
  | cons y ys ih =>
    cases k with
    | zero =>
      simp only [List.set_cons_zero, magnitude_cons, List.length_cons, List.getElem_cons_zero]
      simp only [Nat.add_sub_cancel, Nat.sub_zero]
      ring
    | succ k =>
      have hk2 : k < ys.length := by simpa using hk
      have h := ih k hk2
      simp only [List.set_cons_succ, magnitude_cons, List.length_cons, List.getElem_cons_succ,
        List.length_set]
      have e : ys.length + 1 - 1 - (k + 1) = ys.length - 1 - k := by omega
      rw [e]
      linarith

/-- Equal-length digit vectors with equal magnitude are equal. -/
theorem magnitude_inj_of_length (xs ys : List Nat) (hl : xs.length = ys.length)
    (hx : ∀ d ∈ xs, d ≤ 9) (hy : ∀ d ∈ ys, d ≤ 9) (h : magnitude xs = magnitude ys) :
    xs = ys := by
  induction xs generalizing ys with
  | nil =>
    cases ys with
    | nil => rfl
    | cons y ys => simp at hl
  | cons x xs ih =>
    cases ys with
    | nil => simp at hl
    | cons y ys =>
      have hl2 : xs.length = ys.length := by simpa using hl
      have hxs : ∀ d ∈ xs, d ≤ 9 := fun d hd => hx d (List.mem_cons_of_mem _ hd)
      have hys : ∀ d ∈ ys, d ≤ 9 := fun d hd => hy d (List.mem_cons_of_mem _ hd)
      have b1 := magnitude_lt_pow xs hxs
      have b2 := magnitude_lt_pow ys hys
      rw [magnitude_cons, magnitude_cons, hl2] at h
      rw [hl2] at b1
      have hp : 0 < 10 ^ ys.length := Nat.pos_pow_of_pos _ (by norm_num)
      have hxy : x = y := by
        rcases Nat.lt_trichotomy x y with hlt | heq | hgt
        · exfalso
          have : (x + 1) * 10 ^ ys.length ≤ y * 10 ^ ys.length := Nat.mul_le_mul_right _ hlt
          nlinarith
        · exact heq
        · exfalso
          have : (y + 1) * 10 ^ ys.length ≤ x * 10 ^ ys.length := Nat.mul_le_mul_right _ hgt
          nlinarith
      subst hxy
      have hm : magnitude xs = magnitude ys := by omega
      rw [ih ys hl2 hxs hys hm]

/-- On equal-length digit vectors the lexicographic order is the numeric order. -/
theorem vector_lt_iff (xs ys : List Nat) (hl : xs.length = ys.length)
    (hx : ∀ d ∈ xs, d ≤ 9) (hy : ∀ d ∈ ys, d ≤ 9) :
    vector_lt xs ys = true ↔ magnitude xs < magnitude ys := by
  induction xs generalizing ys with
  | nil =>
    cases ys with
    | nil => simp [vector_lt, magnitude_nil]
    | cons y ys => simp at hl
  | cons x xs ih =>
    cases ys with
    | nil => simp at hl
    | cons y ys =>
      have hl2 : xs.length = ys.length := by simpa using hl
      have hxs : ∀ d ∈ xs, d ≤ 9 := fun d hd => hx d (List.mem_cons_of_mem _ hd)
      have hys : ∀ d ∈ ys, d ≤ 9 := fun d hd => hy d (List.mem_cons_of_mem _ hd)
      have b1 := magnitude_lt_pow xs hxs
      have b2 := magnitude_lt_pow ys hys
      rw [hl2] at b1
      have hp : 0 < 10 ^ ys.length := Nat.pos_pow_of_pos _ (by norm_num)
      rw [magnitude_cons, magnitude_cons, hl2]
      unfold vector_lt
      by_cases h1 : x < y
      · simp only [h1, if_true, true_iff]
        have : (x + 1) * 10 ^ ys.length ≤ y * 10 ^ ys.length := Nat.mul_le_mul_right _ h1
        nlinarith
      · by_cases h2 : y < x
        · simp only [h1, h2, if_true, if_false]
          have : (y + 1) * 10 ^ ys.length ≤ x * 10 ^ ys.length := Nat.mul_le_mul_right _ h2
          constructor
          · intro h; cases h
          · intro h; nlinarith
        · have hxy : x = y := by omega
          subst hxy
          simp only [h1, if_false]
          rw [ih ys hl2 hxs hys]
          omega

/-- A canonical magnitude with more digits is larger. -/
theorem magnitude_lt_of_length_lt (xs ys : List Nat) (hx : ∀ d ∈ xs, d ≤ 9)
    (hy0 : 1 < ys.length → ys.head? ≠ some 0) (hl : xs.length < ys.length) (hxne : xs ≠ []) :
    magnitude xs < magnitude ys := by
  have b1 := magnitude_lt_pow xs hx
  cases ys with
  | nil => simp at hl
  | cons y ys =>
    have hlen : 1 < (y :: ys).length := by
      cases xs with
      | nil => exact absurd rfl hxne
      | cons a as => simp only [List.length_cons] at hl ⊢; omega
    have hy : y ≠ 0 := by
      intro h0
      exact hy0 hlen (by simp [h0])
    have b2 := magnitude_ge_pow y ys hy
    have : 10 ^ xs.length ≤ 10 ^ ys.length :=
      Nat.pow_le_pow_right (by norm_num) (by simp only [List.length_cons] at hl; omega)
    omega

/-- A canonical magnitude is zero only for the single digit 0. -/
theorem magnitude_eq_zero (ds : List Nat) (hne : ds ≠ [])
    (h0 : 1 < ds.length → ds.head? ≠ some 0) (h : magnitude ds = 0) : ds = [0] := by
  cases ds with
  | nil => exact absurd rfl hne
  | cons y ys =>
    cases ys with
    | nil =>
      rw [magnitude_cons, magnitude_nil] at h
      simp at h
      rw [h]
    | cons z zs =>
      exfalso
      have hy : y ≠ 0 := by
        intro hy0
        exact h0 (by simp) (by simp [hy0])
      have := magnitude_ge_pow y (z :: zs) hy
      have hp : 0 < 10 ^ (z :: zs).length := Nat.pos_pow_of_pos _ (by norm_num)
      omega

/-- Canonical digit vectors are determined by their magnitude. -/
theorem magnitude_inj (xs ys : List Nat) (hxne : xs ≠ []) (hyne : ys ≠ [])
    (hx : ∀ d ∈ xs, d ≤ 9) (hy : ∀ d ∈ ys, d ≤ 9)
    (hx0 : 1 < xs.length → xs.head? ≠ some 0) (hy0 : 1 < ys.length → ys.head? ≠ some 0)
    (h : magnitude xs = magnitude ys) : xs = ys := by
  rcases Nat.lt_trichotomy xs.length ys.length with hlt | heq | hgt
  · have := magnitude_lt_of_length_lt xs ys hx hy0 hlt hxne
    omega
  · exact magnitude_inj_of_length xs ys heq hx hy h
  · have := magnitude_lt_of_length_lt ys xs hy hx0 hgt hyne
    omega

/-! ## Comparison -/

theorem operator_eq_iff (a b : bigint) : operator_eq a b = true ↔ a = b := by
  cases a with
  | mk sa da =>
    cases b with
    | mk sb db =>
      unfold operator_eq
      by_cases hs : sa = sb
      · by_cases hd : da = db
        · subst hs; subst hd; simp
        · by_cases hl : da.length = db.length <;> simp [hs, hd, hl]
      · simp [hs]

theorem value_pos (a : bigint) (h : a.sign = '+') : value a = (magnitude a.digits : Int) := by
  unfold value; rw [h]; simp

theorem value_neg (a : bigint) (h : a.sign = '-') : value a = -(magnitude a.digits : Int) := by
  unfold value; rw [h]; simp

/-- A negative canonical value is strictly below zero. -/
theorem magnitude_pos_of_neg (a : bigint) (ha : invariants a) (h : a.sign = '-') :
    0 < magnitude a.digits := by
  obtain ⟨_, hne, _, h0, hz⟩ := ha
  rcases Nat.eq_zero_or_pos (magnitude a.digits) with hm | hm
  · have := hz (magnitude_eq_zero a.digits hne h0 hm)
    rw [h] at this
    exact absurd this (by decide)
  · exact hm

theorem invariants_eq_of_value (a b : bigint) (ha : invariants a) (hb : invariants b)
    (h : value a = value b) : a = b := by
  have pa := magnitude_pos_of_neg a ha
  have pb := magnitude_pos_of_neg b hb
  obtain ⟨hsa, hnea, hda, h0a, _⟩ := ha
  obtain ⟨hsb, hneb, hdb, h0b, _⟩ := hb
  cases a with
  | mk sa da =>
    cases b with
    | mk sb db =>
      simp only at hsa hsb hnea hneb hda hdb h0a h0b pa pb
      have key : sa = sb ∧ magnitude da = magnitude db := by
        rcases hsa with hsa | hsa <;> rcases hsb with hsb | hsb
        · rw [value_pos _ hsa, value_pos _ hsb] at h
          exact ⟨by rw [hsa, hsb], by exact_mod_cast h⟩
        · rw [value_pos _ hsa, value_neg _ hsb] at h
          have := pb hsb
          simp only at h
          omega
        · rw [value_neg _ hsa, value_pos _ hsb] at h
          have := pa hsa
          simp only at h
          omega
        · rw [value_neg _ hsa, value_neg _ hsb] at h
          simp only at h
          exact ⟨by rw [hsa, hsb], by omega⟩
      rw [key.1, magnitude_inj da db hnea hneb hda hdb h0a h0b key.2]

/-- The order of two canonical magnitudes, decided by length and then lexicographically. -/
theorem magnitude_lt_iff (xs ys : List Nat) (hxne : xs ≠ []) (hyne : ys ≠ [])
    (hx : ∀ d ∈ xs, d ≤ 9) (hy : ∀ d ∈ ys, d ≤ 9)
    (hx0 : 1 < xs.length → xs.head? ≠ some 0) (hy0 : 1 < ys.length → ys.head? ≠ some 0) :
    magnitude xs < magnitude ys ↔
      (xs.length < ys.length ∨ (xs.length = ys.length ∧ vector_lt xs ys = true)) := by
  rcases Nat.lt_trichotomy xs.length ys.length with hlt | heq | hgt
  · have := magnitude_lt_of_length_lt xs ys hx hy0 hlt hxne
    constructor
    · intro _; exact Or.inl hlt
    · intro _; exact this
  · rw [← vector_lt_iff xs ys heq hx hy]
    constructor
    · intro h; exact Or.inr ⟨heq, h⟩
    · rintro (h | ⟨_, h⟩)
      · omega
      · exact h
  · have := magnitude_lt_of_length_lt ys xs hy hx0 hgt hyne
    constructor
    · intro h; omega
    · rintro (h | ⟨h, _⟩) <;> omega

theorem operator_le_iff_value (a b : bigint) (ha : invariants a) (hb : invariants b) :
    operator_le a b = true ↔ value a ≤ value b := by
  have pa := magnitude_pos_of_neg a ha
  have pb := magnitude_pos_of_neg b hb
  obtain ⟨hsa, hnea, hda, h0a, _⟩ := ha
  obtain ⟨hsb, hneb, hdb, h0b, _⟩ := hb
  have hba := magnitude_lt_iff b.digits a.digits hneb hnea hdb hda h0b h0a
  have hab := magnitude_lt_iff a.digits b.digits hnea hneb hda hdb h0a h0b
  unfold operator_le
  rcases hsa with hsa | hsa <;> rcases hsb with hsb | hsb
  · rw [value_pos _ hsa, value_pos _ hsb]
    have hs : ¬ (a.sign ≠ b.sign) := by rw [hsa, hsb]; simp
    rw [if_neg hs, if_pos hsa]
    by_cases h1 : a.digits.length > b.digits.length
    · rw [if_pos h1]
      have : magnitude b.digits < magnitude a.digits := hba.mpr (Or.inl h1)
      constructor
      · intro h; cases h
      · intro h; omega
    · rw [if_neg h1]
      by_cases h2 : a.digits.length = b.digits.length ∧ vector_lt b.digits a.digits = true
      · rw [if_pos h2]
        have : magnitude b.digits < magnitude a.digits := hba.mpr (Or.inr ⟨h2.1.symm, h2.2⟩)
        constructor
        · intro h; cases h
        · intro h; omega
      · rw [if_neg h2]
        have : ¬ magnitude b.digits < magnitude a.digits := by
          intro h
          rcases hba.mp h with h | ⟨h3, h4⟩
          · exact h1 h
          · exact h2 ⟨h3.symm, h4⟩
        constructor
        · intro _; omega
        · intro _; rfl
  · rw [value_pos _ hsa, value_neg _ hsb]
    have hs : a.sign ≠ b.sign := by rw [hsa, hsb]; decide
    rw [if_pos hs, if_pos hsa]
    have := pb hsb
    constructor
    · intro h; cases h
    · intro h; omega
  · rw [value_neg _ hsa, value_pos _ hsb]
    have hs : a.sign ≠ b.sign := by rw [hsa, hsb]; decide
    have hn : ¬ a.sign = '+' := by rw [hsa]; decide
    rw [if_pos hs, if_neg hn]
    constructor
    · intro _; omega
    · intro _; rfl
  · rw [value_neg _ hsa, value_neg _ hsb]
    have hs : ¬ (a.sign ≠ b.sign) := by rw [hsa, hsb]; simp
    have hn : ¬ a.sign = '+' := by rw [hsa]; decide
    rw [if_neg hs, if_neg hn]
    by_cases h1 : a.digits.length < b.digits.length
    · rw [if_pos h1]
      have : magnitude a.digits < magnitude b.digits := hab.mpr (Or.inl h1)
      constructor
      · intro h; cases h
      · intro h; omega
    · rw [if_neg h1]
      by_cases h2 : a.digits.length = b.digits.length ∧ vector_lt a.digits b.digits = true
      · rw [if_pos h2]
        have : magnitude a.digits < magnitude b.digits := hab.mpr (Or.inr h2)
        constructor
        · intro h; cases h
        · intro h; omega
      · rw [if_neg h2]
        have : ¬ magnitude a.digits < magnitude b.digits := by
          intro h
          rcases hab.mp h with h | h
          · exact h1 h
          · exact h2 h
        constructor
        · intro _; omega
        · intro _; rfl

theorem operator_lt_iff_value (a b : bigint) (ha : invariants a) (hb : invariants b) :
    operator_lt a b = true ↔ value a < value b := by
  unfold operator_lt operator_ne
  rw [Bool.and_eq_true, operator_le_iff_value a b ha hb, Bool.not_eq_true',
    ← Bool.not_eq_true, operator_eq_iff]
  constructor
  · rintro ⟨h1, h2⟩
    rcases lt_or_eq_of_le h1 with h | h
    · exact h
    · exact absurd (invariants_eq_of_value a b ha hb h) h2
  · intro h
    refine ⟨le_of_lt h, ?_⟩
    intro hab
    rw [hab] at h
    exact lt_irrefl _ h

/-! ## The string constructor -/

theorem char_at_mid (P R : List Char) (c : Char) : char_at (P ++ c :: R) P.length = some c := by
  unfold char_at
  have h : P.length < (P ++ c :: R).length := by simp
  rw [if_pos h, List.getElem?_append_right (le_refl _)]
  simp

theorem char_at_end (s : List Char) : char_at s s.length = some (Char.ofNat 0) := by
  unfold char_at
  simp

/-- The character found just after a prefix: the next element, or the terminating null. -/
theorem char_at_after (P R : List Char) :
    char_at (P ++ R) P.length = some (R.headD (Char.ofNat 0)) := by
  cases R with
  | nil => simpa using char_at_end P
  | cons c R => simpa using char_at_mid P R c

theorem skip_spaces_up_spec (a : Nat) (R : List Char) (hR : R.headD (Char.ofNat 0) ≠ ' ') :
    ∀ (k fuel : Nat), k ≤ a → a - k < fuel →
      skip_spaces_up (List.replicate a ' ' ++ R) fuel k = some a := by
  intro k fuel
  induction fuel generalizing k with
  | zero => intro _ h; omega
  | succ fuel ih =>
    intro hk hf
    unfold skip_spaces_up
    rcases Nat.lt_or_ge k a with hlt | hge
    · have hc : char_at (List.replicate a ' ' ++ R) k = some ' ' := by
        unfold char_at
        simp [List.getElem?_append_left, hlt, List.getElem?_replicate]
        omega
      rw [hc]
      simp only [if_true]
      exact ih (k + 1) (by omega) (by omega)
    · have hka : k = a := by omega
      subst hka
      have hc := char_at_after (List.replicate k ' ') R
      rw [List.length_replicate] at hc
      rw [hc]
      simp only [if_neg hR]

theorem skip_spaces_down_spec (P : List Char) (x : Char) (hx : x ≠ ' ') (b : Nat) :
    ∀ k, k ≤ b →
      skip_spaces_down (P ++ [x] ++ List.replicate b ' ') (P.length + k) = some P.length := by
  intro k
  induction k with
  | zero =>
    intro _
    have hc : char_at (P ++ [x] ++ List.replicate b ' ') P.length = some x := by
      rw [List.append_assoc]; exact char_at_mid P _ x
    cases hP : P.length with
    | zero =>
      rw [hP] at hc
      simp only [Nat.add_zero]
      unfold skip_spaces_down
      rw [hc]; simp [hx]
    | succ n =>
      rw [hP] at hc
      simp only [Nat.add_zero]
      unfold skip_spaces_down
      rw [hc]; simp [hx]
  | succ k ih =>
    intro hk
    have hc : char_at (P ++ [x] ++ List.replicate b ' ') (P.length + (k + 1)) = some ' ' := by
      unfold char_at
      have h1 : P.length + (k + 1) < (P ++ [x] ++ List.replicate b ' ').length := by
        simp; omega
      rw [if_pos h1]
      rw [List.getElem?_append_right (by simp)]
      simp [List.getElem?_replicate]
      omega
    have e : P.length + (k + 1) = (P.length + k) + 1 := by omega
    rw [e] at hc ⊢
    unfold skip_spaces_down
    rw [hc]
    simp only [if_true]
    exact ih (by omega)

theorem skip_spaces_down_blank (b : Nat) :
    ∀ k, k ≤ b → skip_spaces_down (List.replicate (b + 1) ' ') k = none := by
  intro k
  induction k with
  | zero =>
    intro _
    unfold skip_spaces_down
    have : char_at (List.replicate (b + 1) ' ') 0 = some ' ' := by
      unfold char_at; simp
    rw [this]; simp
  | succ k ih =>
    intro hk
    unfold skip_spaces_down
    have : char_at (List.replicate (b + 1) ' ') (k + 1) = some ' ' := by
      unfold char_at
      have h : k + 1 < (List.replicate (b + 1) ' ').length := by simp; omega
      rw [if_pos h, List.getElem?_replicate]
      simp at h
      simp [h]
    rw [this]
    simp only [if_true]
    exact ih (by omega)

/-- Zero skipping that stops at a character before or at the last significant one. -/
theorem skip_zeros_stop (signed : Bool) (sign : Char) (ds : List Nat) (z : Char)
    (zs Q : List Char) (hz : z ≠ '0') (k : Nat) :
    ∀ (P : List Char) (fuel : Nat), k < fuel →
      skip_zeros (P ++ List.replicate k '0' ++ (z :: zs) ++ Q) (P.length + k + zs.length) signed
        fuel P.length sign ds = some (P.length + k, sign, ds) := by
  induction k with
  | zero =>
    intro P fuel hf
    cases fuel with
    | zero => omega
    | succ fuel =>
      unfold skip_zeros
      have hc : char_at (P ++ List.replicate 0 '0' ++ (z :: zs) ++ Q) P.length = some z := by
        simp only [List.replicate_zero, List.append_nil, List.append_assoc, List.cons_append]
        exact char_at_mid P _ z
      rw [hc]
      simp [hz]
  | succ k ih =>
    intro P fuel hf
    cases fuel with
    | zero => omega
    | succ fuel =>
      have hs : P ++ List.replicate (k + 1) '0' ++ (z :: zs) ++ Q
          = (P ++ ['0']) ++ List.replicate k '0' ++ (z :: zs) ++ Q := by
        simp [List.replicate_succ]
      have hc : char_at (P ++ List.replicate (k + 1) '0' ++ (z :: zs) ++ Q) P.length
          = some '0' := by
        simp only [List.replicate_succ, List.append_assoc, List.cons_append]
        exact char_at_mid P _ '0'
      unfold skip_zeros
      rw [hc]
      simp only [if_true]
      have hne : ¬ (P.length = P.length + (k + 1) + zs.length) := by omega
      rw [if_neg hne, hs]
      have := ih (P ++ ['0']) fuel (by omega)
      simp only [List.length_append, List.length_singleton] at this
      have e1 : P.length + 1 + k + zs.length = P.length + (k + 1) + zs.length := by omega
      have e2 : P.length + 1 + k = P.length + (k + 1) := by omega
      rw [e1, e2] at this
      exact this

/-- Zero skipping over a run of zeros that reaches the last significant character. -/
theorem skip_zeros_all (signed : Bool) (sign : Char) (ds : List Nat)
    (Q : List Char) (hQ : Q.headD (Char.ofNat 0) ≠ '0') (k : Nat) :
    ∀ (P : List Char) (fuel : Nat), k + 1 < fuel →
      skip_zeros (P ++ List.replicate (k + 1) '0' ++ Q) (P.length + k) signed
        fuel P.length sign ds
        = some (P.length + k + 1, (if signed then '+' else sign), 0 :: ds) := by
  induction k with
  | zero =>
    intro P fuel hf
    obtain ⟨fuel, rfl⟩ : ∃ f, fuel = f + 2 := ⟨fuel - 2, by omega⟩
    have hc : char_at (P ++ List.replicate (0 + 1) '0' ++ Q) P.length = some '0' := by
      simp only [List.replicate_succ, List.replicate_zero, List.append_assoc, List.cons_append,
        List.nil_append, Nat.zero_add]
      exact char_at_mid P _ '0'
    have hc2 : char_at (P ++ List.replicate (0 + 1) '0' ++ Q) (P.length + 1)
        = some (Q.headD (Char.ofNat 0)) := by
      have := char_at_after (P ++ List.replicate (0 + 1) '0') Q
      simpa using this
    unfold skip_zeros
    rw [hc]
    simp only [if_true, Nat.add_zero]
    unfold skip_zeros
    rw [hc2]
    simp only [if_neg hQ]
  | succ k ih =>
    intro P fuel hf
    cases fuel with
    | zero => omega
    | succ fuel =>
      have hs : P ++ List.replicate (k + 1 + 1) '0' ++ Q
          = (P ++ ['0']) ++ List.replicate (k + 1) '0' ++ Q := by
        simp [List.replicate_succ]
      have hc : char_at (P ++ List.replicate (k + 1 + 1) '0' ++ Q) P.length = some '0' := by
        simp only [List.replicate_succ, List.append_assoc, List.cons_append]
        exact char_at_mid P _ '0'
      unfold skip_zeros
      rw [hc]
      simp only [if_true]
      have hne : ¬ (P.length = P.length + (k + 1)) := by omega
      rw [if_neg hne, hs]
      have := ih (P ++ ['0']) fuel (by omega)
      simp only [List.length_append, List.length_singleton] at this
      have e1 : P.length + 1 + k = P.length + (k + 1) := by omega
      rw [e1] at this
      exact this

theorem store_digits_spec (cs : List Char) :
    ∀ (P Q : List Char) (ds : List Nat),
      store_digits (P ++ cs ++ Q) cs.length P.length ds
        = if cs.all isdigit then outcome.ok (ds ++ cs.map char_digit) else outcome.non_digit := by
  induction cs with
  | nil => intro P Q ds; simp [store_digits]
  | cons c cs ih =>
    intro P Q ds
    have hc : char_at (P ++ c :: cs ++ Q) P.length = some c := by
      rw [List.append_assoc]; exact char_at_mid P _ c
    have hs : P ++ c :: cs ++ Q = (P ++ [c]) ++ cs ++ Q := by simp
    simp only [List.length_cons]
    unfold store_digits
    rw [hc]
    by_cases hd : isdigit c = true
    · simp only [hd, if_true]
      rw [hs]
      have := ih (P ++ [c]) Q (ds ++ [char_digit c])
      simp only [List.length_append, List.length_singleton] at this
      rw [this]
      simp [hd]
    · simp [hd]

theorem dropWhile_zero_split (body : List Char) :
    ∃ k, body = List.replicate k '0' ++ body.dropWhile (fun c => decide (c = '0')) ∧
      ∀ z zs, body.dropWhile (fun c => decide (c = '0')) = z :: zs → z ≠ '0' := by
  induction body with
  | nil => exact ⟨0, by simp, by simp⟩
  | cons c cs ih =>
    obtain ⟨k, hk, hz⟩ := ih
    by_cases hc : c = '0'
    · subst hc
      refine ⟨k + 1, ?_, ?_⟩
      · simp only [List.dropWhile_cons, decide_True, if_true, List.replicate_succ,
          List.cons_append]
        rw [← hk]
      · intro z zs h
        simp only [List.dropWhile_cons, decide_True, if_true] at h
        exact hz z zs h
    · refine ⟨0, ?_, ?_⟩
      · simp [List.dropWhile_cons, hc]
      · intro z zs h
        simp only [List.dropWhile_cons, hc, decide_False] at h
        simp only [Bool.false_eq_true, if_false, List.cons.injEq] at h
        rw [← h.1]; exact hc

/-- The digit loops of the constructor compute `digits_outcome` on the characters between the
current position and the last significant character. -/
theorem parse_digits_spec (P body Q : List Char) (signed : Bool) (sign : Char)
    (hbody : body ≠ []) (hQ : Q.headD (Char.ofNat 0) ≠ '0') :
    parse_digits (P ++ body ++ Q) (P.length + body.length - 1) signed P.length sign
      = digits_outcome signed sign body := by
  obtain ⟨k, hk, hz⟩ := dropWhile_zero_split body
  unfold parse_digits digits_outcome
  cases hd : body.dropWhile (fun c => decide (c = '0')) with
  | nil =>
    rw [hd, List.append_nil] at hk
    cases k with
    | zero => exact absurd (by simpa using hk) hbody
    | succ k =>
      have hl : P.length + body.length - 1 = P.length + k := by
        rw [hk, List.length_replicate]; omega
      have hfuel : k + 1 < (P ++ body ++ Q).length + 1 := by
        rw [hk]; simp; omega
      rw [hl]
      have h1 := skip_zeros_all signed sign [] Q hQ k P _ hfuel
      rw [← hk] at h1
      rw [h1]
      simp only
      have e : P.length + k + 1 - (P.length + k + 1) = 0 := by omega
      rw [e]
      simp [store_digits]
  | cons z zs =>
    rw [hd] at hk
    have hz0 := hz z zs hd
    have hl : P.length + body.length - 1 = P.length + k + zs.length := by
      rw [hk]; simp; omega
    have hfuel : k < (P ++ body ++ Q).length + 1 := by
      rw [hk]; simp; omega
    rw [hl]
    have hs : P ++ body ++ Q = P ++ List.replicate k '0' ++ (z :: zs) ++ Q := by
      rw [hk]; simp
    rw [hs] at hfuel ⊢
    have h1 := skip_zeros_stop signed sign [] z zs Q hz0 k P _ hfuel
    rw [h1]
    simp only
    have e : P.length + k + zs.length + 1 - (P.length + k) = (z :: zs).length := by
      simp; omega
    rw [e]
    have h2 := store_digits_spec (z :: zs) (P ++ List.replicate k '0') Q []
    simp only [List.length_append, List.length_replicate] at h2
    rw [h2]
    by_cases hall : (z :: zs).all isdigit = true
    · rw [if_pos hall, if_pos hall]; rfl
    · rw [if_neg hall, if_neg hall]

theorem headD_replicate_space_ne_zero (b : Nat) :
    (List.replicate b ' ').headD (Char.ofNat 0) ≠ '0' := by
  cases b with
  | zero => simp
  | succ b => simp [List.replicate_succ]

/-- The constructor on a string with significant characters `mid`: the result is
`trimmed_outcome mid`. -/
theorem from_string_trimmed (a b : Nat) (m : List Char) (x : Char) (hx : x ≠ ' ')
    (hhead : (m ++ [x]).head? ≠ some ' ') :
    from_string (List.replicate a ' ' ++ (m ++ [x]) ++ List.replicate b ' ')
      = trimmed_outcome (m ++ [x]) := by
  have hQ := headD_replicate_space_ne_zero b
  obtain ⟨c, rest, hmid⟩ : ∃ c rest, m ++ [x] = c :: rest := by
    cases m with
    | nil => exact ⟨x, [], rfl⟩
    | cons y ys => exact ⟨y, ys ++ [x], rfl⟩
  have hc : c ≠ ' ' := by
    intro h; apply hhead; rw [hmid, h]; rfl
  have hrest : rest.length = m.length := by
    have := congrArg List.length hmid
    simp at this; omega
  set s := List.replicate a ' ' ++ (m ++ [x]) ++ List.replicate b ' ' with hs
  have hlen : s.length = a + m.length + 1 + b := by
    rw [hs]; simp; omega
  have hup : skip_spaces_up s (s.length + 1) 0 = some a := by
    have := skip_spaces_up_spec a ((m ++ [x]) ++ List.replicate b ' ')
      (by rw [hmid]; simpa using hc) 0 (s.length + 1) (by omega) (by omega)
    rw [← List.append_assoc] at this
    exact this
  have hdown : skip_spaces_down s (s.length - 1) = some (a + m.length) := by
    have := skip_spaces_down_spec (List.replicate a ' ' ++ m) x hx b b (le_refl _)
    simp only [List.length_append, List.length_replicate] at this
    have e : s.length - 1 = a + m.length + b := by omega
    rw [e, ← this, hs]
    simp
  have hci : char_at s a = some c := by
    have := char_at_mid (List.replicate a ' ') (rest ++ List.replicate b ' ') c
    rw [List.length_replicate] at this
    rw [hs, hmid, ← this]
    simp
  unfold from_string
  have hne : ¬ s.length = 0 := by omega
  rw [if_neg hne, hup, hdown]
  simp only [hci]
  rw [hmid]
  simp only [trimmed_outcome]
  by_cases hsign : c = '-' ∨ c = '+'
  · rw [if_pos hsign, if_pos hsign]
    cases rest with
    | nil =>
      have : m.length = 0 := by simpa using hrest.symm
      simp [this]
    | cons c1 rest1 =>
      have hm : m.length = rest1.length + 1 := by simpa using hrest.symm
      have hil : ¬ a = a + m.length := by omega
      rw [if_neg hil]
      have hc1 : char_at s (a + 1) = some c1 := by
        have := char_at_mid (List.replicate a ' ' ++ [c]) (rest1 ++ List.replicate b ' ') c1
        simp only [List.length_append, List.length_replicate, List.length_singleton] at this
        rw [hs, hmid, ← this]
        simp
      simp only [hc1]
      by_cases hsp : c1 = ' '
      · simp [hsp]
      · simp only [if_neg hsp]
        have := parse_digits_spec (List.replicate a ' ' ++ [c]) (c1 :: rest1)
          (List.replicate b ' ') true c (by simp) hQ
        simp only [List.length_append, List.length_replicate, List.length_singleton,
          List.length_cons, List.length_nil, Nat.zero_add] at this
        have e : a + 1 + (rest1.length + 1) - 1 = a + m.length := by omega
        rw [e] at this
        rw [← this, hs, hmid]
        simp
  · rw [if_neg hsign, if_neg hsign]
    by_cases hdig : isdigit c = true
    · simp only [hdig, if_true]
      have := parse_digits_spec (List.replicate a ' ') (c :: rest)
        (List.replicate b ' ') false '+' (by simp) hQ
      simp only [List.length_replicate, List.length_cons] at this
      have e : a + (rest.length + 1) - 1 = a + m.length := by omega
      rw [e] at this
      rw [← this, hs, hmid]
    · simp [hdig]

theorem exists_trim_back (t : List Char) (h : ∃ c ∈ t, c ≠ ' ') :
    ∃ m x b, t = (m ++ [x]) ++ List.replicate b ' ' ∧ x ≠ ' ' := by
  induction t using List.reverseRecOn with
  | nil => obtain ⟨c, hc, _⟩ := h; simp at hc
  | append_singleton xs y ih =>
    by_cases hy : y = ' '
    · obtain ⟨c, hc, hcs⟩ := h
      have hcx : c ∈ xs := by
        rcases List.mem_append.mp hc with h1 | h1
        · exact h1
        · simp at h1; rw [h1] at hcs; exact absurd hy hcs
      obtain ⟨m, x, b, hm, hx⟩ := ih ⟨c, hcx, hcs⟩
      refine ⟨m, x, b + 1, ?_, hx⟩
      rw [hm, hy, List.replicate_succ']
      simp
    · exact ⟨xs, y, 0, by simp, hy⟩

/-- Every string with a character other than the space splits into leading spaces, the
significant characters, and trailing spaces. -/
theorem exists_trim (s : List Char) (h : ∃ c ∈ s, c ≠ ' ') :
    ∃ a m x b, s = List.replicate a ' ' ++ (m ++ [x]) ++ List.replicate b ' ' ∧ x ≠ ' ' ∧
      (m ++ [x]).head? ≠ some ' ' := by
  have back := exists_trim_back
  induction s with
  | nil => obtain ⟨c, hc, _⟩ := h; simp at hc
  | cons y ys ih =>
    by_cases hy : y = ' '
    · obtain ⟨c, hc, hcs⟩ := h
      have hcy : c ∈ ys := by
        rcases List.mem_cons.mp hc with h1 | h1
        · rw [h1] at hcs; exact absurd hy hcs
        · exact h1
      obtain ⟨a, m, x, b, hs, hx, hh⟩ := ih ⟨c, hcy, hcs⟩
      refine ⟨a + 1, m, x, b, ?_, hx, hh⟩
      rw [hs, hy, List.replicate_succ]
      simp
    · obtain ⟨m, x, b, hm, hx⟩ := back (y :: ys) h
      refine ⟨0, m, x, b, by simpa using hm, hx, ?_⟩
      cases m with
      | nil =>
        simp only [List.nil_append, List.head?_cons]
        intro hh; exact hx (Option.some.inj hh)
      | cons z zs =>
        simp only [List.cons_append, List.head?_cons]
        simp only [List.cons_append, List.cons.injEq] at hm
        rw [← hm.1]
        intro hh; exact hy (Option.some.inj hh)

/-- A non-empty string of spaces only: the trailing-space scan decrements its index below
zero. -/
theorem from_string_blank (b : Nat) :
    from_string (List.replicate (b + 1) ' ') = outcome.undefined := by
  unfold from_string
  have hne : ¬ (List.replicate (b + 1) ' ').length = 0 := by simp
  rw [if_neg hne]
  have hup : skip_spaces_up (List.replicate (b + 1) ' ')
      ((List.replicate (b + 1) ' ').length + 1) 0 = some (b + 1) := by
    have := skip_spaces_up_spec (b + 1) [] (by simp) 0
      ((List.replicate (b + 1) ' ').length + 1) (by omega) (by simp)
    simpa using this
  have hdown := skip_spaces_down_blank b b (le_refl _)
  rw [hup]
  simp only [List.length_replicate, Nat.add_sub_cancel]
  rw [hdown]

theorem eq_replicate_of_all_space (s : List Char) (h : ¬ ∃ c ∈ s, c ≠ ' ') :
    s = List.replicate s.length ' ' := by
  induction s with
  | nil => rfl
  | cons y ys ih =>
    have hy : y = ' ' := by
      by_contra hne
      exact h ⟨y, List.mem_cons_self _ _, hne⟩
    have : ¬ ∃ c ∈ ys, c ≠ ' ' := by
      rintro ⟨c, hc, hcs⟩
      exact h ⟨c, List.mem_cons_of_mem _ hc, hcs⟩
    rw [List.length_cons, List.replicate_succ, ← ih this, hy]

theorem isdigit_iff (c : Char) : isdigit c = true ↔ 48 ≤ c.toNat ∧ c.toNat ≤ 57 := by
  unfold isdigit
  simp

theorem char_eq_of_toNat (c d : Char) (h : c.toNat = d.toNat) : c = d := by
  rw [← Char.ofNat_toNat c, ← Char.ofNat_toNat d, h]

theorem char_digit_of_isdigit (c : Char) (h : isdigit c = true) :
    char_digit c = c.toNat - 48 ∧ char_digit c ≤ 9 := by
  rw [isdigit_iff] at h
  unfold char_digit to_uint8
  omega

theorem char_digit_ne_zero (c : Char) (h : isdigit c = true) (hz : c ≠ '0') :
    char_digit c ≠ 0 := by
  intro h0
  have h1 := (char_digit_of_isdigit c h).1
  rw [isdigit_iff] at h
  apply hz
  apply char_eq_of_toNat
  have : ('0' : Char).toNat = 48 := by decide
  omega

theorem isdigit_not_sign (c : Char) (h : isdigit c = true) : ¬ (c = '-' ∨ c = '+') := by
  rw [isdigit_iff] at h
  rintro (rfl | rfl)
  · have : ('-' : Char).toNat = 45 := by decide
    omega
  · have : ('+' : Char).toNat = 43 := by decide
    omega

theorem isdigit_not_space (c : Char) (h : isdigit c = true) : c ≠ ' ' := by
  rw [isdigit_iff] at h
  rintro rfl
  have : (' ' : Char).toNat = 32 := by decide
  omega

theorem digits_outcome_cases (signed : Bool) (sign : Char) (body : List Char) :
    (digits_outcome signed sign body = outcome.ok ⟨if signed then '+' else sign, [0]⟩ ∧
        ∃ k, body = List.replicate k '0') ∨
      (digits_outcome signed sign body = outcome.non_digit ∧ ∃ c ∈ body, isdigit c = false) ∨
      (∃ k z zs, body = List.replicate k '0' ++ z :: zs ∧ z ≠ '0' ∧
        (∀ c ∈ z :: zs, isdigit c = true) ∧
        digits_outcome signed sign body = outcome.ok ⟨sign, (z :: zs).map char_digit⟩) := by
  obtain ⟨k, hk, hz⟩ := dropWhile_zero_split body
  unfold digits_outcome
  cases hd : body.dropWhile (fun c => decide (c = '0')) with
  | nil =>
    left
    rw [hd, List.append_nil] at hk
    exact ⟨rfl, k, hk⟩
  | cons z zs =>
    right
    rw [hd] at hk
    by_cases hall : (z :: zs).all isdigit = true
    · right
      refine ⟨k, z, zs, hk, hz z zs hd, ?_, ?_⟩
      · intro c hc
        exact (List.all_eq_true.mp hall) c hc
      · simp only [hall, if_true]
    · left
      constructor
      · simp only [hall]; rfl
      · have : ¬ ∀ c ∈ z :: zs, isdigit c = true := by
          intro h; exact hall (List.all_eq_true.mpr h)
        push_neg at this
        obtain ⟨c, hc, hcd⟩ := this
        refine ⟨c, ?_, by simpa using hcd⟩
        rw [hk]
        exact List.mem_append_right _ hc

theorem trimmed_outcome_ne_empty (mid : List Char) :
    trimmed_outcome mid ≠ outcome.empty_string := by
  have hd : ∀ signed sign body, digits_outcome signed sign body ≠ outcome.empty_string := by
    intro signed sign body
    rcases digits_outcome_cases signed sign body with ⟨h, _⟩ | ⟨h, _⟩ | ⟨_, _, _, _, _, _, h⟩ <;>
      rw [h] <;> intro hh <;> cases hh
  cases mid with
  | nil => intro h; cases h
  | cons c rest =>
    simp only [trimmed_outcome]
    split_ifs with h1 h2
    · cases rest with
      | nil => intro h; cases h
      | cons c1 rest1 =>
        simp only
        split_ifs
        · intro h; cases h
        · exact hd _ _ _
    · exact hd _ _ _
    · intro h; cases h

theorem digits_outcome_ne_no_digit (signed : Bool) (sign : Char) (body : List Char) :
    digits_outcome signed sign body ≠ outcome.no_digit := by
  rcases digits_outcome_cases signed sign body with ⟨h, _⟩ | ⟨h, _⟩ | ⟨_, _, _, _, _, _, h⟩ <;>
    rw [h] <;> intro hh <;> cases hh

/-- The significant characters on which the constructor throws `no_digit`. -/
theorem trimmed_outcome_no_digit_iff (c : Char) (rest : List Char) :
    trimmed_outcome (c :: rest) = outcome.no_digit ↔
      ((c = '-' ∨ c = '+') ∧ (rest = [] ∨ rest.head? = some ' ')) := by
  simp only [trimmed_outcome]
  by_cases h1 : c = '-' ∨ c = '+'
  · rw [if_pos h1]
    cases rest with
    | nil => simp [h1]
    | cons c1 rest1 =>
      simp only
      by_cases h2 : c1 = ' '
      · simp [h1, h2]
      · rw [if_neg h2]
        constructor
        · intro h; exact absurd h (digits_outcome_ne_no_digit _ _ _)
        · rintro ⟨_, h | h⟩
          · cases h
          · simp at h; exact absurd h h2
  · rw [if_neg h1]
    constructor
    · intro h
      split_ifs at h
      exact absurd h (digits_outcome_ne_no_digit _ _ _)
    · rintro ⟨h, _⟩; exact absurd h h1

/-- An accepted digit run denotes the number it writes. -/
theorem digits_outcome_of_digits (signed : Bool) (sign : Char) (cs : List Char)
    (hs : signed = true ∨ sign = '+')
    (hd : ∀ c ∈ cs, isdigit c = true) :
    ∃ r, digits_outcome signed sign cs = outcome.ok r ∧
      magnitude r.digits = magnitude (cs.map (fun c => c.toNat - 48)) ∧
      (r.sign = sign ∨ (r.sign = '+' ∧ magnitude r.digits = 0)) := by
  have hmap : ∀ l : List Char, (∀ c ∈ l, isdigit c = true) →
      l.map char_digit = l.map (fun c => c.toNat - 48) := by
    intro l hl
    apply List.map_congr_left
    intro c hc
    exact (char_digit_of_isdigit c (hl c hc)).1
  have hzero : ∀ k, (List.replicate k '0').map (fun c => c.toNat - 48) = List.replicate k 0 := by
    intro k; simp
  rcases digits_outcome_cases signed sign cs with ⟨h, k, hk⟩ | ⟨_, c, hc, hcd⟩ |
      ⟨k, z, zs, hk, _, hz, h⟩
  · refine ⟨_, h, ?_, Or.inr ⟨?_, ?_⟩⟩
    · rw [hk, hzero, magnitude_replicate_zero]; rfl
    · rcases hs with hs | hs
      · simp [hs]
      · simp [hs]
    · rfl
  · rw [hd c hc] at hcd; cases hcd
  · refine ⟨_, h, ?_, Or.inl rfl⟩
    simp only
    rw [hmap _ hz, hk, List.map_append, hzero, magnitude_append, magnitude_replicate_zero]
    simp

/-- Whatever the digit loops accept is a canonical value. -/
theorem digits_outcome_ok (signed : Bool) (sign : Char) (body : List Char) (r : bigint)
    (hs : sign = '+' ∨ (signed = true ∧ sign = '-'))
    (h : digits_outcome signed sign body = outcome.ok r) :
    invariants r ∧ ((∀ c ∈ body, isdigit c = true → c = '0') → r = ⟨'+', [0]⟩) := by
  rcases digits_outcome_cases signed sign body with ⟨h1, _⟩ | ⟨h1, _⟩ |
      ⟨k, z, zs, hk, hz0, hz, h1⟩
  · rw [h1] at h
    have hr : r = ⟨'+', [0]⟩ := by
      injection h with h
      rw [← h]
      rcases hs with hs | ⟨hs, _⟩
      · simp [hs]
      · simp [hs]
    rw [hr]
    exact ⟨by decide, fun _ => rfl⟩
  · rw [h1] at h; cases h
  · rw [h1] at h
    injection h with h
    rw [← h]
    have hzd := hz z (List.mem_cons_self _ _)
    constructor
    · refine ⟨?_, ?_, ?_, ?_, ?_⟩
      · rcases hs with hs | ⟨_, hs⟩
        · exact Or.inl hs
        · exact Or.inr hs
      · simp
      · intro d hd
        simp only [List.mem_map] at hd
        obtain ⟨c, hc, rfl⟩ := hd
        exact (char_digit_of_isdigit c (hz c hc)).2
      · intro _
        simp only [List.map_cons, List.head?_cons]
        intro hh
        exact char_digit_ne_zero z hzd hz0 (Option.some.inj hh)
      · intro hh
        simp only [List.map_cons, List.cons.injEq] at hh
        exact absurd hh.1 (char_digit_ne_zero z hzd hz0)
    · intro hall
      exfalso
      apply hz0
      apply hall z _ hzd
      rw [hk]
      exact List.mem_append_right _ (List.mem_cons_self _ _)

/-- Every string is empty, a non-empty run of spaces, or has significant characters. -/
theorem from_string_cases (s : List Char) :
    (s = [] ∧ from_string s = outcome.empty_string) ∨
      (s ≠ [] ∧ (∀ c ∈ s, c = ' ') ∧ from_string s = outcome.undefined) ∨
      (∃ a m x b, s = List.replicate a ' ' ++ (m ++ [x]) ++ List.replicate b ' ' ∧ x ≠ ' ' ∧
        (m ++ [x]).head? ≠ some ' ' ∧ from_string s = trimmed_outcome (m ++ [x])) := by
  by_cases hex : ∃ c ∈ s, c ≠ ' '
  · right; right
    obtain ⟨a, m, x, b, hs, hx, hh⟩ := exists_trim s hex
    refine ⟨a, m, x, b, hs, hx, hh, ?_⟩
    rw [hs]
    exact from_string_trimmed a b m x hx hh
  · cases s with
    | nil => left; exact ⟨rfl, rfl⟩
    | cons y ys =>
      right; left
      have hrep := eq_replicate_of_all_space (y :: ys) hex
      refine ⟨by simp, ?_, ?_⟩
      · intro c hc
        by_contra hne
        exact hex ⟨c, hc, hne⟩
      · rw [hrep, List.length_cons]
        exact from_string_blank ys.length

theorem from_string_empty_iff (s : List Char) :
    from_string s = outcome.empty_string ↔ s.length = 0 := by
  rcases from_string_cases s with ⟨h1, h2⟩ | ⟨h1, _, h2⟩ | ⟨a, m, x, b, hs, _, _, h2⟩
  · rw [h1]; simp [from_string]
  · rw [h2]
    constructor
    · intro h; cases h
    · intro h; exact absurd (List.length_eq_zero.mp h) h1
  · rw [h2]
    constructor
    · intro h; exact absurd h (trimmed_outcome_ne_empty _)
    · intro h
      rw [hs] at h
      simp at h

theorem from_string_no_digit_of_form (pre rest : List Char) (c : Char)
    (hpre : ∀ x ∈ pre, x = ' ') (hc : c = '+' ∨ c = '-')
    (hrest : (∀ x ∈ rest, x = ' ') ∨ rest.head? = some ' ') :
    from_string (pre ++ c :: rest) = outcome.no_digit := by
  have hcs : c ≠ ' ' := by rcases hc with rfl | rfl <;> decide
  have hprerep : pre = List.replicate pre.length ' ' := by
    apply eq_replicate_of_all_space
    rintro ⟨x, hx, hxs⟩
    exact hxs (hpre x hx)
  obtain ⟨m, x, b, hm, hx⟩ := exists_trim_back (c :: rest) ⟨c, List.mem_cons_self _ _, hcs⟩
  obtain ⟨rest0, hmid⟩ : ∃ rest0, m ++ [x] = c :: rest0 := by
    cases m with
    | nil =>
      simp only [List.nil_append, List.singleton_append, List.cons.injEq] at hm
      exact ⟨[], by rw [hm.1]; rfl⟩
    | cons y ys =>
      simp only [List.cons_append, List.cons.injEq] at hm
      exact ⟨ys ++ [x], by rw [hm.1]; rfl⟩
  have hrest0 : rest = rest0 ++ List.replicate b ' ' := by
    rw [hmid] at hm
    simp only [List.cons_append, List.cons.injEq] at hm
    exact hm.2
  have hhead : (m ++ [x]).head? ≠ some ' ' := by
    rw [hmid]; simp [hcs]
  have hfs := from_string_trimmed pre.length b m x hx hhead
  rw [← hprerep, List.append_assoc, ← hm] at hfs
  rw [hfs, hmid, trimmed_outcome_no_digit_iff]
  refine ⟨hc.symm, ?_⟩
  cases rest0 with
  | nil => exact Or.inl rfl
  | cons c1 rest1 =>
    right
    rcases hrest with hall | hh
    · exfalso
      apply hx
      apply hall
      rw [hrest0]
      apply List.mem_append_left
      cases m with
      | nil => simp at hmid
      | cons y ys =>
        simp only [List.cons_append, List.cons.injEq] at hmid
        rw [← hmid.2]
        simp
    · rw [hrest0] at hh
      simpa using hh

theorem from_string_no_digit_form (s : List Char) (h : from_string s = outcome.no_digit) :
    ∃ pre c rest, s = pre ++ c :: rest ∧ (∀ x ∈ pre, x = ' ') ∧ (c = '+' ∨ c = '-') ∧
      ((∀ x ∈ rest, x = ' ') ∨ rest.head? = some ' ') := by
  rcases from_string_cases s with ⟨_, h2⟩ | ⟨_, _, h2⟩ | ⟨a, m, x, b, hs, _, _, h2⟩
  · rw [h2] at h; cases h
  · rw [h2] at h; cases h
  · rw [h2] at h
    obtain ⟨c, rest0, hmid⟩ : ∃ c rest0, m ++ [x] = c :: rest0 := by
      cases m with
      | nil => exact ⟨x, [], rfl⟩
      | cons y ys => exact ⟨y, ys ++ [x], rfl⟩
    rw [hmid] at h
    obtain ⟨hc, hr⟩ := (trimmed_outcome_no_digit_iff c rest0).mp h
    refine ⟨List.replicate a ' ', c, rest0 ++ List.replicate b ' ', ?_, ?_, hc.symm, ?_⟩
    · rw [hs, hmid]; simp
    · intro y hy; exact (List.mem_replicate.mp hy).2
    · rcases hr with hr | hr
      · left
        rw [hr]
        intro y hy
        simp only [List.nil_append] at hy
        exact (List.mem_replicate.mp hy).2
      · right
        cases rest0 with
        | nil => simp at hr
        | cons c1 rest1 => simpa using hr

/-- The shape of the significant characters of an accepted string. -/
theorem trimmed_outcome_ok (mid : List Char) (r : bigint)
    (h : trimmed_outcome mid = outcome.ok r) :
    ∃ sgn cs signed sign, mid = sgn ++ cs ∧ cs ≠ [] ∧
      ((sgn = [] ∧ signed = false ∧ sign = '+') ∨ (sgn = ['+'] ∧ signed = true ∧ sign = '+') ∨
        (sgn = ['-'] ∧ signed = true ∧ sign = '-')) ∧
      digits_outcome signed sign cs = outcome.ok r := by
  cases mid with
  | nil => cases h
  | cons c rest =>
    simp only [trimmed_outcome] at h
    by_cases h1 : c = '-' ∨ c = '+'
    · rw [if_pos h1] at h
      cases rest with
      | nil => cases h
      | cons c1 rest1 =>
        simp only at h
        by_cases h2 : c1 = ' '
        · rw [if_pos h2] at h; cases h
        · rw [if_neg h2] at h
          refine ⟨[c], c1 :: rest1, true, c, rfl, by simp, ?_, h⟩
          rcases h1 with rfl | rfl
          · right; right; exact ⟨rfl, rfl, rfl⟩
          · right; left; exact ⟨rfl, rfl, rfl⟩
    · rw [if_neg h1] at h
      by_cases h3 : isdigit c = true
      · rw [if_pos h3] at h
        exact ⟨[], c :: rest, false, '+', rfl, by simp, Or.inl ⟨rfl, rfl, rfl⟩, h⟩
      · rw [if_neg h3] at h; cases h

theorem digits_outcome_ok_digits (signed : Bool) (sign : Char) (body : List Char) (r : bigint)
    (h : digits_outcome signed sign body = outcome.ok r) : ∀ c ∈ body, isdigit c = true := by
  rcases digits_outcome_cases signed sign body with ⟨_, k, hk⟩ | ⟨h1, _⟩ |
      ⟨k, z, zs, hk, _, hz, _⟩
  · intro c hc
    rw [hk] at hc
    rw [(List.mem_replicate.mp hc).2]
    decide
  · rw [h1] at h; cases h
  · intro c hc
    rw [hk] at hc
    rcases List.mem_append.mp hc with h1 | h1
    · rw [(List.mem_replicate.mp h1).2]
      decide
    · exact hz c h1

/-- Only signed decimals are accepted. -/
theorem from_string_ok_form (s : List Char) (r : bigint) (h : from_string s = outcome.ok r) :
    ∃ a b sgn cs, s = List.replicate a ' ' ++ sgn ++ cs ++ List.replicate b ' ' ∧
      (sgn = [] ∨ sgn = ['+'] ∨ sgn = ['-']) ∧ cs ≠ [] ∧ ∀ c ∈ cs, isdigit c = true := by
  rcases from_string_cases s with ⟨_, h2⟩ | ⟨_, _, h2⟩ | ⟨a, m, x, b, hs, _, _, h2⟩
  · rw [h2] at h; cases h
  · rw [h2] at h; cases h
  · rw [h2] at h
    obtain ⟨sgn, cs, signed, sign, hmid, hne, hsg, hd⟩ := trimmed_outcome_ok _ r h
    refine ⟨a, b, sgn, cs, ?_, ?_, hne, digits_outcome_ok_digits _ _ _ r hd⟩
    · rw [hs, hmid]; simp
    · rcases hsg with ⟨h1, _⟩ | ⟨h1, _⟩ | ⟨h1, _⟩
      · exact Or.inl h1
      · exact Or.inr (Or.inl h1)
      · exact Or.inr (Or.inr h1)

theorem from_string_ok_invariants (s : List Char) (r : bigint)
    (h : from_string s = outcome.ok r) :
    invariants r ∧ ((∀ c ∈ s, isdigit c = true → c = '0') → r = ⟨'+', [0]⟩) := by
  rcases from_string_cases s with ⟨_, h2⟩ | ⟨_, _, h2⟩ | ⟨a, m, x, b, hs, _, _, h2⟩
  · rw [h2] at h; cases h
  · rw [h2] at h; cases h
  · rw [h2] at h
    obtain ⟨sgn, cs, signed, sign, hmid, hne, hsg, hd⟩ := trimmed_outcome_ok _ r h
    have hsign : sign = '+' ∨ (signed = true ∧ sign = '-') := by
      rcases hsg with ⟨_, _, h1⟩ | ⟨_, _, h1⟩ | ⟨_, h0, h1⟩
      · exact Or.inl h1
      · exact Or.inl h1
      · exact Or.inr ⟨h0, h1⟩
    obtain ⟨hinv, hz⟩ := digits_outcome_ok signed sign cs r hsign hd
    refine ⟨hinv, ?_⟩
    intro hall
    apply hz
    intro c hc
    apply hall
    rw [hs, hmid]
    simp only [List.mem_append]
    exact Or.inl (Or.inr (Or.inr hc))

theorem from_string_value (a b : Nat) (sgn cs : List Char)
    (hsgn : sgn = [] ∨ sgn = ['+'] ∨ sgn = ['-']) (hne : cs ≠ [])
    (hd : ∀ c ∈ cs, isdigit c = true) :
    ∃ r, from_string (List.replicate a ' ' ++ sgn ++ cs ++ List.replicate b ' ') = outcome.ok r ∧
      value r = (if sgn = ['-'] then -1 else 1) *
        (magnitude (cs.map (fun c => c.toNat - 48)) : Int) := by
  obtain ⟨cs0, x, hcs⟩ : ∃ cs0 x, cs = cs0 ++ [x] := by
    rcases List.eq_nil_or_concat cs with h | ⟨l, y, h⟩
    · exact absurd h hne
    · exact ⟨l, y, by rw [h]; simp⟩
  obtain ⟨c, rest, hcr⟩ : ∃ c rest, cs = c :: rest := by
    cases cs with
    | nil => exact absurd rfl hne
    | cons c rest => exact ⟨c, rest, rfl⟩
  have hcd : isdigit c = true := hd c (by rw [hcr]; exact List.mem_cons_self _ _)
  have hx : x ≠ ' ' := isdigit_not_space x (hd x (by rw [hcs]; simp))
  have hhead : ((sgn ++ cs0) ++ [x]).head? ≠ some ' ' := by
    rw [List.append_assoc, ← hcs, hcr]
    rcases hsgn with h | h | h <;> rw [h]
    · simp only [List.nil_append, List.head?_cons]
      intro hh; exact isdigit_not_space c hcd (Option.some.inj hh)
    · simp
    · simp
  have hfs := from_string_trimmed a b (sgn ++ cs0) x hx hhead
  have he : List.replicate a ' ' ++ (sgn ++ cs0 ++ [x]) ++ List.replicate b ' '
      = List.replicate a ' ' ++ sgn ++ cs ++ List.replicate b ' ' := by
    rw [hcs]; simp
  rw [he, List.append_assoc sgn, ← hcs] at hfs
  rw [hfs]
  rcases hsgn with h | h | h
  · obtain ⟨r, hr, hm, hsg⟩ := digits_outcome_of_digits false '+' cs (Or.inr rfl) hd
    refine ⟨r, ?_, ?_⟩
    · rw [h, List.nil_append, hcr]
      simp only [trimmed_outcome]
      rw [if_neg (isdigit_not_sign c hcd), if_pos hcd, ← hcr]
      exact hr
    · have hs : r.sign = '+' := by
        rcases hsg with h1 | ⟨h1, _⟩ <;> exact h1
      rw [value_pos r hs, hm, h]
      simp
  · obtain ⟨r, hr, hm, hsg⟩ := digits_outcome_of_digits true '+' cs (Or.inl rfl) hd
    refine ⟨r, ?_, ?_⟩
    · rw [h, hcr]
      simp only [List.singleton_append, trimmed_outcome]
      rw [if_pos (by simp), if_neg (isdigit_not_space c hcd), ← hcr]
      exact hr
    · have hs : r.sign = '+' := by
        rcases hsg with h1 | ⟨h1, _⟩ <;> exact h1
      rw [value_pos r hs, hm, h]
      simp
  · obtain ⟨r, hr, hm, hsg⟩ := digits_outcome_of_digits true '-' cs (Or.inl rfl) hd
    refine ⟨r, ?_, ?_⟩
    · rw [h, hcr]
      simp only [List.singleton_append, trimmed_outcome]
      rw [if_pos (by simp), if_neg (isdigit_not_space c hcd), ← hcr]
      exact hr
    · rw [h]
      simp only [if_true]
      rcases hsg with h1 | ⟨h1, h0⟩
      · rw [value_neg r h1, hm]; ring
      · rw [value_pos r h1, ← hm, h0]; simp

/-! ## Checked accesses and loops -/

theorem index_back_of_lt (size i : Nat) (h : i < size) :
    index_back size i = some (size - 1 - i) := by
  unfold index_back; rw [if_pos h]

theorem write_of_lt (v : List Nat) (k x : Nat) (h : k < v.length) :
    write v k x = some (v.set k x) := by
  unfold write; rw [if_pos h]

/-- A loop invariant that every round keeps holds after the loop, and the loop stays within
the defined behaviour. -/
theorem for_loop_invariant {σ : Type} (body : Nat → σ → Option σ) (I : Nat → σ → Prop)
    (count : Nat) :
    ∀ (start : Nat) (s : σ), I start s →
      (∀ i t, start ≤ i → i < start + count → I i t → ∃ t', body i t = some t' ∧ I (i + 1) t') →
      ∃ t, for_loop body start count s = some t ∧ I (start + count) t := by
  induction count with
  | zero =>
    intro start s h0 _
    exact ⟨s, rfl, h0⟩
  | succ n ih =>
    intro start s h0 hstep
    obtain ⟨t1, hb, h1⟩ := hstep start s (le_refl _) (by omega) h0
    obtain ⟨t, ht, hI⟩ := ih (start + 1) t1 h1 (by
      intro i t hi1 hi2 hI
      exact hstep i t (by omega) (by omega) hI)
    refine ⟨t, ?_, ?_⟩
    · unfold for_loop
      rw [hb]
      exact ht
    · have e : start + (n + 1) = start + 1 + n := by omega
      rw [e]; exact hI

/-- The number written by the last `i + 1` digits, from the one written by the last `i`. -/
theorem low_digits_succ (ds : List Nat) (i : Nat) (h : i < ds.length) :
    magnitude (ds.drop (ds.length - (i + 1)))
      = ds[ds.length - 1 - i] * 10 ^ i + magnitude (ds.drop (ds.length - i)) := by
  have hk : ds.length - (i + 1) < ds.length := by omega
  have e := List.drop_eq_getElem_cons hk
  have e1 : ds.length - (i + 1) + 1 = ds.length - i := by omega
  have e2 : ds.length - (i + 1) = ds.length - 1 - i := by omega
  rw [e, magnitude_cons, e1]
  simp only [e2, List.length_drop]
  have e3 : ds.length - (ds.length - i) = i := by omega
  rw [e3]

theorem magnitude_strip (ds : List Nat) : magnitude (strip_leading_zeros ds) = magnitude ds := by
  induction ds with
  | nil => rfl
  | cons d ds ih =>
    cases ds with
    | nil => rfl
    | cons e es =>
      unfold strip_leading_zeros
      by_cases hd : d = 0
      · rw [if_pos hd, ih, hd, magnitude_cons (0 : Nat)]
        simp
      · rw [if_neg hd]

theorem strip_digits_le (ds : List Nat) (h : ∀ d ∈ ds, d ≤ 9) :
    ∀ d ∈ strip_leading_zeros ds, d ≤ 9 := by
  induction ds with
  | nil => simp [strip_leading_zeros]
  | cons d ds ih =>
    cases ds with
    | nil => simpa [strip_leading_zeros] using h
    | cons e es =>
      unfold strip_leading_zeros
      by_cases hd : d = 0
      · rw [if_pos hd]
        exact ih (fun x hx => h x (List.mem_cons_of_mem _ hx))
      · rw [if_neg hd]; exact h

theorem strip_ne_nil (ds : List Nat) (h : ds ≠ []) : strip_leading_zeros ds ≠ [] := by
  induction ds with
  | nil => exact absurd rfl h
  | cons d ds ih =>
    cases ds with
    | nil => simp [strip_leading_zeros]
    | cons e es =>
      unfold strip_leading_zeros
      by_cases hd : d = 0
      · rw [if_pos hd]; exact ih (by simp)
      · rw [if_neg hd]; simp

theorem strip_no_leading_zero (ds : List Nat) :
    1 < (strip_leading_zeros ds).length → (strip_leading_zeros ds).head? ≠ some 0 := by
  induction ds with
  | nil => simp [strip_leading_zeros]
  | cons d ds ih =>
    cases ds with
    | nil => simp [strip_leading_zeros]
    | cons e es =>
      unfold strip_leading_zeros
      by_cases hd : d = 0
      · rw [if_pos hd]; exact ih
      · rw [if_neg hd]
        intro _ hh
        simp at hh
        exact hd hh

theorem getElem_le_of_all (ds : List Nat) (h : ∀ d ∈ ds, d ≤ 9) (k : Nat) (hk : k < ds.length) :
    ds[k] ≤ 9 := h _ (List.getElem_mem _)

theorem set_digits_le (ds : List Nat) (h : ∀ d ∈ ds, d ≤ 9) (k x : Nat) (hx : x ≤ 9) :
    ∀ d ∈ ds.set k x, d ≤ 9 := by
  intro d hd
  rcases List.mem_or_eq_of_mem_set hd with h1 | h1
  · exact h d h1
  · rw [h1]; exact hx

/-! ## Addition of equal signs -/

theorem add_both_step_spec (od ds : List Nat) (c i M : Nat)
    (hds : ∀ d ∈ ds, d ≤ 9) (hod : ∀ d ∈ od, d ≤ 9) (hc : c ≤ 1)
    (hi : i < ds.length) (hio : i < od.length)
    (hM : magnitude ds + c * 10 ^ i = M + magnitude (od.drop (od.length - i))) :
    ∃ t, add_both_step od i (ds, c) = some t ∧ t.1.length = ds.length ∧
      (∀ d ∈ t.1, d ≤ 9) ∧ t.2 ≤ 1 ∧
      magnitude t.1 + t.2 * 10 ^ (i + 1) = M + magnitude (od.drop (od.length - (i + 1))) := by
  have hk : ds.length - 1 - i < ds.length := by omega
  have hko : od.length - 1 - i < od.length := by omega
  have hd := getElem_le_of_all ds hds _ hk
  have ho := getElem_le_of_all od hod _ hko
  have hset := magnitude_set ds (ds.length - 1 - i)
    ((ds[ds.length - 1 - i] + od[od.length - 1 - i] + c) % 256 % 10) hk
  have hlow := low_digits_succ od i hio
  have e : ds.length - 1 - (ds.length - 1 - i) = i := by omega
  rw [e] at hset
  refine ⟨(ds.set (ds.length - 1 - i)
      ((ds[ds.length - 1 - i] + od[od.length - 1 - i] + c) % 256 % 10),
    (ds[ds.length - 1 - i] + od[od.length - 1 - i] + c) % 256 / 10), ?_, ?_, ?_, ?_, ?_⟩
  · simp only [add_both_step, index_back_of_lt _ _ hi, index_back_of_lt _ _ hio,
      List.getElem?_eq_getElem hk, List.getElem?_eq_getElem hko, write_of_lt _ _ _ hk,
      Option.bind_eq_bind, Option.some_bind, Option.pure_def]
  · simp
  · exact set_digits_le ds hds _ _ (by omega)
  · simp only; omega
  · simp only
    rw [hlow]
    generalize ds[ds.length - 1 - i] = d at *
    generalize od[od.length - 1 - i] = o at *
    have e1 : (d + o + c) % 256 = d + o + c := by omega
    rw [e1] at hset ⊢
    have e2 := Nat.div_add_mod (d + o + c) 10
    have e3 : (d + o + c) % 10 * 10 ^ i + (d + o + c) / 10 * 10 ^ (i + 1)
        = (d + o + c) * 10 ^ i := by
      rw [pow_succ]
      nth_rewrite 3 [← e2]
      ring
    linarith [e3, hset, hM]

theorem add_this_step_spec (ds : List Nat) (c i T : Nat)
    (hds : ∀ d ∈ ds, d ≤ 9) (hc : c ≤ 1) (hi : i < ds.length)
    (hM : magnitude ds + c * 10 ^ i = T) :
    ∃ t, add_this_step i (ds, c) = some t ∧ t.1.length = ds.length ∧
      (∀ d ∈ t.1, d ≤ 9) ∧ t.2 ≤ 1 ∧ magnitude t.1 + t.2 * 10 ^ (i + 1) = T := by
  have hk : ds.length - 1 - i < ds.length := by omega
  have hd := getElem_le_of_all ds hds _ hk
  have hset := magnitude_set ds (ds.length - 1 - i)
    ((ds[ds.length - 1 - i] + c) % 256 % 10) hk
  have e : ds.length - 1 - (ds.length - 1 - i) = i := by omega
  rw [e] at hset
  refine ⟨(ds.set (ds.length - 1 - i) ((ds[ds.length - 1 - i] + c) % 256 % 10),
    (ds[ds.length - 1 - i] + c) % 256 / 10), ?_, ?_, ?_, ?_, ?_⟩
  · simp only [add_this_step, index_back_of_lt _ _ hi,
      List.getElem?_eq_getElem hk, write_of_lt _ _ _ hk,
      Option.bind_eq_bind, Option.some_bind, Option.pure_def]
  · simp
  · exact set_digits_le ds hds _ _ (by omega)
  · simp only; omega
  · simp only
    generalize ds[ds.length - 1 - i] = d at *
    have e1 : (d + c) % 256 = d + c := by omega
    rw [e1] at hset ⊢
    have e2 := Nat.div_add_mod (d + c) 10
    have e3 : (d + c) % 10 * 10 ^ i + (d + c) / 10 * 10 ^ (i + 1) = (d + c) * 10 ^ i := by
      rw [pow_succ]
      nth_rewrite 3 [← e2]
      ring
    linarith [e3, hset, hM]

theorem add_other_step_spec (od ds : List Nat) (c i M : Nat)
    (hds : ∀ d ∈ ds, d ≤ 9) (hod : ∀ d ∈ od, d ≤ 9) (hc : c ≤ 1)
    (hlen : ds.length = i) (hio : i < od.length)
    (hM : magnitude ds + c * 10 ^ i = M + magnitude (od.drop (od.length - i))) :
    ∃ t, add_other_step od i (ds, c) = some t ∧ t.1.length = i + 1 ∧
      (∀ d ∈ t.1, d ≤ 9) ∧ t.2 ≤ 1 ∧
      magnitude t.1 + t.2 * 10 ^ (i + 1) = M + magnitude (od.drop (od.length - (i + 1))) := by
  have hko : od.length - 1 - i < od.length := by omega
  have ho := getElem_le_of_all od hod _ hko
  have hlow := low_digits_succ od i hio
  refine ⟨(((od[od.length - 1 - i] + c) % 256 % 10) :: ds,
    (od[od.length - 1 - i] + c) % 256 / 10), ?_, ?_, ?_, ?_, ?_⟩
  · simp only [add_other_step, index_back_of_lt _ _ hio, List.getElem?_eq_getElem hko,
      Option.bind_eq_bind, Option.some_bind, Option.pure_def]
  · simp [hlen]
  · intro d hd
    rcases List.mem_cons.mp hd with h1 | h1
    · rw [h1]; omega
    · exact hds d h1
  · simp only; omega
  · simp only
    rw [hlow, magnitude_cons, hlen]
    generalize od[od.length - 1 - i] = o at *
    have e1 : (o + c) % 256 = o + c := by omega
    rw [e1]
    have e2 := Nat.div_add_mod (o + c) 10
    have e3 : (o + c) % 10 * 10 ^ i + (o + c) / 10 * 10 ^ (i + 1) = (o + c) * 10 ^ i := by
      rw [pow_succ]
      nth_rewrite 3 [← e2]
      ring
    linarith [e3, hM]

/-- The same-sign branch stays within the defined behaviour and adds the magnitudes. -/
theorem add_same_sign_spec (ds od : List Nat)
    (hds : ∀ d ∈ ds, d ≤ 9) (hod : ∀ d ∈ od, d ≤ 9) :
    ∃ r, add_same_sign ds od = some r ∧ magnitude r = magnitude ds + magnitude od ∧
      (∀ d ∈ r, d ≤ 9) ∧ ds.length ≤ r.length ∧ od.length ≤ r.length := by
  obtain ⟨t1, h1, hl1, hd1, hc1, hm1⟩ := for_loop_invariant (add_both_step od)
    (fun i t => t.1.length = ds.length ∧ (∀ d ∈ t.1, d ≤ 9) ∧ t.2 ≤ 1 ∧
      magnitude t.1 + t.2 * 10 ^ i = magnitude ds + magnitude (od.drop (od.length - i)))
    (min ds.length od.length) 0 (ds, 0)
    ⟨rfl, hds, by omega, by simp [magnitude_nil]⟩
    (by
      rintro i ⟨xs, c⟩ _ hi ⟨hl, hd, hc, hm⟩
      simp only at hl hd hc hm
      have hi1 : i < ds.length := by
        have := Nat.min_le_left ds.length od.length; omega
      have hi2 : i < od.length := by
        have := Nat.min_le_right ds.length od.length; omega
      obtain ⟨t, ht, h2, h3, h4, h5⟩ := add_both_step_spec od xs c i (magnitude ds) hd hod hc
        (by omega) hi2 hm
      exact ⟨t, ht, by omega, h3, h4, h5⟩)
  simp only [Nat.zero_add] at hl1 hd1 hc1 hm1
  unfold add_same_sign
  simp only [h1, Option.bind_eq_bind, Option.some_bind]
  rcases Nat.lt_trichotomy od.length ds.length with hlt | heq | hgt
  · -- this is the longer operand
    have hmin : min ds.length od.length = od.length := Nat.min_eq_right (le_of_lt hlt)
    rw [hmin] at hm1
    simp only [Nat.sub_self, List.drop_zero] at hm1
    obtain ⟨t2, h2, hl2, hd2, hc2, hm2⟩ := for_loop_invariant add_this_step
      (fun i t => t.1.length = ds.length ∧ (∀ d ∈ t.1, d ≤ 9) ∧ t.2 ≤ 1 ∧
        magnitude t.1 + t.2 * 10 ^ i = magnitude ds + magnitude od)
      (ds.length - od.length) od.length t1 ⟨hl1, hd1, hc1, hm1⟩
      (by
        rintro i ⟨xs, c⟩ _ hi ⟨hl, hd, hc, hm⟩
        simp only at hl hd hc hm
        obtain ⟨t, ht, h2, h3, h4, h5⟩ := add_this_step_spec xs c i _ hd hc (by omega) hm
        exact ⟨t, ht, by omega, h3, h4, h5⟩)
    have e : od.length + (ds.length - od.length) = ds.length := by omega
    rw [e] at hm2
    rw [hmin, if_pos hlt, h2]
    simp only [Option.some_bind, Option.pure_def]
    refine ⟨_, rfl, ?_, ?_, ?_, ?_⟩
    · by_cases hz : t2.2 = 0
      · simp only [hz, ne_eq, not_true_eq_false, if_false]
        rw [hz] at hm2; omega
      · rw [if_pos hz, magnitude_cons, hl2, Nat.add_comm]; exact hm2
    · by_cases hz : t2.2 = 0
      · simp only [hz, ne_eq, not_true_eq_false, if_false]; exact hd2
      · rw [if_pos hz]
        intro d hd
        rcases List.mem_cons.mp hd with h | h
        · omega
        · exact hd2 d h
    · by_cases hz : t2.2 = 0
      · simp only [hz, ne_eq, not_true_eq_false, if_false]; omega
      · rw [if_pos hz]; simp only [List.length_cons]; omega
    · by_cases hz : t2.2 = 0
      · simp only [hz, ne_eq, not_true_eq_false, if_false]; omega
      · rw [if_pos hz]; simp only [List.length_cons]; omega
  · -- equal lengths
    have hmin : min ds.length od.length = od.length := by rw [heq]; exact Nat.min_self _
    rw [hmin] at hm1
    simp only [Nat.sub_self, List.drop_zero] at hm1
    have hn1 : ¬ ds.length > od.length := by omega
    have hn2 : ¬ ds.length < od.length := by omega
    rw [if_neg hn1, if_neg hn2]
    simp only [Option.some_bind, Option.pure_def]
    refine ⟨_, rfl, ?_, ?_, ?_, ?_⟩
    · by_cases hz : t1.2 = 0
      · simp only [hz, ne_eq, not_true_eq_false, if_false]
        rw [hz] at hm1; omega
      · rw [if_pos hz, magnitude_cons, hl1, ← heq, Nat.add_comm]; exact hm1
    · by_cases hz : t1.2 = 0
      · simp only [hz, ne_eq, not_true_eq_false, if_false]; exact hd1
      · rw [if_pos hz]
        intro d hd
        rcases List.mem_cons.mp hd with h | h
        · omega
        · exact hd1 d h
    · by_cases hz : t1.2 = 0
      · simp only [hz, ne_eq, not_true_eq_false, if_false]; omega
      · rw [if_pos hz]; simp only [List.length_cons]; omega
    · by_cases hz : t1.2 = 0
      · simp only [hz, ne_eq, not_true_eq_false, if_false]; omega
      · rw [if_pos hz]; simp only [List.length_cons]; omega
  · -- other is the longer operand
    have hmin : min ds.length od.length = ds.length := Nat.min_eq_left (le_of_lt hgt)
    rw [hmin] at hm1
    obtain ⟨t2, h2, hl2, hd2, hc2, hm2⟩ := for_loop_invariant (add_other_step od)
      (fun i t => t.1.length = i ∧ (∀ d ∈ t.1, d ≤ 9) ∧ t.2 ≤ 1 ∧
        magnitude t.1 + t.2 * 10 ^ i = magnitude ds + magnitude (od.drop (od.length - i)))
      (od.length - ds.length) ds.length t1 ⟨hl1, hd1, hc1, hm1⟩
      (by
        rintro i ⟨xs, c⟩ _ hi ⟨hl, hd, hc, hm⟩
        simp only at hl hd hc hm
        exact add_other_step_spec od xs c i _ hd hod hc hl (by omega) hm)
    have e : ds.length + (od.length - ds.length) = od.length := by omega
    rw [e] at hm2 hl2
    simp only [Nat.sub_self, List.drop_zero] at hm2
    have hn1 : ¬ ds.length > od.length := by omega
    rw [hmin, if_neg hn1, if_pos hgt, h2]
    simp only [Option.some_bind, Option.pure_def]
    refine ⟨_, rfl, ?_, ?_, ?_, ?_⟩
    · by_cases hz : t2.2 = 0
      · simp only [hz, ne_eq, not_true_eq_false, if_false]
        rw [hz] at hm2; omega
      · rw [if_pos hz, magnitude_cons, hl2, Nat.add_comm]; exact hm2
    · by_cases hz : t2.2 = 0
      · simp only [hz, ne_eq, not_true_eq_false, if_false]; exact hd2
      · rw [if_pos hz]
        intro d hd
        rcases List.mem_cons.mp hd with h | h
        · omega
        · exact hd2 d h
    · by_cases hz : t2.2 = 0
      · simp only [hz, ne_eq, not_true_eq_false, if_false]; omega
      · rw [if_pos hz]; simp only [List.length_cons]; omega
    · by_cases hz : t2.2 = 0
      · simp only [hz, ne_eq, not_true_eq_false, if_false]; omega
      · rw [if_pos hz]; simp only [List.length_cons]; omega

/-! ## Addition of opposite signs -/

/-- The digit and the borrow of one subtraction round, without wrap-around. -/
theorem borrow_digit_spec (d o b : Nat) (hd : d ≤ 9) (ho : o ≤ 9) (hb : b ≤ 1) :
    (borrow_digit (to_int8 ((d : Int) - (o : Int) - (b : Int)))).1 ≤ 9 ∧
      (borrow_digit (to_int8 ((d : Int) - (o : Int) - (b : Int)))).2 ≤ 1 ∧
      (borrow_digit (to_int8 ((d : Int) - (o : Int) - (b : Int)))).1 + o + b
        = d + 10 * (borrow_digit (to_int8 ((d : Int) - (o : Int) - (b : Int)))).2 := by
  have e : to_int8 ((d : Int) - (o : Int) - (b : Int)) = (d : Int) - (o : Int) - (b : Int) := by
    unfold to_int8; omega
  rw [e]
  unfold borrow_digit to_uint8
  by_cases h : (d : Int) - (o : Int) - (b : Int) < 0
  · rw [if_pos h]; simp only; omega
  · rw [if_neg h]; simp only; omega

theorem borrow_digit_spec_zero (d b : Nat) (hd : d ≤ 9) (hb : b ≤ 1) :
    (borrow_digit (to_int8 ((d : Int) - (b : Int)))).1 ≤ 9 ∧
      (borrow_digit (to_int8 ((d : Int) - (b : Int)))).2 ≤ 1 ∧
      (borrow_digit (to_int8 ((d : Int) - (b : Int)))).1 + b
        = d + 10 * (borrow_digit (to_int8 ((d : Int) - (b : Int)))).2 := by
  have h := borrow_digit_spec d 0 b hd (by omega) hb
  simpa using h

theorem sub_other_step_spec (od ds : List Nat) (b i M : Nat)
    (hds : ∀ d ∈ ds, d ≤ 9) (hod : ∀ d ∈ od, d ≤ 9) (hb : b ≤ 1)
    (hi : i < ds.length) (hio : i < od.length)
    (hM : magnitude ds + magnitude (od.drop (od.length - i)) = M + b * 10 ^ i) :
    ∃ t, sub_other_step od i (ds, b) = some t ∧ t.1.length = ds.length ∧
      (∀ d ∈ t.1, d ≤ 9) ∧ t.2 ≤ 1 ∧
      magnitude t.1 + magnitude (od.drop (od.length - (i + 1))) = M + t.2 * 10 ^ (i + 1) := by
  have hk : ds.length - 1 - i < ds.length := by omega
  have hko : od.length - 1 - i < od.length := by omega
  have hd := getElem_le_of_all ds hds _ hk
  have ho := getElem_le_of_all od hod _ hko
  obtain ⟨hr1, hr2, hr3⟩ := borrow_digit_spec _ _ b hd ho hb
  have hset := magnitude_set ds (ds.length - 1 - i)
    (borrow_digit (to_int8 ((ds[ds.length - 1 - i] : Int) - (od[od.length - 1 - i] : Int)
      - (b : Int)))).1 hk
  have hlow := low_digits_succ od i hio
  have e : ds.length - 1 - (ds.length - 1 - i) = i := by omega
  rw [e] at hset
  refine ⟨(ds.set (ds.length - 1 - i)
      (borrow_digit (to_int8 ((ds[ds.length - 1 - i] : Int) - (od[od.length - 1 - i] : Int)
        - (b : Int)))).1,
    (borrow_digit (to_int8 ((ds[ds.length - 1 - i] : Int) - (od[od.length - 1 - i] : Int)
      - (b : Int)))).2), ?_, ?_, ?_, ?_, ?_⟩
  · simp only [sub_other_step, index_back_of_lt _ _ hi, index_back_of_lt _ _ hio,
      List.getElem?_eq_getElem hk, List.getElem?_eq_getElem hko, write_of_lt _ _ _ hk,
      Option.bind_eq_bind, Option.some_bind, Option.pure_def]
  · simp
  · exact set_digits_le ds hds _ _ hr1
  · exact hr2
  · simp only
    rw [hlow]
    generalize ds[ds.length - 1 - i] = d at *
    generalize od[od.length - 1 - i] = o at *
    generalize (borrow_digit (to_int8 ((d : Int) - (o : Int) - (b : Int)))).1 = r at *
    generalize (borrow_digit (to_int8 ((d : Int) - (o : Int) - (b : Int)))).2 = b' at *
    have e3 : r * 10 ^ i + o * 10 ^ i + b * 10 ^ i = d * 10 ^ i + b' * 10 ^ (i + 1) := by
      rw [pow_succ]
      have := congrArg (fun x => x * 10 ^ i) hr3
      simp only at this
      linarith [this]
    linarith [e3, hset, hM]

/-- The loop `while (b != 0)` ends before the most significant digit is passed, because the
magnitude of `this` is the larger one. -/
theorem borrow_while_spec (X M : Nat) (hXM : X < M) (fuel : Nat) :
    ∀ (i : Nat) (ds : List Nat) (b : Nat), fuel = ds.length - i → i ≤ ds.length →
      (∀ d ∈ ds, d ≤ 9) → b ≤ 1 → magnitude ds + X = M + b * 10 ^ i →
      ∃ t, borrow_while fuel i (ds, b) = some t ∧ t.1.length = ds.length ∧
        (∀ d ∈ t.1, d ≤ 9) ∧ t.2 = 0 ∧ magnitude t.1 + X = M := by
  induction fuel with
  | zero =>
    intro i ds b hf hi hds hb hM
    by_cases hb0 : b = 0
    · refine ⟨(ds, b), ?_, rfl, hds, hb0, ?_⟩
      · unfold borrow_while; simp [hb0]
      · rw [hb0] at hM; simpa using hM
    · exfalso
      have hb1 : b = 1 := by omega
      have hin : i = ds.length := by omega
      have := magnitude_lt_pow ds hds
      rw [hb1, hin] at hM
      omega
  | succ fuel ih =>
    intro i ds b hf hi hds hb hM
    by_cases hb0 : b = 0
    · refine ⟨(ds, b), ?_, rfl, hds, hb0, ?_⟩
      · unfold borrow_while; simp [hb0]
      · rw [hb0] at hM; simpa using hM
    · have hi2 : i < ds.length := by omega
      have hk : ds.length - 1 - i < ds.length := by omega
      have hd := getElem_le_of_all ds hds _ hk
      obtain ⟨hr1, hr2, hr3⟩ := borrow_digit_spec_zero _ b hd hb
      have hset := magnitude_set ds (ds.length - 1 - i)
        (borrow_digit (to_int8 ((ds[ds.length - 1 - i] : Int) - (b : Int)))).1 hk
      have e : ds.length - 1 - (ds.length - 1 - i) = i := by omega
      rw [e] at hset
      have hstep := ih (i + 1)
        (ds.set (ds.length - 1 - i)
          (borrow_digit (to_int8 ((ds[ds.length - 1 - i] : Int) - (b : Int)))).1)
        (borrow_digit (to_int8 ((ds[ds.length - 1 - i] : Int) - (b : Int)))).2
        (by simp; omega) (by simp; omega) (set_digits_le ds hds _ _ hr1) hr2
        (by
          generalize ds[ds.length - 1 - i] = d at *
          generalize (borrow_digit (to_int8 ((d : Int) - (b : Int)))).1 = r at *
          generalize (borrow_digit (to_int8 ((d : Int) - (b : Int)))).2 = b' at *
          have e3 : r * 10 ^ i + b * 10 ^ i = d * 10 ^ i + b' * 10 ^ (i + 1) := by
            rw [pow_succ]
            have := congrArg (fun x => x * 10 ^ i) hr3
            simp only at this
            linarith [this]
          linarith [e3, hset, hM])
      obtain ⟨t, ht, hl, hdt, hbt, hmt⟩ := hstep
      refine ⟨t, ?_, by simpa using hl, hdt, hbt, hmt⟩
      unfold borrow_while
      simp only [ne_eq, hb0, not_false_eq_true, if_true, index_back_of_lt _ _ hi2,
        List.getElem?_eq_getElem hk, write_of_lt _ _ _ hk,
        Option.bind_eq_bind, Option.some_bind]
      exact ht

theorem rsub_this_step_spec (od ds0 ds : List Nat) (b i : Nat)
    (hds : ∀ d ∈ ds, d ≤ 9) (hod : ∀ d ∈ od, d ≤ 9) (hb : b ≤ 1)
    (hlen : ds.length = ds0.length)
    (hi : i < ds.length) (hio : i < od.length)
    (hsame : ∀ j, j < ds.length - i → ds[j]? = ds0[j]?)
    (hM : magnitude ds + 2 * magnitude (ds0.drop (ds0.length - i))
      = magnitude ds0 + magnitude (od.drop (od.length - i)) + b * 10 ^ i) :
    ∃ t, rsub_this_step od i (ds, b) = some t ∧ t.1.length = ds0.length ∧
      (∀ d ∈ t.1, d ≤ 9) ∧ t.2 ≤ 1 ∧
      (∀ j, j < t.1.length - (i + 1) → t.1[j]? = ds0[j]?) ∧
      magnitude t.1 + 2 * magnitude (ds0.drop (ds0.length - (i + 1)))
        = magnitude ds0 + magnitude (od.drop (od.length - (i + 1))) + t.2 * 10 ^ (i + 1) := by
  have hk : ds.length - 1 - i < ds.length := by omega
  have hk0 : ds0.length - 1 - i < ds0.length := by omega
  have hko : od.length - 1 - i < od.length := by omega
  have hd := getElem_le_of_all ds hds _ hk
  have ho := getElem_le_of_all od hod _ hko
  obtain ⟨hr1, hr2, hr3⟩ := borrow_digit_spec _ _ b ho hd hb
  have hset := magnitude_set ds (ds.length - 1 - i)
    (borrow_digit (to_int8 ((od[od.length - 1 - i] : Int) - (ds[ds.length - 1 - i] : Int)
      - (b : Int)))).1 hk
  have hlow := low_digits_succ od i hio
  have hlow0 := low_digits_succ ds0 i (by omega)
  have hsd : ds0[ds0.length - 1 - i] = ds[ds.length - 1 - i] := by
    have := hsame (ds.length - 1 - i) (by omega)
    rw [List.getElem?_eq_getElem hk, List.getElem?_eq_getElem (by omega)] at this
    simp only [hlen] at this ⊢
    exact (Option.some.inj this).symm
  have e : ds.length - 1 - (ds.length - 1 - i) = i := by omega
  rw [e] at hset
  rw [hsd] at hlow0
  refine ⟨(ds.set (ds.length - 1 - i)
      (borrow_digit (to_int8 ((od[od.length - 1 - i] : Int) - (ds[ds.length - 1 - i] : Int)
        - (b : Int)))).1,
    (borrow_digit (to_int8 ((od[od.length - 1 - i] : Int) - (ds[ds.length - 1 - i] : Int)
      - (b : Int)))).2), ?_, ?_, ?_, ?_, ?_, ?_⟩
  · simp only [rsub_this_step, index_back_of_lt _ _ hi, index_back_of_lt _ _ hio,
      List.getElem?_eq_getElem hk, List.getElem?_eq_getElem hko, write_of_lt _ _ _ hk,
      Option.bind_eq_bind, Option.some_bind, Option.pure_def]
  · simpa using hlen
  · exact set_digits_le ds hds _ _ hr1
  · exact hr2
  · intro j hj
    simp only [List.length_set] at hj
    rw [List.getElem?_set_ne (by omega)]
    exact hsame j (by omega)
  · simp only
    rw [hlow, hlow0]
    generalize ds[ds.length - 1 - i] = d at *
    generalize od[od.length - 1 - i] = o at *
    generalize (borrow_digit (to_int8 ((o : Int) - (d : Int) - (b : Int)))).1 = r at *
    generalize (borrow_digit (to_int8 ((o : Int) - (d : Int) - (b : Int)))).2 = b' at *
    have e3 : r * 10 ^ i + d * 10 ^ i + b * 10 ^ i = o * 10 ^ i + b' * 10 ^ (i + 1) := by
      rw [pow_succ]
      have := congrArg (fun x => x * 10 ^ i) hr3
      simp only at this
      linarith [this]
    linarith [e3, hset, hM]

theorem rsub_other_step_spec (od ds : List Nat) (b i M0 : Nat)
    (hds : ∀ d ∈ ds, d ≤ 9) (hod : ∀ d ∈ od, d ≤ 9) (hb : b ≤ 1)
    (hlen : ds.length = i) (hio : i < od.length)
    (hM : magnitude ds + M0 = magnitude (od.drop (od.length - i)) + b * 10 ^ i) :
    ∃ t, rsub_other_step od i (ds, b) = some t ∧ t.1.length = i + 1 ∧
      (∀ d ∈ t.1, d ≤ 9) ∧ t.2 ≤ 1 ∧
      magnitude t.1 + M0 = magnitude (od.drop (od.length - (i + 1))) + t.2 * 10 ^ (i + 1) := by
  have hko : od.length - 1 - i < od.length := by omega
  have ho := getElem_le_of_all od hod _ hko
  obtain ⟨hr1, hr2, hr3⟩ := borrow_digit_spec_zero _ b ho hb
  have hlow := low_digits_succ od i hio
  refine ⟨((borrow_digit (to_int8 ((od[od.length - 1 - i] : Int) - (b : Int)))).1 :: ds,
    (borrow_digit (to_int8 ((od[od.length - 1 - i] : Int) - (b : Int)))).2), ?_, ?_, ?_, ?_, ?_⟩
  · simp only [rsub_other_step, index_back_of_lt _ _ hio, List.getElem?_eq_getElem hko,
      Option.bind_eq_bind, Option.some_bind, Option.pure_def]
  · simp [hlen]
  · intro d hd
    rcases List.mem_cons.mp hd with h1 | h1
    · rw [h1]; exact hr1
    · exact hds d h1
  · exact hr2
  · simp only
    rw [hlow, magnitude_cons, hlen]
    generalize od[od.length - 1 - i] = o at *
    generalize (borrow_digit (to_int8 ((o : Int) - (b : Int)))).1 = r at *
    generalize (borrow_digit (to_int8 ((o : Int) - (b : Int)))).2 = b' at *
    have e3 : r * 10 ^ i + b * 10 ^ i = o * 10 ^ i + b' * 10 ^ (i + 1) := by
      rw [pow_succ]
      have := congrArg (fun x => x * 10 ^ i) hr3
      simp only at this
      linarith [this]
    linarith [e3, hM]

/-- The opposite-sign branch stays within the defined behaviour and subtracts the smaller
magnitude from the larger one; the sign is that of the larger magnitude. -/
theorem add_opposite_sign_spec (sign : Char) (ds : List Nat) (other : bigint)
    (hds : ∀ d ∈ ds, d ≤ 9) (hod : ∀ d ∈ other.digits, d ≤ 9)
    (hdne : ds ≠ []) (hone : other.digits ≠ [])
    (hd0 : 1 < ds.length → ds.head? ≠ some 0)
    (ho0 : 1 < other.digits.length → other.digits.head? ≠ some 0)
    (hne : ds ≠ other.digits) :
    ∃ r, add_opposite_sign sign ds other = some r ∧ (∀ d ∈ r.2, d ≤ 9) ∧ r.2 ≠ [] ∧
      ((r.1 = sign ∧ magnitude other.digits < magnitude ds ∧
          magnitude r.2 + magnitude other.digits = magnitude ds) ∨
        (r.1 = other.sign ∧ magnitude ds < magnitude other.digits ∧
          magnitude r.2 + magnitude ds = magnitude other.digits)) := by
  have hcmp := magnitude_lt_iff other.digits ds hone hdne hod hds ho0 hd0
  have hdl : 0 < ds.length := List.length_pos.mpr hdne
  have hol : 0 < other.digits.length := List.length_pos.mpr hone
  unfold add_opposite_sign
  by_cases hc : ds.length > other.digits.length ∨
      (ds.length = other.digits.length ∧ vector_lt other.digits ds = true)
  · -- this has the larger magnitude
    rw [if_pos hc]
    have hlt : magnitude other.digits < magnitude ds := by
      apply hcmp.mpr
      rcases hc with h | ⟨h1, h2⟩
      · exact Or.inl h
      · exact Or.inr ⟨h1.symm, h2⟩
    have hle : other.digits.length ≤ ds.length := by
      rcases hc with h | ⟨h1, _⟩ <;> omega
    obtain ⟨t1, h1, hl1, hd1, hc1, hm1⟩ := for_loop_invariant (sub_other_step other.digits)
      (fun i t => t.1.length = ds.length ∧ (∀ d ∈ t.1, d ≤ 9) ∧ t.2 ≤ 1 ∧
        magnitude t.1 + magnitude (other.digits.drop (other.digits.length - i))
          = magnitude ds + t.2 * 10 ^ i)
      other.digits.length 0 (ds, 0)
      ⟨rfl, hds, by omega, by simp [magnitude_nil]⟩
      (by
        rintro i ⟨xs, c⟩ _ hi ⟨hl, hd, hc, hm⟩
        simp only at hl hd hc hm
        obtain ⟨t, ht, h2, h3, h4, h5⟩ := sub_other_step_spec other.digits xs c i (magnitude ds)
          hd hod hc (by omega) (by omega) hm
        exact ⟨t, ht, by omega, h3, h4, h5⟩)
    simp only [Nat.zero_add, Nat.sub_self, List.drop_zero] at hl1 hd1 hc1 hm1
    obtain ⟨xs1, b1⟩ := t1
    simp only at hl1 hd1 hc1 hm1
    obtain ⟨t2, h2, hl2, hd2, _, hm2⟩ := borrow_while_spec (magnitude other.digits)
      (magnitude ds) hlt (ds.length - other.digits.length) other.digits.length xs1 b1
      (by omega) (by omega) hd1 hc1 hm1
    simp only [h1, h2, Option.bind_eq_bind, Option.some_bind, Option.pure_def]
    refine ⟨_, rfl, hd2, ?_, Or.inl ⟨rfl, hlt, hm2⟩⟩
    apply List.ne_nil_of_length_pos
    simp only; omega
  · -- other has the larger magnitude
    rw [if_neg hc]
    have hnlt : ¬ magnitude other.digits < magnitude ds := by
      intro h
      rcases hcmp.mp h with h1 | ⟨h1, h2⟩
      · exact hc (Or.inl h1)
      · exact hc (Or.inr ⟨h1.symm, h2⟩)
    have hlt : magnitude ds < magnitude other.digits := by
      have : magnitude ds ≠ magnitude other.digits := by
        intro h
        exact hne (magnitude_inj ds other.digits hdne hone hds hod hd0 ho0 h)
      omega
    have hle : ds.length ≤ other.digits.length := by
      by_contra h
      exact hc (Or.inl (by omega))
    obtain ⟨t1, h1, hl1, hd1, hc1, _, hm1⟩ := for_loop_invariant
      (rsub_this_step other.digits)
      (fun i t => t.1.length = ds.length ∧ (∀ d ∈ t.1, d ≤ 9) ∧ t.2 ≤ 1 ∧
        (∀ j, j < t.1.length - i → t.1[j]? = ds[j]?) ∧
        magnitude t.1 + 2 * magnitude (ds.drop (ds.length - i))
          = magnitude ds + magnitude (other.digits.drop (other.digits.length - i))
            + t.2 * 10 ^ i)
      ds.length 0 (ds, 0)
      ⟨rfl, hds, by omega, fun _ _ => rfl, by simp [magnitude_nil]⟩
      (by
        rintro i ⟨xs, c⟩ _ hi ⟨hl, hd, hc, hs, hm⟩
        simp only at hl hd hc hs hm
        exact rsub_this_step_spec other.digits ds xs c i hd hod hc hl (by omega) (by omega)
          hs hm)
    simp only [Nat.zero_add, Nat.sub_self, List.drop_zero] at hl1 hd1 hc1 hm1
    obtain ⟨t2, h2, hl2, hd2, hc2, hm2⟩ := for_loop_invariant
      (rsub_other_step other.digits)
      (fun i t => t.1.length = i ∧ (∀ d ∈ t.1, d ≤ 9) ∧ t.2 ≤ 1 ∧
        magnitude t.1 + magnitude ds
          = magnitude (other.digits.drop (other.digits.length - i)) + t.2 * 10 ^ i)
      (other.digits.length - ds.length) ds.length t1
      ⟨hl1, hd1, hc1, by omega⟩
      (by
        rintro i ⟨xs, c⟩ _ hi ⟨hl, hd, hc, hm⟩
        simp only at hl hd hc hm
        exact rsub_other_step_spec other.digits xs c i _ hd hod hc hl (by omega) hm)
    have e : ds.length + (other.digits.length - ds.length) = other.digits.length := by omega
    rw [e] at hl2 hm2
    simp only [Nat.sub_self, List.drop_zero] at hm2
    have hb : t2.2 = 0 := by
      have := magnitude_lt_pow t2.1 hd2
      rw [hl2] at this
      rcases Nat.eq_zero_or_pos t2.2 with h | h
      · exact h
      · exfalso
        have h1 : t2.2 = 1 := by omega
        rw [h1] at hm2
        omega
    rw [hb] at hm2
    simp only [h1, h2, Option.bind_eq_bind, Option.some_bind, Option.pure_def]
    refine ⟨_, rfl, hd2, ?_, Or.inr ⟨rfl, hlt, by simpa using hm2⟩⟩
    apply List.ne_nil_of_length_pos
    simp only; omega

theorem value_operator_neg (b : bigint) (hs : b.sign = '+' ∨ b.sign = '-') :
    value (operator_neg b) = -value b := by
  unfold operator_neg
  rcases hs with h | h
  · rw [if_pos h, value_pos b h, value_neg _ rfl]
  · have hn : ¬ b.sign = '+' := by rw [h]; decide
    rw [if_neg hn, value_neg b h, value_pos _ rfl]
    simp

/-- A canonical value whose first digit is 0 is the canonical zero. -/
theorem eq_zero_of_first_digit (a : bigint) (ha : invariants a) (h : a.digits[0]? = some 0) :
    a = ⟨'+', [0]⟩ := by
  obtain ⟨_, hne, _, h0, hz⟩ := ha
  cases a with
  | mk s ds =>
    simp only at hne h0 hz h
    cases ds with
    | nil => exact absurd rfl hne
    | cons d rest =>
      simp only [List.getElem?_cons_zero, Option.some.injEq] at h
      subst h
      cases rest with
      | nil => rw [hz rfl]
      | cons e es => exact absurd rfl (h0 (by simp))

theorem magnitude_pos_of_first_digit (ds : List Nat) (d0 : Nat) (h : ds[0]? = some d0)
    (hd : d0 ≠ 0) : 0 < magnitude ds := by
  cases ds with
  | nil => simp at h
  | cons d rest =>
    simp only [List.getElem?_cons_zero, Option.some.injEq] at h
    subst h
    have := magnitude_ge_pow d rest hd
    have hp : 0 < 10 ^ rest.length := Nat.pos_pow_of_pos _ (by norm_num)
    omega

theorem first_digit_of_ne_nil (ds : List Nat) (h : ds ≠ []) : ∃ d0, ds[0]? = some d0 := by
  cases ds with
  | nil => exact absurd rfl h
  | cons d rest => exact ⟨d, by simp⟩

/-- A stripped digit vector with a sign is canonical as soon as its magnitude is positive. -/
theorem invariants_strip (s : Char) (ds : List Nat) (hs : s = '+' ∨ s = '-')
    (hne : ds ≠ []) (hd : ∀ d ∈ ds, d ≤ 9) (hpos : 0 < magnitude ds) :
    invariants ⟨s, strip_leading_zeros ds⟩ := by
  refine ⟨hs, strip_ne_nil ds hne, strip_digits_le ds hd, strip_no_leading_zero ds, ?_⟩
  intro h
  simp only at h
  have := magnitude_strip ds
  rw [h] at this
  have h0 : magnitude [0] = 0 := rfl
  omega

/-- The member `operator+=` on canonical operands: defined, exact and canonical. -/
theorem operator_add_assign_spec (a b : bigint) (ha : invariants a) (hb : invariants b) :
    ∃ r, operator_add_assign a b = some r ∧ value r = value a + value b ∧ invariants r := by
  obtain ⟨d0, hd0⟩ := first_digit_of_ne_nil a.digits ha.2.1
  obtain ⟨o0, ho0⟩ := first_digit_of_ne_nil b.digits hb.2.1
  unfold operator_add_assign
  simp only [hd0, Option.bind_eq_bind, Option.some_bind]
  by_cases hz : d0 = 0
  · rw [if_pos hz]
    rw [hz] at hd0
    have := eq_zero_of_first_digit a ha hd0
    refine ⟨b, rfl, ?_, hb⟩
    rw [this]
    simp [value, magnitude]
  · rw [if_neg hz]
    simp only [ho0, Option.some_bind]
    by_cases hz2 : o0 = 0
    · rw [if_pos hz2]
      rw [hz2] at ho0
      have := eq_zero_of_first_digit b hb ho0
      refine ⟨a, rfl, ?_, ha⟩
      rw [this]
      simp [value, magnitude]
    · rw [if_neg hz2]
      have hpa := magnitude_pos_of_first_digit a.digits d0 hd0 hz
      have hpb := magnitude_pos_of_first_digit b.digits o0 ho0 hz2
      by_cases heq : operator_eq a (operator_neg b) = true
      · rw [if_pos heq]
        refine ⟨⟨'+', [0]⟩, rfl, ?_, by decide⟩
        rw [(operator_eq_iff _ _).mp heq, value_operator_neg b hb.1]
        simp [value, magnitude]
      · rw [if_neg heq]
        obtain ⟨hsa, hnea, hda, h0a, _⟩ := ha
        obtain ⟨hsb, hneb, hdb, h0b, _⟩ := hb
        by_cases hss : a.sign = b.sign
        · rw [if_pos hss]
          obtain ⟨r, hr, hm, hdr, hl, _⟩ := add_same_sign_spec a.digits b.digits hda hdb
          simp only [hr, Option.some_bind, Option.pure_def]
          have hrne : r ≠ [] := by
            apply List.ne_nil_of_length_pos
            have := List.length_pos.mpr hnea
            omega
          refine ⟨_, rfl, ?_, invariants_strip a.sign r hsa hrne hdr (by omega)⟩
          rcases hsa with h | h
          · rw [value_pos ⟨a.sign, strip_leading_zeros r⟩ h, value_pos a h, value_pos b (by rw [← hss]; exact h)]
            simp only [magnitude_strip, hm]
            push_cast; ring
          · rw [value_neg ⟨a.sign, strip_leading_zeros r⟩ h, value_neg a h, value_neg b (by rw [← hss]; exact h)]
            simp only [magnitude_strip, hm]
            push_cast; ring
        · rw [if_neg hss]
          have hne : a.digits ≠ b.digits := by
            intro h
            apply heq
            rw [operator_eq_iff]
            cases a with
            | mk sa da =>
              cases b with
              | mk sb db =>
                simp only at h hss hsa hsb
                unfold operator_neg
                rcases hsa with h1 | h1 <;> rcases hsb with h2 | h2
                · exact absurd (h1.trans h2.symm) hss
                · have hn : ¬ sb = '+' := by rw [h2]; decide
                  simp only [if_neg hn, h1, h]
                · simp only [h2, if_true, h1, h]
                · exact absurd (h1.trans h2.symm) hss
          obtain ⟨r, hr, hdr, hrne, hcase⟩ := add_opposite_sign_spec a.sign a.digits b
            hda hdb hnea hneb h0a h0b hne
          simp only [hr, Option.some_bind, Option.pure_def]
          rcases hcase with ⟨hs, hlt, hm⟩ | ⟨hs, hlt, hm⟩
          · refine ⟨_, rfl, ?_, invariants_strip r.1 r.2 (by rw [hs]; exact hsa) hrne hdr
              (by omega)⟩
            rcases hsa with h1 | h1 <;> rcases hsb with h2 | h2
            · exact absurd (h1.trans h2.symm) hss
            · rw [value_pos ⟨r.1, strip_leading_zeros r.2⟩ (by show r.1 = _; rw [hs]; exact h1), value_pos a h1, value_neg b h2]
              simp only [magnitude_strip]
              omega
            · rw [value_neg ⟨r.1, strip_leading_zeros r.2⟩ (by show r.1 = _; rw [hs]; exact h1), value_neg a h1, value_pos b h2]
              simp only [magnitude_strip]
              omega
            · exact absurd (h1.trans h2.symm) hss
          · refine ⟨_, rfl, ?_, invariants_strip r.1 r.2 (by rw [hs]; exact hsb) hrne hdr
              (by omega)⟩
            rcases hsa with h1 | h1 <;> rcases hsb with h2 | h2
            · exact absurd (h1.trans h2.symm) hss
            · rw [value_neg ⟨r.1, strip_leading_zeros r.2⟩ (by show r.1 = _; rw [hs]; exact h2), value_pos a h1, value_neg b h2]
              simp only [magnitude_strip]
              omega
            · rw [value_pos ⟨r.1, strip_leading_zeros r.2⟩ (by show r.1 = _; rw [hs]; exact h2), value_neg a h1, value_pos b h2]
              simp only [magnitude_strip]
              omega
            · exact absurd (h1.trans h2.symm) hss

/-! ## Multiplication -/

theorem mul_inner_step_spec (a b acc : List Nat) (c i j V : Nat)
    (ha : ∀ d ∈ a, d ≤ 9) (hb : ∀ d ∈ b, d ≤ 9) (hacc : ∀ d ∈ acc, d ≤ 9) (hc : c ≤ 9)
    (hlen : acc.length = a.length + b.length) (hi : i < a.length) (hj : j < b.length)
    (hzero : ∀ k, k < a.length - i → acc[k]? = some 0)
    (hM : magnitude acc + c * 10 ^ (i + j)
      = V + a[a.length - 1 - i] * magnitude (b.drop (b.length - j)) * 10 ^ i) :
    ∃ t, mul_inner_step a b i j (acc, c) = some t ∧ t.1.length = a.length + b.length ∧
      (∀ d ∈ t.1, d ≤ 9) ∧ t.2 ≤ 9 ∧ (∀ k, k < a.length - i → t.1[k]? = some 0) ∧
      magnitude t.1 + t.2 * 10 ^ (i + (j + 1))
        = V + a[a.length - 1 - i] * magnitude (b.drop (b.length - (j + 1))) * 10 ^ i := by
  have hk : a.length - 1 - i < a.length := by omega
  have hko : b.length - 1 - j < b.length := by omega
  have hij : i + j < acc.length := by omega
  have hkp : acc.length - 1 - (i + j) < acc.length := by omega
  have hd := getElem_le_of_all a ha _ hk
  have ho := getElem_le_of_all b hb _ hko
  have hp := getElem_le_of_all acc hacc _ hkp
  have hset := magnitude_set acc (acc.length - 1 - (i + j))
    ((acc[acc.length - 1 - (i + j)]
      + (a[a.length - 1 - i] * b[b.length - 1 - j] + c) % 256 % 10) % 256 % 10) hkp
  have hlow := low_digits_succ b j hj
  have e : acc.length - 1 - (acc.length - 1 - (i + j)) = i + j := by omega
  rw [e] at hset
  refine ⟨(acc.set (acc.length - 1 - (i + j))
      ((acc[acc.length - 1 - (i + j)]
        + (a[a.length - 1 - i] * b[b.length - 1 - j] + c) % 256 % 10) % 256 % 10),
    ((a[a.length - 1 - i] * b[b.length - 1 - j] + c) % 256 / 10
      + (acc[acc.length - 1 - (i + j)]
        + (a[a.length - 1 - i] * b[b.length - 1 - j] + c) % 256 % 10) % 256 / 10) % 256),
    ?_, ?_, ?_, ?_, ?_, ?_⟩
  · simp only [mul_inner_step, index_back_of_lt _ _ hi, index_back_of_lt _ _ hj,
      index_back_of_lt _ _ hij,
      List.getElem?_eq_getElem hk, List.getElem?_eq_getElem hko, List.getElem?_eq_getElem hkp,
      write_of_lt _ _ _ hkp, Option.bind_eq_bind, Option.some_bind, Option.pure_def]
  · simpa using hlen
  · exact set_digits_le acc hacc _ _ (by omega)
  · simp only
    generalize a[a.length - 1 - i] = d at *
    generalize b[b.length - 1 - j] = o at *
    generalize acc[acc.length - 1 - (i + j)] = p at *
    have hdo : d * o ≤ 81 := by
      have := Nat.mul_le_mul hd ho
      omega
    generalize d * o = q at *
    omega
  · intro k hkl
    rw [List.getElem?_set_ne (by omega)]
    exact hzero k hkl
  · simp only
    rw [hlow]
    generalize a[a.length - 1 - i] = d at *
    generalize b[b.length - 1 - j] = o at *
    generalize acc[acc.length - 1 - (i + j)] = p at *
    have hdo : d * o ≤ 81 := by
      have := Nat.mul_le_mul hd ho
      omega
    have e1 : (d * o + c) % 256 = d * o + c := by
      generalize d * o = q at *
      omega
    rw [e1] at hset ⊢
    have e2 : (p + (d * o + c) % 10) % 256 = p + (d * o + c) % 10 := by
      generalize d * o = q at *
      omega
    rw [e2] at hset ⊢
    have e3 : ((d * o + c) / 10 + (p + (d * o + c) % 10) / 10) % 256
        = (d * o + c) / 10 + (p + (d * o + c) % 10) / 10 := by
      generalize d * o = q at *
      omega
    rw [e3]
    have e4 : (p + (d * o + c) % 10) % 10
        + 10 * ((d * o + c) / 10 + (p + (d * o + c) % 10) / 10) = p + (d * o + c) := by
      generalize d * o = q at *
      omega
    generalize (p + (d * o + c) % 10) % 10 = r at *
    generalize (d * o + c) / 10 + (p + (d * o + c) % 10) / 10 = c' at *
    have e5 := congrArg (fun x => x * 10 ^ (i + j)) e4
    simp only at e5
    have e6 : (10 : Nat) ^ (i + (j + 1)) = 10 * 10 ^ (i + j) := by
      rw [← Nat.add_assoc, pow_succ]; ring
    have e7 : (10 : Nat) ^ (i + j) = 10 ^ i * 10 ^ j := pow_add 10 i j
    rw [e6]
    rw [e7] at e5 hset hM ⊢
    generalize magnitude (List.drop (b.length - j) b) = lb at *
    generalize magnitude (acc.set (acc.length - 1 - (i + j)) r) = macc' at *
    generalize magnitude acc = macc at *
    generalize (10 : Nat) ^ i = P at *
    generalize (10 : Nat) ^ j = Q at *
    have e8 : macc' + c' * (10 * (P * Q)) + p * (P * Q)
        = V + d * (o * Q + lb) * P + p * (P * Q) := by
      have : (r + 10 * c') * (P * Q) = (p + (d * o + c)) * (P * Q) := e5
      linear_combination hset + hM + this
    omega

/-- One round of the outer loop adds `digit * other`, shifted, to the accumulator. -/
theorem mul_outer_step_spec (a b acc : List Nat) (i : Nat)
    (ha : ∀ d ∈ a, d ≤ 9) (hb : ∀ d ∈ b, d ≤ 9) (hacc : ∀ d ∈ acc, d ≤ 9)
    (hlen : acc.length = a.length + b.length) (hi : i < a.length)
    (hzero : ∀ k, k < a.length - i → acc[k]? = some 0)
    (hM : magnitude acc = magnitude (a.drop (a.length - i)) * magnitude b) :
    ∃ t, mul_outer_step a b i acc = some t ∧ t.length = a.length + b.length ∧
      (∀ d ∈ t, d ≤ 9) ∧ (∀ k, k < a.length - (i + 1) → t[k]? = some 0) ∧
      magnitude t = magnitude (a.drop (a.length - (i + 1))) * magnitude b := by
  obtain ⟨t1, h1, hl1, hd1, hc1, hz1, hm1⟩ := for_loop_invariant (mul_inner_step a b i)
    (fun j t => t.1.length = a.length + b.length ∧ (∀ d ∈ t.1, d ≤ 9) ∧ t.2 ≤ 9 ∧
      (∀ k, k < a.length - i → t.1[k]? = some 0) ∧
      magnitude t.1 + t.2 * 10 ^ (i + j)
        = magnitude acc + a[a.length - 1 - i] * magnitude (b.drop (b.length - j)) * 10 ^ i)
    b.length 0 (acc, 0)
    ⟨hlen, hacc, by omega, hzero, by simp [magnitude_nil]⟩
    (by
      rintro j ⟨xs, c⟩ _ hj ⟨hl, hd, hc, hz, hm⟩
      simp only at hl hd hc hz hm
      exact mul_inner_step_spec a b xs c i j (magnitude acc) ha hb hd hc hl hi (by omega) hz hm)
  simp only [Nat.zero_add, Nat.sub_self, List.drop_zero] at hl1 hd1 hc1 hz1 hm1
  have hk : a.length - 1 - i < t1.1.length := by omega
  have hz0 := hz1 (a.length - 1 - i) (by omega)
  rw [List.getElem?_eq_getElem hk] at hz0
  have hz00 : t1.1[a.length - 1 - i] = 0 := Option.some.inj hz0
  have hset := magnitude_set t1.1 (a.length - 1 - i) t1.2 hk
  have e : t1.1.length - 1 - (a.length - 1 - i) = i + b.length := by omega
  rw [e, hz00] at hset
  have hlow := low_digits_succ a i hi
  refine ⟨t1.1.set (a.length - 1 - i) t1.2, ?_, ?_, ?_, ?_, ?_⟩
  · unfold mul_outer_step
    simp only [h1, Option.bind_eq_bind, Option.some_bind, index_back_of_lt _ _ hi,
      write_of_lt _ _ _ hk]
  · simpa using hl1
  · exact set_digits_le t1.1 hd1 _ _ hc1
  · intro k hkl
    rw [List.getElem?_set_ne (by omega)]
    exact hz1 k (by omega)
  · rw [hlow, hM] at *
    rw [hM] at hm1
    generalize magnitude (t1.1.set (a.length - 1 - i) t1.2) = x at *
    linear_combination hset + hm1

theorem replicate_zero_getElem? (n k : Nat) (h : k < n) :
    (List.replicate n 0)[k]? = some 0 := by
  rw [List.getElem?_replicate]; simp [h]

/-- The schoolbook accumulation yields the digits of the product of the magnitudes. -/
theorem mul_loops_spec (a b : List Nat) (ha : ∀ d ∈ a, d ≤ 9) (hb : ∀ d ∈ b, d ≤ 9) :
    ∃ t, for_loop (mul_outer_step a b) 0 a.length (List.replicate (a.length + b.length) 0)
        = some t ∧ t.length = a.length + b.length ∧ (∀ d ∈ t, d ≤ 9) ∧
      magnitude t = magnitude a * magnitude b := by
  obtain ⟨t, h1, hl, hd, _, hm⟩ := for_loop_invariant (mul_outer_step a b)
    (fun i t => t.length = a.length + b.length ∧ (∀ d ∈ t, d ≤ 9) ∧
      (∀ k, k < a.length - i → t[k]? = some 0) ∧
      magnitude t = magnitude (a.drop (a.length - i)) * magnitude b)
    a.length 0 (List.replicate (a.length + b.length) 0)
    ⟨by simp, by
        intro d hd
        rw [(List.mem_replicate.mp hd).2]; omega,
      fun k hk => replicate_zero_getElem? _ k (by omega),
      by simp [magnitude_nil, magnitude_replicate_zero]⟩
    (by
      rintro i xs _ hi ⟨hl, hd, hz, hm⟩
      exact mul_outer_step_spec a b xs i ha hb hd hl (by omega) hz hm)
  simp only [Nat.zero_add, Nat.sub_self, List.drop_zero] at hm
  exact ⟨t, h1, hl, hd, hm⟩

/-- On a vector of positive magnitude the unguarded stripping loop stops inside the vector. -/
theorem strip_zeros_unguarded_spec (acc : List Nat) (hpos : 0 < magnitude acc) :
    ∃ ds, strip_zeros_unguarded acc = some ds ∧ magnitude ds = magnitude acc ∧
      (∀ d ∈ ds, d ∈ acc) ∧ ds ≠ [] ∧ ds.head? ≠ some 0 := by
  induction acc with
  | nil => simp [magnitude_nil] at hpos
  | cons d rest ih =>
    unfold strip_zeros_unguarded
    by_cases hd : d = 0
    · rw [if_pos hd]
      have hm : magnitude (d :: rest) = magnitude rest := by
        rw [magnitude_cons, hd]; simp
      rw [hm] at hpos
      obtain ⟨ds, h1, h2, h3, h4, h5⟩ := ih hpos
      exact ⟨ds, h1, by rw [h2, hm], fun x hx => List.mem_cons_of_mem _ (h3 x hx), h4, h5⟩
    · rw [if_neg hd]
      refine ⟨d :: rest, rfl, rfl, fun x hx => hx, by simp, ?_⟩
      simp only [List.head?_cons]
      intro h
      exact hd (Option.some.inj h)

theorem eq_singleton_of_first (ds : List Nat) (d : Nat) (h : ds[0]? = some d)
    (hl : ds.length = 1) : ds = [d] := by
  cases ds with
  | nil => simp at hl
  | cons x rest =>
    simp only [List.getElem?_cons_zero, Option.some.injEq] at h
    simp only [List.length_cons, Nat.add_left_eq_self, List.length_eq_zero] at hl
    rw [h, hl]

theorem ne_zero_digits_of_first (ds : List Nat) (d : Nat) (h : ds[0]? = some d) (hd : d ≠ 0) :
    ds ≠ [0] := by
  intro he
  rw [he] at h
  simp only [List.getElem?_cons_zero, Option.some.injEq] at h
  exact hd h.symm

/-- Flipping the sign of a canonical value other than zero gives a canonical value. -/
theorem invariants_flip (s : Char) (a : bigint) (ha : invariants a) (hs : s = '+' ∨ s = '-')
    (hnz : a.digits ≠ [0]) : invariants ⟨s, a.digits⟩ := by
  obtain ⟨_, hne, hd, h0, _⟩ := ha
  exact ⟨hs, hne, hd, h0, fun h => absurd h hnz⟩

theorem invariants_operator_neg (a : bigint) (ha : invariants a) (hnz : a.digits ≠ [0]) :
    invariants (operator_neg a) := by
  unfold operator_neg
  by_cases h : a.sign = '+'
  · rw [if_pos h]; exact invariants_flip '-' a ha (Or.inr rfl) hnz
  · rw [if_neg h]; exact invariants_flip '+' a ha (Or.inl rfl) hnz

/-- The member `operator*=` on canonical operands: defined, exact and canonical. -/
theorem operator_mul_assign_spec (a b : bigint) (ha : invariants a) (hb : invariants b) :
    ∃ r, operator_mul_assign a b = some r ∧ value r = value a * value b ∧ invariants r := by
  obtain ⟨d0, hd0⟩ := first_digit_of_ne_nil a.digits ha.2.1
  obtain ⟨o0, ho0⟩ := first_digit_of_ne_nil b.digits hb.2.1
  unfold operator_mul_assign
  simp only [hd0, ho0, Option.bind_eq_bind, Option.some_bind, Option.map_some']
  by_cases hz : d0 = 0
  · rw [if_pos hz]
    rw [hz] at hd0
    have := eq_zero_of_first_digit a ha hd0
    refine ⟨⟨'+', [0]⟩, rfl, ?_, by decide⟩
    rw [this]
    simp [value, magnitude]
  · rw [if_neg hz]
    by_cases hz2 : o0 = 0
    · simp only [hz2, decide_True, if_true]
      rw [hz2] at ho0
      have := eq_zero_of_first_digit b hb ho0
      refine ⟨⟨'+', [0]⟩, rfl, ?_, by decide⟩
      rw [this]
      simp [value, magnitude]
    · simp only [hz2, decide_False, Bool.false_eq_true, if_false]
      have hanz := ne_zero_digits_of_first a.digits d0 hd0 hz
      have hbnz := ne_zero_digits_of_first b.digits o0 ho0 hz2
      have hpa := magnitude_pos_of_first_digit a.digits d0 hd0 hz
      have hpb := magnitude_pos_of_first_digit b.digits o0 ho0 hz2
      by_cases h1 : a.sign = '+' ∧ d0 = 1 ∧ a.digits.length = 1
      · rw [if_pos h1]
        refine ⟨b, rfl, ?_, hb⟩
        have hda := eq_singleton_of_first a.digits d0 hd0 h1.2.2
        rw [value_pos a h1.1, hda, h1.2.1]
        simp [magnitude]
      · rw [if_neg h1]
        by_cases h2 : b.sign = '+' ∧ o0 = 1 ∧ b.digits.length = 1
        · rw [if_pos h2]
          refine ⟨a, rfl, ?_, ha⟩
          have hdb := eq_singleton_of_first b.digits o0 ho0 h2.2.2
          rw [value_pos b h2.1, hdb, h2.2.1]
          simp [magnitude]
        · rw [if_neg h2]
          by_cases h3 : a.sign = '-' ∧ d0 = 1 ∧ a.digits.length = 1
          · rw [if_pos h3]
            refine ⟨operator_neg b, rfl, ?_, invariants_operator_neg b hb hbnz⟩
            have hda := eq_singleton_of_first a.digits d0 hd0 h3.2.2
            rw [value_operator_neg b hb.1, value_neg a h3.1, hda, h3.2.1]
            simp [magnitude]
          · rw [if_neg h3]
            by_cases h4 : b.sign = '-' ∧ o0 = 1 ∧ b.digits.length = 1
            · rw [if_pos h4]
              have hdb := eq_singleton_of_first b.digits o0 ho0 h4.2.2
              refine ⟨_, rfl, ?_, invariants_flip _ a ha ?_ hanz⟩
              · rw [value_neg b h4.1, hdb, h4.2.1]
                rcases ha.1 with hs | hs
                · have hn : ¬ a.sign = '-' := by rw [hs]; decide
                  rw [if_neg hn, value_neg _ rfl, value_pos a hs]
                  simp [magnitude]
                · rw [if_pos hs, value_pos _ rfl, value_neg a hs]
                  simp [magnitude]
              · by_cases hs : a.sign = '-'
                · rw [if_pos hs]; exact Or.inl rfl
                · rw [if_neg hs]; exact Or.inr rfl
            · rw [if_neg h4]
              obtain ⟨hsa, _, hda, _, _⟩ := ha
              obtain ⟨hsb, _, hdb, _, _⟩ := hb
              obtain ⟨acc, hacc, _, hdacc, hm⟩ := mul_loops_spec a.digits b.digits hda hdb
              have hpos : 0 < magnitude acc := by
                rw [hm]; exact Nat.mul_pos hpa hpb
              obtain ⟨ds, hds, hmds, hsub, hne, hhead⟩ := strip_zeros_unguarded_spec acc hpos
              simp only [hacc, hds, Option.some_bind, Option.pure_def]
              refine ⟨_, rfl, ?_, ?_⟩
              · rcases hsa with h5 | h5 <;> rcases hsb with h6 | h6
                · rw [value_pos a h5, value_pos b h6,
                    value_pos ⟨_, ds⟩ (by simp [h5, h6])]
                  simp only [hmds, hm]; push_cast; ring
                · rw [value_pos a h5, value_neg b h6,
                    value_neg ⟨_, ds⟩ (by simp [h5, h6])]
                  simp only [hmds, hm]; push_cast; ring
                · rw [value_neg a h5, value_pos b h6,
                    value_neg ⟨_, ds⟩ (by simp [h5, h6])]
                  simp only [hmds, hm]; push_cast; ring
                · rw [value_neg a h5, value_neg b h6,
                    value_pos ⟨_, ds⟩ (by simp [h5, h6])]
                  simp only [hmds, hm]; push_cast; ring
              · refine ⟨?_, hne, fun d hd => hdacc d (hsub d hd), fun _ => hhead, ?_⟩
                · by_cases hs : a.sign = b.sign
                  · simp [hs]
                  · simp [hs]
                · intro h
                  simp only at h
                  rw [h] at hhead
                  exact absurd rfl hhead

theorem operator_neg_neg (b : bigint) (hs : b.sign = '+' ∨ b.sign = '-') :
    operator_neg (operator_neg b) = b := by
  cases b with
  | mk s ds =>
    simp only at hs
    rcases hs with h | h <;> subst h <;> rfl

/-- Subtraction runs the same computation as adding the negation. -/
theorem operator_sub_assign_eq (a b : bigint) (hs : b.sign = '+' ∨ b.sign = '-') :
    operator_sub_assign a b = operator_add_assign a (operator_neg b) := by
  have hnd : (operator_neg b).digits = b.digits := by
    unfold operator_neg
    by_cases h : b.sign = '+'
    · rw [if_pos h]
    · rw [if_neg h]
  unfold operator_sub_assign
  cases hd0 : a.digits[0]? with
  | none =>
    unfold operator_add_assign
    simp [hd0]
  | some d0 =>
    simp only [Option.bind_eq_bind, Option.some_bind]
    by_cases hz : d0 = 0
    · rw [if_pos hz]
      unfold operator_add_assign
      simp [hd0, hz]
    · rw [if_neg hz]
      cases ho0 : b.digits[0]? with
      | none =>
        unfold operator_add_assign
        simp [hd0, hz, hnd, ho0]
      | some o0 =>
        simp only [Option.some_bind]
        by_cases hz2 : o0 = 0
        · rw [if_pos hz2]
          unfold operator_add_assign
          simp [hd0, hz, hnd, ho0, hz2]
        · rw [if_neg hz2]
          by_cases he : operator_eq a b = true
          · rw [if_pos he]
            unfold operator_add_assign
            simp only [hd0, hnd, ho0, Option.bind_eq_bind, Option.some_bind, if_neg hz,
              if_neg hz2, operator_neg_neg b hs, if_pos he]
          · rw [if_neg he]

/-- The sign of a canonical value is `+` exactly when the value is not negative. -/
theorem sign_pos_iff (r : bigint) (hr : invariants r) : r.sign = '+' ↔ 0 ≤ value r := by
  have hp := magnitude_pos_of_neg r hr
  rcases hr.1 with h | h
  · rw [value_pos r h]
    constructor
    · intro _; exact Int.natCast_nonneg _
    · intro _; exact h
  · rw [value_neg r h]
    have := hp h
    constructor
    · intro h2; rw [h] at h2; exact absurd h2 (by decide)
    · intro h2; omega

/-! ## Subtracting a value from itself through the general path -/

theorem vector_lt_irrefl (ds : List Nat) : vector_lt ds ds = false := by
  induction ds with
  | nil => rfl
  | cons d ds ih =>
    unfold vector_lt
    simp [ih]

theorem strip_replicate_zero (n : Nat) : strip_leading_zeros (List.replicate (n + 1) 0) = [0] := by
  induction n with
  | zero => rfl
  | succ n ih =>
    rw [List.replicate_succ, List.replicate_succ]
    unfold strip_leading_zeros
    rw [if_pos rfl, ← List.replicate_succ]
    exact ih

theorem borrow_digit_zero : borrow_digit (to_int8 0) = (0, 0) := by decide

/-- Subtracting a digit vector from itself digit by digit leaves zeros and no borrow. -/
theorem rsub_this_self (ds : List Nat) :
    for_loop (rsub_this_step ds) 0 ds.length (ds, 0)
      = some (List.replicate ds.length 0, 0) := by
  obtain ⟨t, h1, hl, hb, _, hz⟩ := for_loop_invariant (rsub_this_step ds)
    (fun i t => t.1.length = ds.length ∧ t.2 = 0 ∧
      (∀ j, j < ds.length - i → t.1[j]? = ds[j]?) ∧
      (∀ j, ds.length - i ≤ j → j < ds.length → t.1[j]? = some 0))
    ds.length 0 (ds, 0)
    ⟨rfl, rfl, fun _ _ => rfl, fun j h1 h2 => by omega⟩
    (by
      rintro i ⟨xs, c⟩ _ hi ⟨hl, hc, hs, hz⟩
      simp only at hl hc hs hz
      subst hc
      have hi2 : i < ds.length := by omega
      have hk : xs.length - 1 - i < xs.length := by omega
      have hko : ds.length - 1 - i < ds.length := by omega
      have hsame := hs (xs.length - 1 - i) (by omega)
      rw [List.getElem?_eq_getElem hk, List.getElem?_eq_getElem (by omega)] at hsame
      have hsd : xs[xs.length - 1 - i] = ds[ds.length - 1 - i] := by
        have := Option.some.inj hsame
        simp only [hl] at this ⊢
        exact this
      refine ⟨(xs.set (xs.length - 1 - i) 0, 0), ?_, ?_, rfl, ?_, ?_⟩
      · simp only [rsub_this_step, index_back_of_lt _ _ (show i < xs.length by omega),
          index_back_of_lt _ _ hi2,
          List.getElem?_eq_getElem hk, List.getElem?_eq_getElem hko, write_of_lt _ _ _ hk,
          Option.bind_eq_bind, Option.some_bind, Option.pure_def, hsd, Nat.cast_zero,
          sub_self, sub_zero, borrow_digit_zero]
      · simpa using hl
      · intro j hj
        simp only [List.length_set] at hj ⊢
        rw [List.getElem?_set_ne (by omega)]
        exact hs j (by omega)
      · intro j hj1 hj2
        simp only
        by_cases hjk : xs.length - 1 - i = j
        · rw [hjk, List.getElem?_set_self (by omega)]
        · rw [List.getElem?_set_ne hjk]
          exact hz j (by omega) hj2)
  rw [h1]
  obtain ⟨xs, c⟩ := t
  simp only at hl hb hz
  subst hb
  congr 2
  apply List.ext_getElem?
  intro j
  by_cases hj : j < ds.length
  · rw [hz j (by omega) hj, List.getElem?_replicate]
    simp [hj]
  · rw [List.getElem?_eq_none (by omega), List.getElem?_eq_none (by simp; omega)]

/-- The opposite-sign branch on two equal digit vectors gives the sign of `other` and zeros. -/
theorem add_opposite_sign_self (sign : Char) (other : bigint) :
    add_opposite_sign sign other.digits other
      = some (other.sign, List.replicate other.digits.length 0) := by
  unfold add_opposite_sign
  have hc : ¬ (other.digits.length > other.digits.length ∨
      (other.digits.length = other.digits.length ∧
        vector_lt other.digits other.digits = true)) := by
    rw [vector_lt_irrefl]
    rintro (h | ⟨_, h⟩)
    · omega
    · cases h
  rw [if_neg hc]
  simp only [rsub_this_self, Nat.sub_self, for_loop, Option.bind_eq_bind, Option.some_bind,
    Option.pure_def]

/-- Subtraction runs the same computation as adding the negation, whatever the sign field. -/
theorem operator_sub_assign_eq_all (a b : bigint) :
    operator_sub_assign a b = operator_add_assign a (operator_neg b) := by
  by_cases hs : b.sign = '+' ∨ b.sign = '-'
  · exact operator_sub_assign_eq a b hs
  · have hs1 : ¬ b.sign = '+' := fun h => hs (Or.inl h)
    have hs2 : ¬ b.sign = '-' := fun h => hs (Or.inr h)
    have hneg : operator_neg b = ⟨'+', b.digits⟩ := by
      unfold operator_neg; rw [if_neg hs1]
    have hnegneg : operator_neg (operator_neg b) = ⟨'-', b.digits⟩ := by
      rw [hneg]; rfl
    unfold operator_sub_assign
    cases hd0 : a.digits[0]? with
    | none =>
      unfold operator_add_assign
      simp [hd0]
    | some d0 =>
      simp only [Option.bind_eq_bind, Option.some_bind]
      by_cases hz : d0 = 0
      · rw [if_pos hz]
        unfold operator_add_assign
        simp [hd0, hz]
      · rw [if_neg hz]
        cases ho0 : b.digits[0]? with
        | none =>
          unfold operator_add_assign
          simp [hd0, hz, hneg, ho0]
        | some o0 =>
          simp only [Option.some_bind]
          by_cases hz2 : o0 = 0
          · rw [if_pos hz2]
            unfold operator_add_assign
            simp [hd0, hz, hneg, ho0, hz2]
          · rw [if_neg hz2]
            by_cases he : operator_eq a b = true
            · rw [if_pos he]
              have hab := (operator_eq_iff a b).mp he
              subst hab
              have hne : ¬ operator_eq a (operator_neg (operator_neg a)) = true := by
                rw [operator_eq_iff, hnegneg]
                intro h
                apply hs2
                rw [h]
              have hss : ¬ a.sign = (operator_neg a).sign := by
                rw [hneg]; exact hs1
              have hlen : a.digits.length = (a.digits.length - 1) + 1 := by
                have : a.digits ≠ [] := by
                  intro h; rw [h] at hd0; simp at hd0
                have := List.length_pos.mpr this
                omega
              unfold operator_add_assign
              simp only [hd0, Option.bind_eq_bind, Option.some_bind, if_neg hz, if_neg hne,
                if_neg hss]
              rw [hneg]
              simp only [ho0, Option.some_bind, if_neg hz2]
              have := add_opposite_sign_self a.sign ⟨'+', a.digits⟩
              simp only at this
              rw [this]
              simp only [Option.some_bind, Option.pure_def]
              rw [hlen, strip_replicate_zero]
            · rw [if_neg he]

/-! ## Rejected strings -/

/-- The constructor on leading spaces, significant characters and trailing spaces. -/
theorem from_string_significant (pre mid post : List Char) (hpre : ∀ x ∈ pre, x = ' ')
    (hpost : ∀ x ∈ post, x = ' ') (hhead : mid.head? ≠ some ' ')
    (hlast : mid.getLast? ≠ some ' ') (hne : mid ≠ []) :
    from_string (pre ++ mid ++ post) = trimmed_outcome mid := by
  have hprerep : pre = List.replicate pre.length ' ' := by
    apply eq_replicate_of_all_space
    rintro ⟨x, hx, hxs⟩
    exact hxs (hpre x hx)
  have hpostrep : post = List.replicate post.length ' ' := by
    apply eq_replicate_of_all_space
    rintro ⟨x, hx, hxs⟩
    exact hxs (hpost x hx)
  obtain ⟨m, x, hm⟩ : ∃ m x, mid = m ++ [x] := by
    rcases List.eq_nil_or_concat mid with h | ⟨l, y, h⟩
    · exact absurd h hne
    · exact ⟨l, y, by rw [h]; simp⟩
  have hx : x ≠ ' ' := by
    intro h
    apply hlast
    rw [hm, h]
    simp
  rw [hprerep, hpostrep, hm]
  rw [hm] at hhead
  exact from_string_trimmed pre.length post.length m x hx hhead

theorem digits_outcome_of_bad (signed : Bool) (sign : Char) (body : List Char)
    (hbad : ∃ x ∈ body, isdigit x = false) :
    digits_outcome signed sign body = outcome.non_digit := by
  obtain ⟨x, hx, hxd⟩ := hbad
  have hno : ∀ r, digits_outcome signed sign body ≠ outcome.ok r := by
    intro r h
    have := digits_outcome_ok_digits signed sign body r h x hx
    rw [hxd] at this
    cases this
  rcases digits_outcome_cases signed sign body with ⟨h, _⟩ | ⟨h, _⟩ | ⟨_, _, _, _, _, _, h⟩
  · exact absurd h (hno _)
  · exact h
  · exact absurd h (hno _)

/-- A first significant character that is neither a sign nor a digit is rejected. -/
theorem from_string_bad_first (pre rest : List Char) (c : Char) (hpre : ∀ x ∈ pre, x = ' ')
    (hsp : c ≠ ' ') (hplus : c ≠ '+') (hminus : c ≠ '-') (hdig : isdigit c = false) :
    from_string (pre ++ c :: rest) = outcome.non_digit := by
  obtain ⟨m, x, b, hm, hx⟩ := exists_trim_back (c :: rest) ⟨c, List.mem_cons_self _ _, hsp⟩
  obtain ⟨rest0, hmid⟩ : ∃ rest0, m ++ [x] = c :: rest0 := by
    cases m with
    | nil =>
      simp only [List.nil_append, List.singleton_append, List.cons.injEq] at hm
      exact ⟨[], by rw [hm.1]; rfl⟩
    | cons y ys =>
      simp only [List.cons_append, List.cons.injEq] at hm
      exact ⟨ys ++ [x], by rw [hm.1]; rfl⟩
  have hfs := from_string_significant pre (m ++ [x]) (List.replicate b ' ') hpre
    (fun y hy => (List.mem_replicate.mp hy).2)
    (by rw [hmid]; simp [hsp]) (by simp [hx]) (by simp)
  rw [List.append_assoc, ← hm] at hfs
  rw [hfs, hmid]
  simp only [trimmed_outcome]
  have hns : ¬ (c = '-' ∨ c = '+') := by
    rintro (h | h)
    · exact hminus h
    · exact hplus h
  rw [if_neg hns, hdig]
  simp

/-- After the optional sign, a character that is not a digit anywhere up to the last
significant character is rejected. -/
theorem from_string_bad_body (pre sgn body post : List Char) (hpre : ∀ x ∈ pre, x = ' ')
    (hpost : ∀ x ∈ post, x = ' ') (hsgn : sgn = [] ∨ sgn = ['+'] ∨ sgn = ['-'])
    (hns : sgn = [] → body.head? ≠ some '+' ∧ body.head? ≠ some '-')
    (hhead : body.head? ≠ some ' ') (hlast : body.getLast? ≠ some ' ')
    (hbad : ∃ x ∈ body, isdigit x = false) :
    from_string (pre ++ sgn ++ body ++ post) = outcome.non_digit := by
  obtain ⟨c, rest, hbody⟩ : ∃ c rest, body = c :: rest := by
    obtain ⟨x, hx, _⟩ := hbad
    cases body with
    | nil => simp at hx
    | cons c rest => exact ⟨c, rest, rfl⟩
  have hcsp : c ≠ ' ' := by
    intro h; apply hhead; rw [hbody, h]; rfl
  have hmidlast : (sgn ++ body).getLast? ≠ some ' ' := by
    rw [hbody, List.getLast?_append_cons]
    rw [hbody] at hlast
    exact hlast
  have hfs := from_string_significant pre (sgn ++ body) post hpre hpost (by
      rcases hsgn with h | h | h <;> rw [h, hbody]
      · simpa using hcsp
      · simp
      · simp) hmidlast (by rw [hbody]; simp)
  have he : pre ++ (sgn ++ body) ++ post = pre ++ sgn ++ body ++ post := by simp
  rw [he] at hfs
  rw [hfs]
  rcases hsgn with h | h | h
  · obtain ⟨h1, h2⟩ := hns h
    rw [h, List.nil_append, hbody]
    simp only [trimmed_outcome]
    have hnsign : ¬ (c = '-' ∨ c = '+') := by
      rintro (h3 | h3)
      · apply h2; rw [hbody, h3]; rfl
      · apply h1; rw [hbody, h3]; rfl
    rw [if_neg hnsign]
    by_cases hd : isdigit c = true
    · rw [if_pos hd, ← hbody]
      exact digits_outcome_of_bad false '+' body hbad
    · rw [if_neg hd]
  · rw [h, hbody]
    simp only [List.singleton_append, trimmed_outcome]
    rw [if_pos (by simp), if_neg hcsp, ← hbody]
    exact digits_outcome_of_bad true '+' body hbad
  · rw [h, hbody]
    simp only [List.singleton_append, trimmed_outcome]
    rw [if_pos (by simp), if_neg hcsp, ← hbody]
    exact digits_outcome_of_bad true '-' body hbad

/-! ## The integer constructor -/

theorem int_digits_loop_spec (fuel : Nat) :
    ∀ (n : Nat) (acc : List Nat), n < 10 ^ fuel →
      ∃ ds, int_digits_loop fuel (n : Int) acc = ds ++ acc ∧ magnitude ds = n ∧
        (∀ d ∈ ds, d ≤ 9) ∧ (n = 0 → ds = []) ∧ (n ≠ 0 → ds ≠ [] ∧ ds.head? ≠ some 0) := by
  induction fuel with
  | zero =>
    intro n acc hn
    have h0 : n = 0 := by simpa using hn
    subst h0
    exact ⟨[], rfl, rfl, by simp, fun _ => rfl, fun h => absurd rfl h⟩
  | succ fuel ih =>
    intro n acc hn
    unfold int_digits_loop
    by_cases h0 : n = 0
    · subst h0
      exact ⟨[], by simp, rfl, by simp, fun _ => rfl, fun h => absurd rfl h⟩
    · have hne : ¬ ((n : Int) = 0) := by exact_mod_cast h0
      rw [if_neg hne]
      have hdiv : (n : Int).tdiv 10 = ((n / 10 : Nat) : Int) := rfl
      have hmod : to_uint8 ((n : Int).tmod 10) = n % 10 := by
        have : (n : Int).tmod 10 = ((n % 10 : Nat) : Int) := rfl
        rw [this]
        unfold to_uint8
        omega
      rw [hdiv, hmod]
      have hlt : n / 10 < 10 ^ fuel := by
        rw [pow_succ] at hn
        omega
      obtain ⟨ds, hds, hm, hd, hz, hnz⟩ := ih (n / 10) (n % 10 :: acc) hlt
      refine ⟨ds ++ [n % 10], by rw [hds]; simp, ?_, ?_, fun h => absurd h h0, fun _ => ?_⟩
      · rw [magnitude_append, hm, magnitude_cons, magnitude_nil]
        simp only [List.length_singleton, List.length_nil, pow_zero, pow_one]
        omega
      · intro d hdm
        rcases List.mem_append.mp hdm with h | h
        · exact hd d h
        · simp only [List.mem_singleton] at h
          omega
      · constructor
        · simp
        · by_cases hq : n / 10 = 0
          · rw [hz hq]
            simp only [List.nil_append, List.head?_cons]
            intro h
            have := Option.some.inj h
            omega
          · obtain ⟨hne2, hh⟩ := hnz hq
            cases ds with
            | nil => exact absurd rfl hne2
            | cons y ys => simpa using hh

/-- The integer constructor is exact on every 64-bit value except the minimum. -/
theorem from_int64_spec (n : Int) (h1 : -2 ^ 63 < n) (h2 : n < 2 ^ 63) :
    invariants (from_int64 n) ∧ value (from_int64 n) = n ∧
      ((from_int64 n).sign = '-' ↔ n < 0) := by
  have key : ∀ (k : Nat) (s : Char), k ≠ 0 → k < 2 ^ 63 → (s = '+' ∨ s = '-') →
      invariants ⟨s, int_digits_loop 20 (k : Int) []⟩ ∧
        magnitude (int_digits_loop 20 (k : Int) []) = k := by
    intro k s hk hlt hs
    obtain ⟨ds, hds, hm, hd, _, hnz⟩ := int_digits_loop_spec 20 k [] (by
      have : (2 : Nat) ^ 63 < 10 ^ 20 := by norm_num
      omega)
    rw [List.append_nil] at hds
    obtain ⟨hne, hh⟩ := hnz hk
    rw [hds]
    refine ⟨⟨hs, hne, hd, fun _ => hh, ?_⟩, hm⟩
    intro h
    simp only at h
    rw [h] at hh
    exact absurd rfl hh
  unfold from_int64
  by_cases hneg : n < 0
  · simp only [hneg, if_true]
    have hw : wrap_int64 (-n) = -n := by
      unfold wrap_int64
      omega
    rw [hw]
    have hne : ¬ (-n = 0) := by omega
    rw [if_neg hne]
    obtain ⟨k, hk⟩ : ∃ k : Nat, -n = (k : Int) := ⟨(-n).toNat, by omega⟩
    rw [hk]
    have hk0 : k ≠ 0 := by omega
    have hk63 : k < 2 ^ 63 := by
      have : (k : Int) < 2 ^ 63 := by omega
      exact_mod_cast this
    obtain ⟨hinv, hm⟩ := key k '-' hk0 hk63 (Or.inr rfl)
    refine ⟨hinv, ?_, by simp⟩
    rw [value_neg _ rfl]
    simp only [hm]
    omega
  · simp only [hneg, if_false]
    by_cases hz : n = 0
    · subst hz
      simp only [if_true]
      exact ⟨by decide, by decide, by decide⟩
    · rw [if_neg hz]
      obtain ⟨k, hk⟩ : ∃ k : Nat, n = (k : Int) := ⟨n.toNat, by omega⟩
      rw [hk]
      have hk0 : k ≠ 0 := by omega
      have hk63 : k < 2 ^ 63 := by
        have : (k : Int) < 2 ^ 63 := by omega
        exact_mod_cast this
      obtain ⟨hinv, hm⟩ := key k '+' hk0 hk63 (Or.inl rfl)
      refine ⟨hinv, ?_, ?_⟩
      · rw [value_pos _ rfl]
        simp only [hm]
      · simp only
        constructor
        · intro h; exact absurd h (by decide)
        · intro h; exact False.elim h

/-! ## Printing and parsing -/

theorem repr_digit (d : Nat) (h : d ≤ 9) : (Nat.repr d).toList = [Char.ofNat (48 + d)] := by
  have key : ∀ e : Fin 10, (Nat.repr e.val).toList = [Char.ofNat (48 + e.val)] := by decide
  exact key ⟨d, by omega⟩

theorem char_of_char_digit (c : Char) (h : isdigit c = true) :
    Char.ofNat (48 + char_digit c) = c := by
  have h1 := (char_digit_of_isdigit c h).1
  rw [isdigit_iff] at h
  have : 48 + char_digit c = c.toNat := by omega
  rw [this, Char.ofNat_toNat]

/-- Printing the stored digits of a run of digit characters gives the run back. -/
theorem print_char_digits (cs : List Char) (h : ∀ c ∈ cs, isdigit c = true) :
    ((cs.map char_digit).map (fun d => (Nat.repr d).toList)).flatten = cs := by
  induction cs with
  | nil => rfl
  | cons c cs ih =>
    have hc := h c (List.mem_cons_self _ _)
    rw [List.map_cons, List.map_cons, List.flatten_cons,
      ih (fun x hx => h x (List.mem_cons_of_mem _ hx)),
      repr_digit _ (char_digit_of_isdigit c hc).2, char_of_char_digit c hc]
    rfl

/-- Parsing a canonical signed decimal and printing the result gives the string back. -/
theorem from_string_to_string (c : Char) (cs : List Char) (hc : c = '+' ∨ c = '-')
    (hne : cs ≠ []) (hd : ∀ x ∈ cs, isdigit x = true)
    (hcanon : cs.head? = some '0' → cs = ['0'] ∧ c = '+') :
    ∃ r, from_string (c :: cs) = outcome.ok r ∧ to_string r = c :: cs := by
  obtain ⟨c1, rest1, hcs⟩ : ∃ c1 rest1, cs = c1 :: rest1 := by
    cases cs with
    | nil => exact absurd rfl hne
    | cons c1 rest1 => exact ⟨c1, rest1, rfl⟩
  have hc1d : isdigit c1 = true := hd c1 (by rw [hcs]; exact List.mem_cons_self _ _)
  have hcsp : c ≠ ' ' := by rcases hc with rfl | rfl <;> decide
  have hlast : (c :: cs).getLast? ≠ some ' ' := by
    intro h
    have hmem := List.mem_of_getLast?_eq_some h
    rcases List.mem_cons.mp hmem with h1 | h1
    · exact hcsp h1.symm
    · exact isdigit_not_space ' ' (hd ' ' h1) rfl
  have hfs := from_string_significant [] (c :: cs) [] (by simp) (by simp)
    (by simpa using hcsp) hlast (by simp)
  simp only [List.nil_append, List.append_nil] at hfs
  rw [hfs, hcs]
  simp only [trimmed_outcome]
  rw [if_pos hc.symm, if_neg (isdigit_not_space c1 hc1d)]
  by_cases hz : c1 = '0'
  · obtain ⟨h1, h2⟩ := hcanon (by rw [hcs, hz]; rfl)
    rw [hcs] at h1
    simp only [List.cons.injEq] at h1
    rw [h1.1, h1.2, h2]
    exact ⟨⟨'+', [0]⟩, by decide, by decide⟩
  · refine ⟨⟨c, (c1 :: rest1).map char_digit⟩, ?_, ?_⟩
    · unfold digits_outcome
      have hdw : (c1 :: rest1).dropWhile (fun c => decide (c = '0')) = c1 :: rest1 := by
        simp [List.dropWhile_cons, hz]
      rw [hdw]
      simp only
      have hall : (c1 :: rest1).all isdigit = true := by
        rw [List.all_eq_true]
        intro x hx
        exact hd x (by rw [hcs]; exact hx)
      rw [if_pos hall]
    · unfold to_string
      simp only
      rw [print_char_digits (c1 :: rest1) (by rw [← hcs]; exact hd)]

/-! ## Algebraic laws on canonical values -/

theorem operator_add_assign_comm (a b : bigint) (ha : invariants a) (hb : invariants b) :
    ∃ r, operator_add_assign a b = some r ∧ operator_add_assign b a = some r := by
  obtain ⟨r1, h1, v1, i1⟩ := operator_add_assign_spec a b ha hb
  obtain ⟨r2, h2, v2, i2⟩ := operator_add_assign_spec b a hb ha
  have : r2 = r1 := invariants_eq_of_value r2 r1 i2 i1 (by rw [v1, v2]; ring)
  exact ⟨r1, h1, by rw [h2, this]⟩

theorem operator_mul_assign_comm (a b : bigint) (ha : invariants a) (hb : invariants b) :
    ∃ r, operator_mul_assign a b = some r ∧ operator_mul_assign b a = some r := by
  obtain ⟨r1, h1, v1, i1⟩ := operator_mul_assign_spec a b ha hb
  obtain ⟨r2, h2, v2, i2⟩ := operator_mul_assign_spec b a hb ha
  have : r2 = r1 := invariants_eq_of_value r2 r1 i2 i1 (by rw [v1, v2]; ring)
  exact ⟨r1, h1, by rw [h2, this]⟩

theorem operator_add_assign_assoc (a b c : bigint) (ha : invariants a) (hb : invariants b)
    (hc : invariants c) :
    ∃ ab bc r, operator_add_assign a b = some ab ∧ operator_add_assign b c = some bc ∧
      operator_add_assign ab c = some r ∧ operator_add_assign a bc = some r := by
  obtain ⟨ab, h1, v1, i1⟩ := operator_add_assign_spec a b ha hb
  obtain ⟨bc, h2, v2, i2⟩ := operator_add_assign_spec b c hb hc
  obtain ⟨r1, h3, v3, i3⟩ := operator_add_assign_spec ab c i1 hc
  obtain ⟨r2, h4, v4, i4⟩ := operator_add_assign_spec a bc ha i2
  have : r2 = r1 := invariants_eq_of_value r2 r1 i4 i3 (by rw [v3, v4, v1, v2]; ring)
  exact ⟨ab, bc, r1, h1, h2, h3, by rw [h4, this]⟩

theorem value_default_bigint : value default_bigint = 0 := by decide

theorem invariants_default_bigint : invariants default_bigint := by decide

theorem operator_add_assign_zero (a : bigint) (ha : invariants a) :
    operator_add_assign a default_bigint = some a ∧
      operator_add_assign default_bigint a = some a := by
  obtain ⟨r1, h1, v1, i1⟩ := operator_add_assign_spec a default_bigint ha
    invariants_default_bigint
  obtain ⟨r2, h2, v2, i2⟩ := operator_add_assign_spec default_bigint a
    invariants_default_bigint ha
  rw [value_default_bigint] at v1 v2
  have e1 : r1 = a := invariants_eq_of_value r1 a i1 ha (by rw [v1]; ring)
  have e2 : r2 = a := invariants_eq_of_value r2 a i2 ha (by rw [v2]; ring)
  exact ⟨by rw [h1, e1], by rw [h2, e2]⟩

theorem operator_mul_assign_one (a : bigint) (ha : invariants a) :
    operator_mul_assign a (from_int64 1) = some a ∧
      operator_mul_assign (from_int64 1) a = some a := by
  have hone : invariants (from_int64 1) := by decide
  have vone : value (from_int64 1) = 1 := by decide
  obtain ⟨r1, h1, v1, i1⟩ := operator_mul_assign_spec a (from_int64 1) ha hone
  obtain ⟨r2, h2, v2, i2⟩ := operator_mul_assign_spec (from_int64 1) a hone ha
  rw [vone] at v1 v2
  have e1 : r1 = a := invariants_eq_of_value r1 a i1 ha (by rw [v1]; ring)
  have e2 : r2 = a := invariants_eq_of_value r2 a i2 ha (by rw [v2]; ring)
  exact ⟨by rw [h1, e1], by rw [h2, e2]⟩

/-- Away from zero, adding the negation gives the canonical zero. -/
theorem operator_add_assign_neg_of_ne_zero (a : bigint) (ha : invariants a)
    (hnz : a ≠ default_bigint) :
    operator_add_assign a (operator_neg a) = some default_bigint := by
  have hd : a.digits ≠ [0] := by
    intro h
    apply hnz
    have hs := ha.2.2.2.2 h
    cases a with
    | mk s ds =>
      simp only at h hs
      rw [h, hs]
      rfl
  have hn := invariants_operator_neg a ha hd
  obtain ⟨r, h1, v1, i1⟩ := operator_add_assign_spec a (operator_neg a) ha hn
  rw [value_operator_neg a ha.1] at v1
  have e : r = default_bigint :=
    invariants_eq_of_value r default_bigint i1 invariants_default_bigint (by
      rw [v1, value_default_bigint]; ring)
  rw [h1, e]

/-! ## Zero, negation and the derived comparisons -/

theorem ne_default_of_digits (a : bigint) (ha : invariants a) (h : a ≠ default_bigint) :
    a.digits ≠ [0] := by
  intro hd
  apply h
  have hs := ha.2.2.2.2 hd
  cases a with
  | mk s ds =>
    simp only at hd hs
    rw [hd, hs]
    rfl

theorem first_digit_ne_zero (a : bigint) (ha : invariants a) (h : a ≠ default_bigint) :
    ∃ d0, a.digits[0]? = some d0 ∧ d0 ≠ 0 := by
  obtain ⟨d0, hd0⟩ := first_digit_of_ne_nil a.digits ha.2.1
  refine ⟨d0, hd0, ?_⟩
  intro hz
  rw [hz] at hd0
  exact h (eq_zero_of_first_digit a ha hd0)

/-- A product with the canonical zero is the canonical zero. -/
theorem operator_mul_assign_zero (a b : bigint) (ha : invariants a) (hb : invariants b)
    (hz : a = default_bigint ∨ b = default_bigint) :
    operator_mul_assign a b = some default_bigint := by
  obtain ⟨r, h1, v1, i1⟩ := operator_mul_assign_spec a b ha hb
  have hv : value r = 0 := by
    rcases hz with h | h
    · rw [v1, h, value_default_bigint]; ring
    · rw [v1, h, value_default_bigint]; ring
  have e : r = default_bigint :=
    invariants_eq_of_value r default_bigint i1 invariants_default_bigint (by
      rw [hv, value_default_bigint])
  rw [h1, e]

/-- Away from the zero fast path the accumulator has a non-zero element, so the unguarded
stripping loop stops inside it. -/
theorem mul_strip_defined (a b : bigint) (ha : invariants a) (hb : invariants b)
    (hza : a ≠ default_bigint) (hzb : b ≠ default_bigint) :
    ∃ acc ds, for_loop (mul_outer_step a.digits b.digits) 0 a.digits.length
        (List.replicate (a.digits.length + b.digits.length) 0) = some acc ∧
      strip_zeros_unguarded acc = some ds ∧ ds ≠ [] := by
  obtain ⟨d0, hd0, hdz⟩ := first_digit_ne_zero a ha hza
  obtain ⟨o0, ho0, hoz⟩ := first_digit_ne_zero b hb hzb
  have hpa := magnitude_pos_of_first_digit a.digits d0 hd0 hdz
  have hpb := magnitude_pos_of_first_digit b.digits o0 ho0 hoz
  obtain ⟨acc, hacc, _, _, hm⟩ := mul_loops_spec a.digits b.digits ha.2.2.1 hb.2.2.1
  have hpos : 0 < magnitude acc := by
    rw [hm]; exact Nat.mul_pos hpa hpb
  obtain ⟨ds, hds, _, _, hne, _⟩ := strip_zeros_unguarded_spec acc hpos
  exact ⟨acc, ds, hacc, hds, hne⟩

/-- Away from zero, subtracting a value from itself gives the canonical zero. -/
theorem operator_sub_assign_self_of_ne_zero (a : bigint) (ha : invariants a)
    (hnz : a ≠ default_bigint) : operator_sub_assign a a = some default_bigint := by
  obtain ⟨d0, hd0, hdz⟩ := first_digit_ne_zero a ha hnz
  unfold operator_sub_assign
  simp only [hd0, Option.bind_eq_bind, Option.some_bind, if_neg hdz]
  have he : operator_eq a a = true := (operator_eq_iff a a).mpr rfl
  rw [if_pos he]
  rfl

/-- The unary minus keeps the digits and exchanges the two sign characters. -/
theorem operator_neg_sign_digits (a : bigint) (hs : a.sign = '+' ∨ a.sign = '-') :
    (operator_neg a).digits = a.digits ∧ (operator_neg a).sign ≠ a.sign ∧
      ((operator_neg a).sign = '+' ∨ (operator_neg a).sign = '-') := by
  unfold operator_neg
  rcases hs with h | h
  · rw [if_pos h]
    refine ⟨rfl, ?_, Or.inr rfl⟩
    rw [h]
    show '-' ≠ '+'
    decide
  · have hn : ¬ a.sign = '+' := by rw [h]; decide
    rw [if_neg hn]
    refine ⟨rfl, ?_, Or.inl rfl⟩
    rw [h]
    show '+' ≠ '-'
    decide

/-- Away from zero, multiplying by negative one on either side is the unary minus. -/
theorem operator_mul_assign_neg_one (a : bigint) (ha : invariants a)
    (hnz : a ≠ default_bigint) :
    operator_mul_assign a (from_int64 (-1)) = some (operator_neg a) ∧
      operator_mul_assign (from_int64 (-1)) a = some (operator_neg a) := by
  have hm1 : invariants (from_int64 (-1)) := by decide
  have vm1 : value (from_int64 (-1)) = -1 := by decide
  have hn := invariants_operator_neg a ha (ne_default_of_digits a ha hnz)
  have vn := value_operator_neg a ha.1
  obtain ⟨r1, h1, v1, i1⟩ := operator_mul_assign_spec a (from_int64 (-1)) ha hm1
  obtain ⟨r2, h2, v2, i2⟩ := operator_mul_assign_spec (from_int64 (-1)) a hm1 ha
  rw [vm1] at v1 v2
  have e1 : r1 = operator_neg a :=
    invariants_eq_of_value r1 _ i1 hn (by rw [v1, vn]; ring)
  have e2 : r2 = operator_neg a :=
    invariants_eq_of_value r2 _ i2 hn (by rw [v2, vn]; ring)
  exact ⟨by rw [h1, e1], by rw [h2, e2]⟩

theorem operator_ge_iff_value (a b : bigint) (ha : invariants a) (hb : invariants b) :
    operator_ge a b = true ↔ value b ≤ value a := by
  unfold operator_ge
  rw [Bool.not_eq_true', ← Bool.not_eq_true, operator_lt_iff_value a b ha hb]
  omega

theorem operator_gt_iff_value (a b : bigint) (ha : invariants a) (hb : invariants b) :
    operator_gt a b = true ↔ value b < value a := by
  unfold operator_gt
  rw [Bool.not_eq_true', ← Bool.not_eq_true, operator_le_iff_value a b ha hb]
  omega

theorem bool_eq_of_iff (x y : Bool) (h : x = true ↔ y = true) : x = y := by
  cases x <;> cases y <;> simp at h ⊢

theorem operator_ge_eq_le_swap (a b : bigint) (ha : invariants a) (hb : invariants b) :
    operator_ge a b = operator_le b a :=
  bool_eq_of_iff _ _ (by
    rw [operator_ge_iff_value a b ha hb, operator_le_iff_value b a hb ha])

theorem operator_gt_eq_lt_swap (a b : bigint) (ha : invariants a) (hb : invariants b) :
    operator_gt a b = operator_lt b a :=
  bool_eq_of_iff _ _ (by
    rw [operator_gt_iff_value a b ha hb, operator_lt_iff_value b a hb ha])

/-! ## The trimming scans -/

/-- Both trimming scans on a string with significant characters: they stop at the first and
at the last character that is not a space. -/
theorem trim_scans_spec (a b : Nat) (m : List Char) (x : Char) (hx : x ≠ ' ')
    (hhead : (m ++ [x]).head? ≠ some ' ') :
    skip_spaces_up (List.replicate a ' ' ++ (m ++ [x]) ++ List.replicate b ' ')
        ((List.replicate a ' ' ++ (m ++ [x]) ++ List.replicate b ' ').length + 1) 0 = some a ∧
      skip_spaces_down (List.replicate a ' ' ++ (m ++ [x]) ++ List.replicate b ' ')
        ((List.replicate a ' ' ++ (m ++ [x]) ++ List.replicate b ' ').length - 1)
        = some (a + m.length) := by
  obtain ⟨c, rest, hmid⟩ : ∃ c rest, m ++ [x] = c :: rest := by
    cases m with
    | nil => exact ⟨x, [], rfl⟩
    | cons y ys => exact ⟨y, ys ++ [x], rfl⟩
  have hc : c ≠ ' ' := by
    intro h; apply hhead; rw [hmid, h]; rfl
  set s := List.replicate a ' ' ++ (m ++ [x]) ++ List.replicate b ' ' with hs
  have hlen : s.length = a + m.length + 1 + b := by
    rw [hs]; simp; omega
  constructor
  · have := skip_spaces_up_spec a ((m ++ [x]) ++ List.replicate b ' ')
      (by rw [hmid]; simpa using hc) 0 (s.length + 1) (by omega) (by omega)
    rw [← List.append_assoc] at this
    exact this
  · have := skip_spaces_down_spec (List.replicate a ' ' ++ m) x hx b b (le_refl _)
    simp only [List.length_append, List.length_replicate] at this
    have e : s.length - 1 = a + m.length + b := by omega
    rw [e, ← this, hs]
    simp

/-- Both trimming scans on a non-empty string of spaces: the first stops at the terminating
null, the second decrements its index below zero. -/
theorem trim_scans_blank (b : Nat) :
    skip_spaces_up (List.replicate (b + 1) ' ') ((List.replicate (b + 1) ' ').length + 1) 0
        = some (b + 1) ∧
      skip_spaces_down (List.replicate (b + 1) ' ') ((List.replicate (b + 1) ' ').length - 1)
        = none := by
  constructor
  · have := skip_spaces_up_spec (b + 1) [] (by simp) 0
      ((List.replicate (b + 1) ' ').length + 1) (by omega) (by simp)
    simpa using this
  · have := skip_spaces_down_blank b b (le_refl _)
    simpa using this

theorem digits_outcome_ne_undefined (signed : Bool) (sign : Char) (body : List Char) :
    digits_outcome signed sign body ≠ outcome.undefined := by
  rcases digits_outcome_cases signed sign body with ⟨h, _⟩ | ⟨h, _⟩ | ⟨_, _, _, _, _, _, h⟩ <;>
    rw [h] <;> intro hh <;> cases hh

theorem trimmed_outcome_ne_undefined (mid : List Char) (hne : mid ≠ []) :
    trimmed_outcome mid ≠ outcome.undefined := by
  cases mid with
  | nil => exact absurd rfl hne
  | cons c rest =>
    simp only [trimmed_outcome]
    split_ifs with h1 h2
    · cases rest with
      | nil => intro h; cases h
      | cons c1 rest1 =>
        simp only
        split_ifs
        · intro h; cases h
        · exact digits_outcome_ne_undefined _ _ _
    · exact digits_outcome_ne_undefined _ _ _
    · intro h; cases h

/-- The constructor on a non-empty string of spaces, and on a string with significant
characters. -/
theorem from_string_index_safety (s : List Char) (hne : s ≠ []) :
    ((∀ c ∈ s, c = ' ') →
        from_string s ≠ outcome.empty_string ∧
        skip_spaces_up s (s.length + 1) 0 = some s.length ∧
        skip_spaces_down s (s.length - 1) = none ∧ from_string s = outcome.undefined) ∧
      ((∃ c ∈ s, c ≠ ' ') →
        ∃ i l, skip_spaces_up s (s.length + 1) 0 = some i ∧
          skip_spaces_down s (s.length - 1) = some l ∧ i ≤ l ∧ l ≤ s.length - 1 ∧
          from_string s ≠ outcome.undefined) := by
  constructor
  · intro hall
    have hrep : s = List.replicate s.length ' ' := by
      apply eq_replicate_of_all_space
      rintro ⟨c, hc, hcs⟩
      exact hcs (hall c hc)
    obtain ⟨n, hn⟩ : ∃ n, s.length = n + 1 := by
      have := List.length_pos.mpr hne
      exact ⟨s.length - 1, by omega⟩
    have h1 := trim_scans_blank n
    have h2 := from_string_blank n
    rw [hn] at hrep
    rw [← hrep] at h1 h2
    rw [hn] at h1
    refine ⟨?_, ?_, ?_, h2⟩
    · rw [h2]; intro h; cases h
    · rw [hn]; exact h1.1
    · rw [hn]; exact h1.2
  · intro hex
    obtain ⟨a, m, x, b, hs, hx, hh⟩ := exists_trim s hex
    have h1 := trim_scans_spec a b m x hx hh
    have h2 := from_string_trimmed a b m x hx hh
    rw [← hs] at h1 h2
    refine ⟨a, a + m.length, h1.1, h1.2, by omega, ?_, ?_⟩
    · have : s.length = a + m.length + 1 + b := by
        rw [hs]; simp; omega
      omega
    · rw [h2]
      exact trimmed_outcome_ne_undefined _ (by simp)

/-! ## Parsing a printed value -/

theorem digit_char_spec (d : Nat) (h : d ≤ 9) :
    isdigit (Char.ofNat (48 + d)) = true ∧ char_digit (Char.ofNat (48 + d)) = d ∧
      (Char.ofNat (48 + d) = '0' → d = 0) := by
  have key : ∀ e : Fin 10, isdigit (Char.ofNat (48 + e.val)) = true ∧
      char_digit (Char.ofNat (48 + e.val)) = e.val ∧
      (Char.ofNat (48 + e.val) = '0' → e.val = 0) := by decide
  exact key ⟨d, by omega⟩

/-- The printed form of a value with digits in `[0,9]`: the sign, then one character per
digit. -/
theorem to_string_digits (a : bigint) (h : ∀ d ∈ a.digits, d ≤ 9) :
    to_string a = a.sign :: a.digits.map (fun d => Char.ofNat (48 + d)) := by
  unfold to_string
  congr 1
  generalize a.digits = ds at h
  induction ds with
  | nil => rfl
  | cons d ds ih =>
    rw [List.map_cons, List.flatten_cons, List.map_cons,
      ih (fun x hx => h x (List.mem_cons_of_mem _ hx)),
      repr_digit d (h d (List.mem_cons_self _ _))]
    rfl

/-- The constructor on a sign character and a digit run that does not start with `0`. -/
theorem from_string_sign_digits (c : Char) (cs : List Char) (hc : c = '+' ∨ c = '-')
    (hne : cs ≠ []) (hd : ∀ x ∈ cs, isdigit x = true) (hz : cs.head? ≠ some '0') :
    from_string (c :: cs) = outcome.ok ⟨c, cs.map char_digit⟩ := by
  obtain ⟨c1, rest1, hcs⟩ : ∃ c1 rest1, cs = c1 :: rest1 := by
    cases cs with
    | nil => exact absurd rfl hne
    | cons c1 rest1 => exact ⟨c1, rest1, rfl⟩
  have hc1d : isdigit c1 = true := hd c1 (by rw [hcs]; exact List.mem_cons_self _ _)
  have hc1z : c1 ≠ '0' := by
    intro h; apply hz; rw [hcs, h]; rfl
  have hcsp : c ≠ ' ' := by rcases hc with rfl | rfl <;> decide
  have hlast : (c :: cs).getLast? ≠ some ' ' := by
    intro h
    have hmem := List.mem_of_getLast?_eq_some h
    rcases List.mem_cons.mp hmem with h1 | h1
    · exact hcsp h1.symm
    · exact isdigit_not_space ' ' (hd ' ' h1) rfl
  have hfs := from_string_significant [] (c :: cs) [] (by simp) (by simp)
    (by simpa using hcsp) hlast (by simp)
  simp only [List.nil_append, List.append_nil] at hfs
  rw [hfs, hcs]
  simp only [trimmed_outcome]
  rw [if_pos hc.symm, if_neg (isdigit_not_space c1 hc1d)]
  unfold digits_outcome
  have hdw : (c1 :: rest1).dropWhile (fun c => decide (c = '0')) = c1 :: rest1 := by
    simp [List.dropWhile_cons, hc1z]
  rw [hdw]
  simp only
  have hall : (c1 :: rest1).all isdigit = true := by
    rw [List.all_eq_true]
    intro x hx
    exact hd x (by rw [hcs]; exact hx)
  rw [if_pos hall]

/-- Parsing the printed form of a canonical value gives the value back. -/
theorem from_string_to_string_inverse (a : bigint) (ha : invariants a) :
    from_string (to_string a) = outcome.ok a := by
  obtain ⟨hs, hne, hd, h0, hz⟩ := ha
  rw [to_string_digits a hd]
  by_cases hzero : a.digits = [0]
  · have hsign := hz hzero
    cases a with
    | mk s ds =>
      simp only at hzero hsign
      rw [hzero, hsign]
      decide
  · obtain ⟨d, rest, hds⟩ : ∃ d rest, a.digits = d :: rest := by
      cases hdd : a.digits with
      | nil => exact absurd hdd hne
      | cons d rest => exact ⟨d, rest, rfl⟩
    have hd0 : d ≠ 0 := by
      intro h
      cases rest with
      | nil => exact hzero (by rw [hds, h])
      | cons e es =>
        exact h0 (by rw [hds]; simp) (by rw [hds, h]; rfl)
    have hdle : d ≤ 9 := hd d (by rw [hds]; exact List.mem_cons_self _ _)
    have h1 := from_string_sign_digits a.sign (a.digits.map (fun d => Char.ofNat (48 + d))) hs
      (by rw [hds]; simp)
      (by
        intro x hx
        obtain ⟨e, he, rfl⟩ := List.mem_map.mp hx
        exact (digit_char_spec e (hd e he)).1)
      (by
        rw [hds]
        simp only [List.map_cons, List.head?_cons]
        intro h
        exact hd0 ((digit_char_spec d hdle).2.2 (Option.some.inj h)))
    rw [h1]
    have hmap : (a.digits.map (fun d => Char.ofNat (48 + d))).map char_digit = a.digits := by
      rw [List.map_map]
      have hds2 := hd
      generalize a.digits = ds at hds2
      induction ds with
      | nil => rfl
      | cons e es ih =>
        rw [List.map_cons, ih (fun x hx => hds2 x (List.mem_cons_of_mem _ hx))]
        simp only [Function.comp]
        rw [(digit_char_spec e (hds2 e (List.mem_cons_self _ _))).2.1]
    rw [hmap]

/-! ## Ranges of the intermediate values -/

/-- An invariant that every round keeps holds at every state the loop passes through. -/
theorem for_loop_reach {σ : Type} (body : Nat → σ → Option σ) (I : Nat → σ → Prop)
    (count start : Nat) (s : σ) (h0 : I start s)
    (hstep : ∀ i t, start ≤ i → i < start + count → I i t →
      ∃ t', body i t = some t' ∧ I (i + 1) t')
    (k : Nat) (hk : k ≤ count) (t : σ) (h : for_loop body start k s = some t) :
    I (start + k) t := by
  obtain ⟨t', ht', hI⟩ := for_loop_invariant body I k start s h0 (by
    intro i u hi1 hi2 hIu
    exact hstep i u hi1 (by omega) hIu)
  rw [ht'] at h
  rw [← Option.some.inj h]
  exact hI

/-- Every state of the outer loop of the multiplication: digits in `[0,9]` and zeros in the
slots not yet written. -/
theorem mul_outer_reach (a b : List Nat) (ha : ∀ d ∈ a, d ≤ 9) (hb : ∀ d ∈ b, d ≤ 9)
    (i : Nat) (hi : i ≤ a.length) (acc : List Nat)
    (h : for_loop (mul_outer_step a b) 0 i (List.replicate (a.length + b.length) 0)
      = some acc) :
    acc.length = a.length + b.length ∧ (∀ d ∈ acc, d ≤ 9) ∧
      (∀ k, k < a.length - i → acc[k]? = some 0) ∧
      magnitude acc = magnitude (a.drop (a.length - i)) * magnitude b := by
  have := for_loop_reach (mul_outer_step a b)
    (fun i t => t.length = a.length + b.length ∧ (∀ d ∈ t, d ≤ 9) ∧
      (∀ k, k < a.length - i → t[k]? = some 0) ∧
      magnitude t = magnitude (a.drop (a.length - i)) * magnitude b)
    a.length 0 (List.replicate (a.length + b.length) 0)
    ⟨by simp, by
        intro d hd
        rw [(List.mem_replicate.mp hd).2]; omega,
      fun k hk => replicate_zero_getElem? _ k (by omega),
      by simp [magnitude_nil, magnitude_replicate_zero]⟩
    (by
      rintro i xs _ hi ⟨hl, hd, hz, hm⟩
      exact mul_outer_step_spec a b xs i ha hb hd hl (by omega) hz hm)
    i hi acc h
  simpa using this

/-- Every state of the inner loop of the multiplication: digits in `[0,9]`, carry at most 9,
zeros in the slots not yet written. -/
theorem mul_inner_reach (a b : List Nat) (ha : ∀ d ∈ a, d ≤ 9) (hb : ∀ d ∈ b, d ≤ 9)
    (i j : Nat) (hi : i < a.length) (hj : j ≤ b.length) (acc0 acc : List Nat) (c : Nat)
    (h1 : for_loop (mul_outer_step a b) 0 i (List.replicate (a.length + b.length) 0)
      = some acc0)
    (h2 : for_loop (mul_inner_step a b i) 0 j (acc0, 0) = some (acc, c)) :
    acc.length = a.length + b.length ∧ (∀ d ∈ acc, d ≤ 9) ∧ c ≤ 9 ∧
      (∀ k, k < a.length - i → acc[k]? = some 0) := by
  obtain ⟨hl0, hd0, hz0, _⟩ := mul_outer_reach a b ha hb i (by omega) acc0 h1
  have := for_loop_reach (mul_inner_step a b i)
    (fun j t => t.1.length = a.length + b.length ∧ (∀ d ∈ t.1, d ≤ 9) ∧ t.2 ≤ 9 ∧
      (∀ k, k < a.length - i → t.1[k]? = some 0) ∧
      magnitude t.1 + t.2 * 10 ^ (i + j)
        = magnitude acc0 + a[a.length - 1 - i] * magnitude (b.drop (b.length - j)) * 10 ^ i)
    b.length 0 (acc0, 0)
    ⟨hl0, hd0, by omega, hz0, by simp [magnitude_nil]⟩
    (by
      rintro j ⟨xs, c⟩ _ hj ⟨hl, hd, hc, hz, hm⟩
      simp only at hl hd hc hz hm
      exact mul_inner_step_spec a b xs c i j (magnitude acc0) ha hb hd hc hl hi (by omega)
        hz hm)
    j hj (acc, c) h2
  simp only [Nat.zero_add] at this
  exact ⟨this.1, this.2.1, this.2.2.1, this.2.2.2.1⟩

theorem add_both_reach (a b : List Nat) (ha : ∀ d ∈ a, d ≤ 9) (hb : ∀ d ∈ b, d ≤ 9)
    (i : Nat) (hi : i ≤ min a.length b.length) (ds : List Nat) (c : Nat)
    (h : for_loop (add_both_step b) 0 i (a, 0) = some (ds, c)) :
    ds.length = a.length ∧ (∀ d ∈ ds, d ≤ 9) ∧ c ≤ 1 ∧
      magnitude ds + c * 10 ^ i = magnitude a + magnitude (b.drop (b.length - i)) := by
  have := for_loop_reach (add_both_step b)
    (fun i t => t.1.length = a.length ∧ (∀ d ∈ t.1, d ≤ 9) ∧ t.2 ≤ 1 ∧
      magnitude t.1 + t.2 * 10 ^ i = magnitude a + magnitude (b.drop (b.length - i)))
    (min a.length b.length) 0 (a, 0)
    ⟨rfl, ha, by omega, by simp [magnitude_nil]⟩
    (by
      rintro i ⟨xs, c⟩ _ hi ⟨hl, hd, hc, hm⟩
      simp only at hl hd hc hm
      have hi1 : i < a.length := by
        have := Nat.min_le_left a.length b.length; omega
      have hi2 : i < b.length := by
        have := Nat.min_le_right a.length b.length; omega
      obtain ⟨t, ht, h2, h3, h4, h5⟩ := add_both_step_spec b xs c i (magnitude a) hd hb hc
        (by omega) hi2 hm
      exact ⟨t, ht, by omega, h3, h4, h5⟩)
    i hi (ds, c) h
  simpa using this

theorem add_this_reach (a b : List Nat) (ha : ∀ d ∈ a, d ≤ 9) (hb : ∀ d ∈ b, d ≤ 9)
    (hlt : b.length < a.length) (k : Nat) (hk : k ≤ a.length - b.length)
    (st1 : List Nat × Nat) (ds : List Nat) (c : Nat)
    (h1 : for_loop (add_both_step b) 0 (min a.length b.length) (a, 0) = some st1)
    (h2 : for_loop add_this_step (min a.length b.length) k st1 = some (ds, c)) :
    ds.length = a.length ∧ (∀ d ∈ ds, d ≤ 9) ∧ c ≤ 1 := by
  obtain ⟨xs1, c1⟩ := st1
  obtain ⟨hl1, hd1, hc1, _⟩ := add_both_reach a b ha hb _ (le_refl _) xs1 c1 h1
  have hmin : min a.length b.length = b.length := Nat.min_eq_right (le_of_lt hlt)
  have := for_loop_reach add_this_step
    (fun i t => t.1.length = a.length ∧ (∀ d ∈ t.1, d ≤ 9) ∧ t.2 ≤ 1 ∧
      magnitude t.1 + t.2 * 10 ^ i = magnitude t.1 + t.2 * 10 ^ i ∧ i ≤ a.length)
    (a.length - b.length) (min a.length b.length) (xs1, c1)
    ⟨hl1, hd1, hc1, rfl, by omega⟩
    (by
      rintro i ⟨xs, c⟩ hi1 hi2 ⟨hl, hd, hc, _, _⟩
      simp only at hl hd hc
      obtain ⟨t, ht, h2, h3, h4, _⟩ := add_this_step_spec xs c i _ hd hc (by omega) rfl
      exact ⟨t, ht, by omega, h3, h4, rfl, by omega⟩)
    k hk (ds, c) h2
  exact ⟨this.1, this.2.1, this.2.2.1⟩

theorem add_other_reach (a b : List Nat) (ha : ∀ d ∈ a, d ≤ 9) (hb : ∀ d ∈ b, d ≤ 9)
    (hlt : a.length < b.length) (k : Nat) (hk : k ≤ b.length - a.length)
    (st1 : List Nat × Nat) (ds : List Nat) (c : Nat)
    (h1 : for_loop (add_both_step b) 0 (min a.length b.length) (a, 0) = some st1)
    (h2 : for_loop (add_other_step b) (min a.length b.length) k st1 = some (ds, c)) :
    (∀ d ∈ ds, d ≤ 9) ∧ c ≤ 1 := by
  obtain ⟨xs1, c1⟩ := st1
  obtain ⟨hl1, hd1, hc1, hm1⟩ := add_both_reach a b ha hb _ (le_refl _) xs1 c1 h1
  have hmin : min a.length b.length = a.length := Nat.min_eq_left (le_of_lt hlt)
  rw [hmin] at hm1 h2
  have := for_loop_reach (add_other_step b)
    (fun i t => t.1.length = i ∧ (∀ d ∈ t.1, d ≤ 9) ∧ t.2 ≤ 1 ∧
      magnitude t.1 + t.2 * 10 ^ i = magnitude a + magnitude (b.drop (b.length - i)))
    (b.length - a.length) a.length (xs1, c1)
    ⟨hl1, hd1, hc1, hm1⟩
    (by
      rintro i ⟨xs, c⟩ _ hi ⟨hl, hd, hc, hm⟩
      simp only at hl hd hc hm
      exact add_other_step_spec b xs c i _ hd hb hc hl (by omega) hm)
    k hk (ds, c) h2
  exact ⟨this.2.1, this.2.2.1⟩

/-- No narrowing to `uint8_t` changes a value in the accumulation loops of `operator*=` and in
the same-sign loops of `operator+=`, at any state these loops pass through. -/
theorem digit_arithmetic_in_range (a b : List Nat) (ha : ∀ d ∈ a, d ≤ 9)
    (hb : ∀ d ∈ b, d ≤ 9) :
    (∀ i j acc0 acc c, i < a.length → j ≤ b.length →
        for_loop (mul_outer_step a b) 0 i (List.replicate (a.length + b.length) 0)
          = some acc0 →
        for_loop (mul_inner_step a b i) 0 j (acc0, 0) = some (acc, c) →
        c ≤ 9 ∧
        (j < b.length →
          ∃ d o p, a[a.length - 1 - i]? = some d ∧ b[b.length - 1 - j]? = some o ∧
            acc[acc.length - 1 - (i + j)]? = some p ∧
            d * o + c ≤ 90 ∧ (d * o + c) % 256 = d * o + c ∧
            p + (d * o + c) % 10 ≤ 18 ∧
            (p + (d * o + c) % 10) % 256 = p + (d * o + c) % 10 ∧
            (d * o + c) / 10 + (p + (d * o + c) % 10) / 10 ≤ 9) ∧
        (j = b.length → acc[a.length - 1 - i]? = some 0)) ∧
      (∀ i ds c, i ≤ min a.length b.length →
        for_loop (add_both_step b) 0 i (a, 0) = some (ds, c) →
        c ≤ 1 ∧
        (i < min a.length b.length →
          ∃ d o, ds[ds.length - 1 - i]? = some d ∧ b[b.length - 1 - i]? = some o ∧
            d + o + c ≤ 19 ∧ (d + o + c) % 256 = d + o + c)) ∧
      (∀ k st1 ds c, b.length < a.length → k ≤ a.length - b.length →
        for_loop (add_both_step b) 0 (min a.length b.length) (a, 0) = some st1 →
        for_loop add_this_step (min a.length b.length) k st1 = some (ds, c) →
        c ≤ 1 ∧
        (k < a.length - b.length →
          ∃ d, ds[ds.length - 1 - (min a.length b.length + k)]? = some d ∧
            d + c ≤ 19 ∧ (d + c) % 256 = d + c)) ∧
      (∀ k st1 ds c, a.length < b.length → k ≤ b.length - a.length →
        for_loop (add_both_step b) 0 (min a.length b.length) (a, 0) = some st1 →
        for_loop (add_other_step b) (min a.length b.length) k st1 = some (ds, c) →
        c ≤ 1 ∧
        (k < b.length - a.length →
          ∃ o, b[b.length - 1 - (min a.length b.length + k)]? = some o ∧
            o + c ≤ 19 ∧ (o + c) % 256 = o + c)) := by
  refine ⟨?_, ?_, ?_, ?_⟩
  · intro i j acc0 acc c hi hj h1 h2
    obtain ⟨hl, hd, hc, hz⟩ := mul_inner_reach a b ha hb i j hi hj acc0 acc c h1 h2
    refine ⟨hc, ?_, ?_⟩
    · intro hjlt
      have hk : a.length - 1 - i < a.length := by omega
      have hko : b.length - 1 - j < b.length := by omega
      have hkp : acc.length - 1 - (i + j) < acc.length := by omega
      have hda := getElem_le_of_all a ha _ hk
      have hob := getElem_le_of_all b hb _ hko
      have hpa := getElem_le_of_all acc hd _ hkp
      refine ⟨a[a.length - 1 - i], b[b.length - 1 - j], acc[acc.length - 1 - (i + j)],
        List.getElem?_eq_getElem hk, List.getElem?_eq_getElem hko,
        List.getElem?_eq_getElem hkp, ?_⟩
      generalize a[a.length - 1 - i] = d at *
      generalize b[b.length - 1 - j] = o at *
      generalize acc[acc.length - 1 - (i + j)] = p at *
      have hdo : d * o ≤ 81 := by
        have := Nat.mul_le_mul hda hob
        omega
      generalize d * o = q at *
      omega
    · intro hjm
      exact hz (a.length - 1 - i) (by omega)
  · intro i ds c hi h
    obtain ⟨hl, hd, hc, _⟩ := add_both_reach a b ha hb i hi ds c h
    refine ⟨hc, ?_⟩
    intro hilt
    have hi1 : i < a.length := by
      have := Nat.min_le_left a.length b.length; omega
    have hi2 : i < b.length := by
      have := Nat.min_le_right a.length b.length; omega
    have hk : ds.length - 1 - i < ds.length := by omega
    have hko : b.length - 1 - i < b.length := by omega
    have hdd := getElem_le_of_all ds hd _ hk
    have hob := getElem_le_of_all b hb _ hko
    refine ⟨ds[ds.length - 1 - i], b[b.length - 1 - i], List.getElem?_eq_getElem hk,
      List.getElem?_eq_getElem hko, ?_⟩
    omega
  · intro k st1 ds c hlt hk h1 h2
    obtain ⟨hl, hd, hc⟩ := add_this_reach a b ha hb hlt k hk st1 ds c h1 h2
    refine ⟨hc, ?_⟩
    intro hklt
    have hmin : min a.length b.length = b.length := Nat.min_eq_right (le_of_lt hlt)
    have hkk : ds.length - 1 - (min a.length b.length + k) < ds.length := by omega
    have hdd := getElem_le_of_all ds hd _ hkk
    refine ⟨ds[ds.length - 1 - (min a.length b.length + k)], List.getElem?_eq_getElem hkk, ?_⟩
    omega
  · intro k st1 ds c hlt hk h1 h2
    obtain ⟨_, hc⟩ := add_other_reach a b ha hb hlt k hk st1 ds c h1 h2
    refine ⟨hc, ?_⟩
    intro hklt
    have hmin : min a.length b.length = a.length := Nat.min_eq_left (le_of_lt hlt)
    have hkk : b.length - 1 - (min a.length b.length + k) < b.length := by omega
    have hob := getElem_le_of_all b hb _ hkk
    refine ⟨b[b.length - 1 - (min a.length b.length + k)], List.getElem?_eq_getElem hkk, ?_⟩
    omega

/-! ## The borrow loops of the opposite-sign branch -/

/-- Larger `this`: the loop over the digits of `other` and the loop `while (b != 0)` stay
inside the vector and end without a borrow. -/
theorem opposite_sign_larger_this (sign : Char) (ds : List Nat) (other : bigint)
    (hds : ∀ d ∈ ds, d ≤ 9) (hod : ∀ d ∈ other.digits, d ≤ 9)
    (hdne : ds ≠ []) (hone : other.digits ≠ [])
    (hd0 : 1 < ds.length → ds.head? ≠ some 0)
    (ho0 : 1 < other.digits.length → other.digits.head? ≠ some 0)
    (hlt : magnitude other.digits < magnitude ds) :
    ∃ st1 st2, for_loop (sub_other_step other.digits) 0 other.digits.length (ds, 0) = some st1 ∧
      borrow_while (ds.length - other.digits.length) other.digits.length st1 = some st2 ∧
      st2.2 = 0 ∧ add_opposite_sign sign ds other = some (sign, st2.1) := by
  have hcmp := magnitude_lt_iff other.digits ds hone hdne hod hds ho0 hd0
  have hc : ds.length > other.digits.length ∨
      (ds.length = other.digits.length ∧ vector_lt other.digits ds = true) := by
    rcases hcmp.mp hlt with h | ⟨h1, h2⟩
    · exact Or.inl h
    · exact Or.inr ⟨h1.symm, h2⟩
  have hle : other.digits.length ≤ ds.length := by
    rcases hc with h | ⟨h1, _⟩ <;> omega
  obtain ⟨t1, h1, hl1, hd1, hc1, hm1⟩ := for_loop_invariant (sub_other_step other.digits)
    (fun i t => t.1.length = ds.length ∧ (∀ d ∈ t.1, d ≤ 9) ∧ t.2 ≤ 1 ∧
      magnitude t.1 + magnitude (other.digits.drop (other.digits.length - i))
        = magnitude ds + t.2 * 10 ^ i)
    other.digits.length 0 (ds, 0)
    ⟨rfl, hds, by omega, by simp [magnitude_nil]⟩
    (by
      rintro i ⟨xs, c⟩ _ hi ⟨hl, hd, hc, hm⟩
      simp only at hl hd hc hm
      obtain ⟨t, ht, h2, h3, h4, h5⟩ := sub_other_step_spec other.digits xs c i (magnitude ds)
        hd hod hc (by omega) (by omega) hm
      exact ⟨t, ht, by omega, h3, h4, h5⟩)
  simp only [Nat.zero_add, Nat.sub_self, List.drop_zero] at hl1 hd1 hc1 hm1
  obtain ⟨xs1, b1⟩ := t1
  simp only at hl1 hd1 hc1 hm1
  obtain ⟨t2, h2, _, _, hb2, _⟩ := borrow_while_spec (magnitude other.digits)
    (magnitude ds) hlt (ds.length - other.digits.length) other.digits.length xs1 b1
    (by omega) (by omega) hd1 hc1 hm1
  refine ⟨(xs1, b1), t2, h1, h2, hb2, ?_⟩
  unfold add_opposite_sign
  rw [if_pos hc]
  simp only [h1, h2, Option.bind_eq_bind, Option.some_bind, Option.pure_def]

/-- Smaller `this`: both loops stay inside the vectors and the borrow left after the last
loop is 0. -/
theorem opposite_sign_smaller_this (sign : Char) (ds : List Nat) (other : bigint)
    (hds : ∀ d ∈ ds, d ≤ 9) (hod : ∀ d ∈ other.digits, d ≤ 9)
    (hdne : ds ≠ []) (hone : other.digits ≠ [])
    (hd0 : 1 < ds.length → ds.head? ≠ some 0)
    (ho0 : 1 < other.digits.length → other.digits.head? ≠ some 0)
    (hlt : magnitude ds < magnitude other.digits) :
    ∃ st1 st2, for_loop (rsub_this_step other.digits) 0 ds.length (ds, 0) = some st1 ∧
      for_loop (rsub_other_step other.digits) ds.length (other.digits.length - ds.length) st1
        = some st2 ∧
      st2.2 = 0 ∧ add_opposite_sign sign ds other = some (other.sign, st2.1) := by
  have hcmp := magnitude_lt_iff other.digits ds hone hdne hod hds ho0 hd0
  have hc : ¬ (ds.length > other.digits.length ∨
      (ds.length = other.digits.length ∧ vector_lt other.digits ds = true)) := by
    intro h
    have : magnitude other.digits < magnitude ds := by
      apply hcmp.mpr
      rcases h with h | ⟨h1, h2⟩
      · exact Or.inl h
      · exact Or.inr ⟨h1.symm, h2⟩
    omega
  have hle : ds.length ≤ other.digits.length := by
    by_contra h
    exact hc (Or.inl (by omega))
  obtain ⟨t1, h1, hl1, hd1, hc1, _, hm1⟩ := for_loop_invariant
    (rsub_this_step other.digits)
    (fun i t => t.1.length = ds.length ∧ (∀ d ∈ t.1, d ≤ 9) ∧ t.2 ≤ 1 ∧
      (∀ j, j < t.1.length - i → t.1[j]? = ds[j]?) ∧
      magnitude t.1 + 2 * magnitude (ds.drop (ds.length - i))
        = magnitude ds + magnitude (other.digits.drop (other.digits.length - i))
          + t.2 * 10 ^ i)
    ds.length 0 (ds, 0)
    ⟨rfl, hds, by omega, fun _ _ => rfl, by simp [magnitude_nil]⟩
    (by
      rintro i ⟨xs, c⟩ _ hi ⟨hl, hd, hc, hs, hm⟩
      simp only at hl hd hc hs hm
      exact rsub_this_step_spec other.digits ds xs c i hd hod hc hl (by omega) (by omega)
        hs hm)
  simp only [Nat.zero_add, Nat.sub_self, List.drop_zero] at hl1 hd1 hc1 hm1
  obtain ⟨t2, h2, hl2, hd2, hc2, hm2⟩ := for_loop_invariant
    (rsub_other_step other.digits)
    (fun i t => t.1.length = i ∧ (∀ d ∈ t.1, d ≤ 9) ∧ t.2 ≤ 1 ∧
      magnitude t.1 + magnitude ds
        = magnitude (other.digits.drop (other.digits.length - i)) + t.2 * 10 ^ i)
    (other.digits.length - ds.length) ds.length t1
    ⟨hl1, hd1, hc1, by omega⟩
    (by
      rintro i ⟨xs, c⟩ _ hi ⟨hl, hd, hc, hm⟩
      simp only at hl hd hc hm
      exact rsub_other_step_spec other.digits xs c i _ hd hod hc hl (by omega) hm)
  have e : ds.length + (other.digits.length - ds.length) = other.digits.length := by omega
  rw [e] at hl2 hm2
  simp only [Nat.sub_self, List.drop_zero] at hm2
  have hb : t2.2 = 0 := by
    have := magnitude_lt_pow t2.1 hd2
    rw [hl2] at this
    rcases Nat.eq_zero_or_pos t2.2 with h | h
    · exact h
    · exfalso
      have h1 : t2.2 = 1 := by omega
      rw [h1] at hm2
      omega
  refine ⟨t1, t2, h1, h2, hb, ?_⟩
  unfold add_opposite_sign
  rw [if_neg hc]
  simp only [h1, h2, Option.bind_eq_bind, Option.some_bind, Option.pure_def]

/-- The general path of `operator+=` for operands of opposite sign. -/
theorem operator_add_assign_opposite (a b : bigint) (ha : invariants a) (hb : invariants b)
    (hsign : a.sign ≠ b.sign) (hza : a ≠ default_bigint) (hzb : b ≠ default_bigint)
    (hinv : a ≠ operator_neg b) :
    a.digits ≠ b.digits ∧
      operator_add_assign a b
        = (add_opposite_sign a.sign a.digits b).map
            (fun r => ⟨r.1, strip_leading_zeros r.2⟩) := by
  obtain ⟨d0, hd0, hdz⟩ := first_digit_ne_zero a ha hza
  obtain ⟨o0, ho0, hoz⟩ := first_digit_ne_zero b hb hzb
  have heq : ¬ operator_eq a (operator_neg b) = true := by
    rw [operator_eq_iff]; exact hinv
  constructor
  · intro h
    apply hinv
    obtain ⟨hnd, hns, hnv⟩ := operator_neg_sign_digits b hb.1
    have hs : a.sign = (operator_neg b).sign := by
      rcases ha.1 with h1 | h1 <;> rcases hb.1 with h2 | h2 <;> rcases hnv with h3 | h3
      all_goals first
        | exact absurd (h1.trans h2.symm) hsign
        | exact absurd (h3.trans h2.symm) hns
        | exact h1.trans h3.symm
    cases a with
    | mk sa da =>
      cases hn : operator_neg b with
      | mk sn dn =>
        rw [hn] at hnd hs
        simp only at hnd hs h
        rw [hs, h, hnd]
  · unfold operator_add_assign
    simp only [hd0, ho0, Option.bind_eq_bind, Option.some_bind, if_neg hdz, if_neg hoz,
      if_neg heq, if_neg hsign]
    cases add_opposite_sign a.sign a.digits b with
    | none => rfl
    | some r => rfl

/-! ## The claims -/

set_option maxRecDepth 100000 in
/-- C1: addition is exact.  For canonical `a` and `b` the free `operator+` stays within the
defined behaviour and its result denotes `value a + value b`; the cross-sign example of the
specification evaluates to the stated digits. -/
theorem C1_addition_exact (a b : bigint) (ha : invariants a) (hb : invariants b) :
    (∃ r, operator_add a b = some r ∧ value r = value a + value b) ∧
      operator_add ⟨'+', [2, 9, 3, 8, 4, 7, 5, 6, 7, 8, 3, 2, 1, 9, 0, 4, 7, 5, 6, 2, 9, 3, 4, 8]⟩
          ⟨'-', [9, 8, 3, 7, 4, 6, 5, 9, 4, 7, 6, 5, 9, 8, 1, 2, 3, 7]⟩
        = some ⟨'+', [2, 9, 3, 8, 4, 6, 5, 8, 4, 0, 8, 5, 5, 9, 5, 7, 0, 9, 6, 4, 8, 1, 1, 1]⟩ := by
  refine ⟨?_, by decide⟩
  obtain ⟨r, hr, hv, _⟩ := operator_add_assign_spec a b ha hb
  exact ⟨r, hr, hv⟩

/-- Witness for C1 at `-1000` and `1`. -/
theorem C1_addition_exact_witness :
    invariants ⟨'-', [1, 0, 0, 0]⟩ ∧ invariants ⟨'+', [1]⟩ ∧
      ((∃ r, operator_add ⟨'-', [1, 0, 0, 0]⟩ ⟨'+', [1]⟩ = some r ∧
          value r = value ⟨'-', [1, 0, 0, 0]⟩ + value ⟨'+', [1]⟩) ∧
        operator_add
            ⟨'+', [2, 9, 3, 8, 4, 7, 5, 6, 7, 8, 3, 2, 1, 9, 0, 4, 7, 5, 6, 2, 9, 3, 4, 8]⟩
            ⟨'-', [9, 8, 3, 7, 4, 6, 5, 9, 4, 7, 6, 5, 9, 8, 1, 2, 3, 7]⟩
          = some
            ⟨'+', [2, 9, 3, 8, 4, 6, 5, 8, 4, 0, 8, 5, 5, 9, 5, 7, 0, 9, 6, 4, 8, 1, 1, 1]⟩) :=
  ⟨by decide, by decide, C1_addition_exact ⟨'-', [1, 0, 0, 0]⟩ ⟨'+', [1]⟩ (by decide) (by decide)⟩

set_option maxRecDepth 100000 in
/-- C2: multiplication is exact.  For canonical `a` and `b` the free `operator*` stays within
the defined behaviour, its result denotes `value a * value b`, and the result sign is `+`
exactly when the operand signs match or the product is zero; `7 * 6 = 42` and
`999999999999 ^ 2 = 999999999998000000000001`. -/
theorem C2_multiplication_exact (a b : bigint) (ha : invariants a) (hb : invariants b) :
    (∃ r, operator_mul a b = some r ∧ value r = value a * value b ∧
        (r.sign = '+' ↔ (a.sign = b.sign ∨ value a * value b = 0))) ∧
      operator_mul ⟨'+', [7]⟩ ⟨'+', [6]⟩ = some ⟨'+', [4, 2]⟩ ∧
      operator_mul ⟨'+', [9, 9, 9, 9, 9, 9, 9, 9, 9, 9, 9, 9]⟩
          ⟨'+', [9, 9, 9, 9, 9, 9, 9, 9, 9, 9, 9, 9]⟩
        = some ⟨'+', [9, 9, 9, 9, 9, 9, 9, 9, 9, 9, 9, 8, 0, 0, 0, 0, 0, 0, 0, 0, 0, 0, 0, 1]⟩ := by
  refine ⟨?_, by decide, by decide⟩
  obtain ⟨r, hr, hv, hinv⟩ := operator_mul_assign_spec a b ha hb
  refine ⟨r, hr, hv, ?_⟩
  rw [sign_pos_iff r hinv, hv]
  have hpa := magnitude_pos_of_neg a ha
  have hpb := magnitude_pos_of_neg b hb
  rcases ha.1 with h1 | h1 <;> rcases hb.1 with h2 | h2
  · rw [value_pos a h1, value_pos b h2]
    constructor
    · intro _; exact Or.inl (h1.trans h2.symm)
    · intro _; positivity
  · rw [value_pos a h1, value_neg b h2]
    have := hpb h2
    constructor
    · intro h
      right
      have h3 : (magnitude a.digits : Int) * (magnitude b.digits : Int) ≤ 0 := by linarith
      have h4 : 0 ≤ (magnitude a.digits : Int) * (magnitude b.digits : Int) := by positivity
      have h5 : (magnitude a.digits : Int) * (magnitude b.digits : Int) = 0 := by omega
      rw [mul_neg, h5]; simp
    · rintro (h | h)
      · rw [h1, h2] at h; exact absurd h (by decide)
      · rw [h]
  · rw [value_neg a h1, value_pos b h2]
    have := hpa h1
    constructor
    · intro h
      right
      have h3 : (magnitude a.digits : Int) * (magnitude b.digits : Int) ≤ 0 := by linarith
      have h4 : 0 ≤ (magnitude a.digits : Int) * (magnitude b.digits : Int) := by positivity
      have h5 : (magnitude a.digits : Int) * (magnitude b.digits : Int) = 0 := by omega
      rw [neg_mul, h5]; simp
    · rintro (h | h)
      · rw [h1, h2] at h; exact absurd h (by decide)
      · rw [h]
  · rw [value_neg a h1, value_neg b h2]
    constructor
    · intro _; exact Or.inl (h1.trans h2.symm)
    · intro _
      rw [neg_mul_neg]; positivity

/-- Witness for C2 at `-12` and `34`. -/
theorem C2_multiplication_exact_witness :
    invariants ⟨'-', [1, 2]⟩ ∧ invariants ⟨'+', [3, 4]⟩ ∧
      ((∃ r, operator_mul ⟨'-', [1, 2]⟩ ⟨'+', [3, 4]⟩ = some r ∧
          value r = value ⟨'-', [1, 2]⟩ * value ⟨'+', [3, 4]⟩ ∧
          (r.sign = '+' ↔ ((⟨'-', [1, 2]⟩ : bigint).sign = (⟨'+', [3, 4]⟩ : bigint).sign ∨
            value ⟨'-', [1, 2]⟩ * value ⟨'+', [3, 4]⟩ = 0))) ∧
        operator_mul ⟨'+', [7]⟩ ⟨'+', [6]⟩ = some ⟨'+', [4, 2]⟩ ∧
        operator_mul ⟨'+', [9, 9, 9, 9, 9, 9, 9, 9, 9, 9, 9, 9]⟩
            ⟨'+', [9, 9, 9, 9, 9, 9, 9, 9, 9, 9, 9, 9]⟩
          = some
            ⟨'+', [9, 9, 9, 9, 9, 9, 9, 9, 9, 9, 9, 8, 0, 0, 0, 0, 0, 0, 0, 0, 0, 0, 0, 1]⟩) :=
  ⟨by decide, by decide, C2_multiplication_exact ⟨'-', [1, 2]⟩ ⟨'+', [3, 4]⟩ (by decide) (by decide)⟩

/-- C3: subtraction consistency.  For every `a` and `b` (zero operands and `a == b` included)
`a - b` and `a + (-b)` are the same computation: they give structurally equal results, same
sign and same digit sequence, or are both undefined (an operand without digits). -/
theorem C3_subtraction_consistency (a b : bigint) :
    operator_sub a b = operator_add a (operator_neg b) :=
  operator_sub_assign_eq_all a b

/-- C4: for canonical `a` and `b`, `operator<=` (the spec's compareLessEqual) is true exactly
when the integer denoted by `a` is at most the integer denoted by `b`. -/
theorem C4_operator_le_agrees_with_order (a b : bigint) (ha : invariants a)
    (hb : invariants b) : operator_le a b = true ↔ value a ≤ value b :=
  operator_le_iff_value a b ha hb

/-- Witness for C4 at `-12` and `-7`. -/
theorem C4_operator_le_agrees_with_order_witness :
    invariants ⟨'-', [1, 2]⟩ ∧ invariants ⟨'-', [7]⟩ ∧
      (operator_le ⟨'-', [1, 2]⟩ ⟨'-', [7]⟩ = true ↔
        value ⟨'-', [1, 2]⟩ ≤ value ⟨'-', [7]⟩) :=
  ⟨by decide, by decide,
    C4_operator_le_agrees_with_order ⟨'-', [1, 2]⟩ ⟨'-', [7]⟩ (by decide) (by decide)⟩

/-- C5: trichotomy.  For canonical `a` and `b` exactly one of `a < b`, `a == b`, `b < a`
holds, where `<` is `operator<` and `==` is `operator==`. -/
theorem C5_trichotomy (a b : bigint) (ha : invariants a) (hb : invariants b) :
    (operator_lt a b = true ∧ operator_eq a b = false ∧ operator_lt b a = false) ∨
      (operator_lt a b = false ∧ operator_eq a b = true ∧ operator_lt b a = false) ∨
      (operator_lt a b = false ∧ operator_eq a b = false ∧ operator_lt b a = true) := by
  have h1 := operator_lt_iff_value a b ha hb
  have h2 := operator_lt_iff_value b a hb ha
  have h3 := operator_eq_iff a b
  have nt : ∀ x : Bool, ¬ x = true → x = false := fun x h => by simpa using h
  rcases lt_trichotomy (value a) (value b) with h | h | h
  · left
    refine ⟨h1.mpr h, nt _ ?_, nt _ ?_⟩
    · intro he
      rw [h3.mp he] at h
      exact lt_irrefl _ h
    · intro hl
      exact lt_asymm h (h2.mp hl)
  · right; left
    refine ⟨nt _ ?_, h3.mpr (invariants_eq_of_value a b ha hb h), nt _ ?_⟩
    · intro hl
      have := h1.mp hl
      rw [h] at this
      exact lt_irrefl _ this
    · intro hl
      have := h2.mp hl
      rw [h] at this
      exact lt_irrefl _ this
  · right; right
    refine ⟨nt _ ?_, nt _ ?_, h2.mpr h⟩
    · intro hl
      exact lt_asymm h (h1.mp hl)
    · intro he
      rw [h3.mp he] at h
      exact lt_irrefl _ h

/-- Witness for C5 at `-3` and `10`. -/
theorem C5_trichotomy_witness :
    invariants ⟨'-', [3]⟩ ∧ invariants ⟨'+', [1, 0]⟩ ∧
      ((operator_lt ⟨'-', [3]⟩ ⟨'+', [1, 0]⟩ = true ∧ operator_eq ⟨'-', [3]⟩ ⟨'+', [1, 0]⟩ = false ∧
          operator_lt ⟨'+', [1, 0]⟩ ⟨'-', [3]⟩ = false) ∨
        (operator_lt ⟨'-', [3]⟩ ⟨'+', [1, 0]⟩ = false ∧
          operator_eq ⟨'-', [3]⟩ ⟨'+', [1, 0]⟩ = true ∧
          operator_lt ⟨'+', [1, 0]⟩ ⟨'-', [3]⟩ = false) ∨
        (operator_lt ⟨'-', [3]⟩ ⟨'+', [1, 0]⟩ = false ∧
          operator_eq ⟨'-', [3]⟩ ⟨'+', [1, 0]⟩ = false ∧
          operator_lt ⟨'+', [1, 0]⟩ ⟨'-', [3]⟩ = true)) :=
  ⟨by decide, by decide, C5_trichotomy ⟨'-', [3]⟩ ⟨'+', [1, 0]⟩ (by decide) (by decide)⟩

/-- C6: for canonical `a` and `b`, `operator==` (same sign, same digit sequence) holds exactly
when `a` and `b` denote the same integer: the canonical representation is unique. -/
theorem C6_operator_eq_iff_value_eq (a b : bigint) (ha : invariants a) (hb : invariants b) :
    operator_eq a b = true ↔ value a = value b := by
  rw [operator_eq_iff]
  constructor
  · intro h; rw [h]
  · exact invariants_eq_of_value a b ha hb

/-- Witness for C6 at `402` and `42`. -/
theorem C6_operator_eq_iff_value_eq_witness :
    invariants ⟨'+', [4, 0, 2]⟩ ∧ invariants ⟨'+', [4, 2]⟩ ∧
      (operator_eq ⟨'+', [4, 0, 2]⟩ ⟨'+', [4, 2]⟩ = true ↔
        value ⟨'+', [4, 0, 2]⟩ = value ⟨'+', [4, 2]⟩) :=
  ⟨by decide, by decide,
    C6_operator_eq_iff_value_eq ⟨'+', [4, 0, 2]⟩ ⟨'+', [4, 2]⟩ (by decide) (by decide)⟩

/-- C7: a string made of spaces, an optional sign character, one or more decimal digits and
spaces is accepted by the string constructor, and the result denotes the signed decimal number
written (leading zeros ignored, `-` giving the negative); no other string is accepted; and
`"-012"` gives the same value as the integer constructor on `-12`. -/
theorem C7_from_string_signed_decimal (a b : Nat) (sgn cs : List Char)
    (hsgn : sgn = [] ∨ sgn = ['+'] ∨ sgn = ['-']) (hne : cs ≠ [])
    (hd : ∀ c ∈ cs, isdigit c = true) :
    (∃ r, from_string (List.replicate a ' ' ++ sgn ++ cs ++ List.replicate b ' ')
          = outcome.ok r ∧
        value r = (if sgn = ['-'] then -1 else 1) *
          (magnitude (cs.map (fun c => c.toNat - 48)) : Int)) ∧
      (∀ s r, from_string s = outcome.ok r →
        ∃ a1 b1 sgn1 cs1, s = List.replicate a1 ' ' ++ sgn1 ++ cs1 ++ List.replicate b1 ' ' ∧
          (sgn1 = [] ∨ sgn1 = ['+'] ∨ sgn1 = ['-']) ∧ cs1 ≠ [] ∧
          ∀ c ∈ cs1, isdigit c = true) ∧
      from_string "-012".toList = outcome.ok (from_int64 (-12)) :=
  ⟨from_string_value a b sgn cs hsgn hne hd, from_string_ok_form, by decide⟩

/-- Witness for C7 at the string `"  -042 "`. -/
theorem C7_from_string_signed_decimal_witness :
    (['-'] = ([] : List Char) ∨ ['-'] = ['+'] ∨ ['-'] = ['-']) ∧ ['0', '4', '2'] ≠ [] ∧
      (∀ c ∈ ['0', '4', '2'], isdigit c = true) ∧
      ∃ r, from_string (List.replicate 2 ' ' ++ ['-'] ++ ['0', '4', '2'] ++ List.replicate 1 ' ')
          = outcome.ok r ∧
        value r = (if ['-'] = ['-'] then -1 else 1) *
          (magnitude (['0', '4', '2'].map (fun c => c.toNat - 48)) : Int) :=
  ⟨by decide, by decide, by decide,
    (C7_from_string_signed_decimal 2 1 ['-'] ['0', '4', '2'] (by decide) (by decide)
      (by decide)).1⟩

/-- C8: every value returned by the string constructor satisfies the data-model invariants,
and when every digit character of the input is `0` the value is the canonical zero, whatever
sign character was written; so for `"  +000  "`, `"  -000  "` and `"   000  "`. -/
theorem C8_from_string_result_canonical (s : List Char) (r : bigint)
    (h : from_string s = outcome.ok r) :
    (invariants r ∧ ((∀ c ∈ s, isdigit c = true → c = '0') → r = default_bigint)) ∧
      from_string "  +000  ".toList = outcome.ok default_bigint ∧
      from_string "  -000  ".toList = outcome.ok default_bigint ∧
      from_string "   000  ".toList = outcome.ok default_bigint :=
  ⟨from_string_ok_invariants s r h, by decide, by decide, by decide⟩

/-- Witness for C8 at the string `"-0012"`. -/
theorem C8_from_string_result_canonical_witness :
    from_string "-0012".toList = outcome.ok ⟨'-', [1, 2]⟩ ∧ invariants ⟨'-', [1, 2]⟩ :=
  ⟨by decide,
    (C8_from_string_result_canonical "-0012".toList ⟨'-', [1, 2]⟩ (by decide)).1.1⟩

/-- C9: the string constructor throws `empty_string` exactly for the string of length
zero. -/
theorem C9_from_string_empty_string_iff (s : List Char) :
    from_string s = outcome.empty_string ↔ s.length = 0 :=
  from_string_empty_iff s

/-- C10: the string constructor throws `no_digit` exactly when the first character that is
not a space is `+` or `-` and either only spaces follow it or the character right after it is
a space; so for `"+"`, `"-"`, `"+ 1"` and `"- 123"`. -/
theorem C10_from_string_no_digit_iff (s : List Char) :
    (from_string s = outcome.no_digit ↔
        ∃ pre c rest, s = pre ++ c :: rest ∧ (∀ x ∈ pre, x = ' ') ∧ (c = '+' ∨ c = '-') ∧
          ((∀ x ∈ rest, x = ' ') ∨ rest.head? = some ' ')) ∧
      from_string "+".toList = outcome.no_digit ∧ from_string "-".toList = outcome.no_digit ∧
      from_string "+ 1".toList = outcome.no_digit ∧
      from_string "- 123".toList = outcome.no_digit := by
  refine ⟨⟨from_string_no_digit_form s, ?_⟩, by decide, by decide, by decide, by decide⟩
  rintro ⟨pre, c, rest, hs, hpre, hc, hrest⟩
  rw [hs]
  exact from_string_no_digit_of_form pre rest c hpre hc hrest

/-- C11: the string constructor throws `non_digit` when the first character that is not a
space is neither a sign nor a digit, and when, after the optional sign (directly followed by a
character that is not a space), some character up to the last one that is not a space is not a
digit; nothing is returned then.  So for `"12A"`, `"A12"`, `"-+123"`, `"+12-34"`, `"1 2"`. -/
theorem C11_from_string_non_digit (s : List Char)
    (h : (∃ pre c rest, s = pre ++ c :: rest ∧ (∀ x ∈ pre, x = ' ') ∧ c ≠ ' ' ∧ c ≠ '+' ∧
          c ≠ '-' ∧ isdigit c = false) ∨
        (∃ pre sgn body post, s = pre ++ sgn ++ body ++ post ∧ (∀ x ∈ pre, x = ' ') ∧
          (∀ x ∈ post, x = ' ') ∧ (sgn = [] ∨ sgn = ['+'] ∨ sgn = ['-']) ∧
          (sgn = [] → body.head? ≠ some '+' ∧ body.head? ≠ some '-') ∧
          body.head? ≠ some ' ' ∧ body.getLast? ≠ some ' ' ∧ ∃ x ∈ body, isdigit x = false)) :
    (from_string s = outcome.non_digit ∧ ∀ r, from_string s ≠ outcome.ok r) ∧
      from_string "12A".toList = outcome.non_digit ∧
      from_string "A12".toList = outcome.non_digit ∧
      from_string "-+123".toList = outcome.non_digit ∧
      from_string "+12-34".toList = outcome.non_digit ∧
      from_string "1 2".toList = outcome.non_digit := by
  refine ⟨?_, by decide, by decide, by decide, by decide, by decide⟩
  have key : from_string s = outcome.non_digit := by
    rcases h with ⟨pre, c, rest, hs, hpre, h1, h2, h3, h4⟩ |
        ⟨pre, sgn, body, post, hs, hpre, hpost, hsgn, hns, hhead, hlast, hbad⟩
    · rw [hs]
      exact from_string_bad_first pre rest c hpre h1 h2 h3 h4
    · rw [hs]
      exact from_string_bad_body pre sgn body post hpre hpost hsgn hns hhead hlast hbad
  refine ⟨key, ?_⟩
  intro r hr
  rw [key] at hr
  cases hr

/-- Witness for C11 at the string `" +12-34 "`. -/
theorem C11_from_string_non_digit_witness :
    from_string " +12-34 ".toList = outcome.non_digit :=
  (C11_from_string_non_digit " +12-34 ".toList
    (Or.inr ⟨[' '], ['+'], ['1', '2', '-', '3', '4'], [' '], by decide, by decide, by decide,
      by decide, by decide, by decide, by decide, '-', by decide, by decide⟩)).1.1

/-- C12: at the minimum 64-bit value the integer constructor does not store the decimal digits
of `2^63`: the negation overflows, the remainders are negative, and the stored elements lie
outside `[0,9]`. -/
theorem C12_from_int64_minimum :
    from_int64 (-9223372036854775808)
        = ⟨'-', [247, 254, 254, 253, 253, 249, 254, 0, 253, 250, 248, 251, 252, 249, 249, 251,
          248, 0, 248]⟩ ∧
      ¬ (∀ d ∈ (from_int64 (-9223372036854775808)).digits, d ≤ 9) := by
  decide

/-- C13: print/parse round trip.  For a sign character followed by one or more decimal digits
without a leading zero (zero written only as `+0`), the string constructor succeeds and
printing its result gives the string back. -/
theorem C13_print_parse_round_trip (c : Char) (cs : List Char) (hc : c = '+' ∨ c = '-')
    (hne : cs ≠ []) (hd : ∀ x ∈ cs, isdigit x = true)
    (hcanon : cs.head? = some '0' → cs = ['0'] ∧ c = '+') :
    ∃ r, from_string (c :: cs) = outcome.ok r ∧ to_string r = c :: cs :=
  from_string_to_string c cs hc hne hd hcanon

/-- Witness for C13 at the string `"-120"`. -/
theorem C13_print_parse_round_trip_witness :
    ∃ r, from_string ('-' :: ['1', '2', '0']) = outcome.ok r ∧
      to_string r = '-' :: ['1', '2', '0'] :=
  C13_print_parse_round_trip '-' ['1', '2', '0'] (by decide) (by decide) (by decide) (by decide)

/-- C14: at the canonical zero, which satisfies the invariants, `a + (-a)` is the negative
zero (sign `-`, digits `[0]`), and `operator==` does not equate it with the canonical zero. -/
theorem C14_additive_inverse_at_zero :
    invariants default_bigint ∧
      operator_add default_bigint (operator_neg default_bigint) = some ⟨'-', [0]⟩ ∧
      operator_eq ⟨'-', [0]⟩ default_bigint = false := by
  decide

/-- C15: addition is commutative.  For canonical `a` and `b`, `a + b` and `b + a` are defined
and are the same value, sign and digit sequence. -/
theorem C15_addition_commutative (a b : bigint) (ha : invariants a) (hb : invariants b) :
    ∃ r, operator_add a b = some r ∧ operator_add b a = some r :=
  operator_add_assign_comm a b ha hb

/-- Witness for C15 at `-1000` and `999`. -/
theorem C15_addition_commutative_witness :
    ∃ r, operator_add ⟨'-', [1, 0, 0, 0]⟩ ⟨'+', [9, 9, 9]⟩ = some r ∧
      operator_add ⟨'+', [9, 9, 9]⟩ ⟨'-', [1, 0, 0, 0]⟩ = some r :=
  C15_addition_commutative ⟨'-', [1, 0, 0, 0]⟩ ⟨'+', [9, 9, 9]⟩ (by decide) (by decide)

/-- C16: multiplication is commutative.  For canonical `a` and `b`, `a * b` and `b * a` are
defined and are the same value, sign and digit sequence, fast paths included. -/
theorem C16_multiplication_commutative (a b : bigint) (ha : invariants a)
    (hb : invariants b) :
    ∃ r, operator_mul a b = some r ∧ operator_mul b a = some r :=
  operator_mul_assign_comm a b ha hb

/-- Witness for C16 at `-1` and `25`. -/
theorem C16_multiplication_commutative_witness :
    ∃ r, operator_mul ⟨'-', [1]⟩ ⟨'+', [2, 5]⟩ = some r ∧
      operator_mul ⟨'+', [2, 5]⟩ ⟨'-', [1]⟩ = some r :=
  C16_multiplication_commutative ⟨'-', [1]⟩ ⟨'+', [2, 5]⟩ (by decide) (by decide)

/-- C17: addition is associative.  For canonical `a`, `b`, `c` all four sums are defined and
`(a + b) + c` and `a + (b + c)` are the same value, sign and digit sequence. -/
theorem C17_addition_associative (a b c : bigint) (ha : invariants a) (hb : invariants b)
    (hc : invariants c) :
    ∃ ab bc r, operator_add a b = some ab ∧ operator_add b c = some bc ∧
      operator_add ab c = some r ∧ operator_add a bc = some r :=
  operator_add_assign_assoc a b c ha hb hc

/-- Witness for C17 at `95`, `-95` and `7`. -/
theorem C17_addition_associative_witness :
    ∃ ab bc r, operator_add ⟨'+', [9, 5]⟩ ⟨'-', [9, 5]⟩ = some ab ∧
      operator_add ⟨'-', [9, 5]⟩ ⟨'+', [7]⟩ = some bc ∧
      operator_add ab ⟨'+', [7]⟩ = some r ∧ operator_add ⟨'+', [9, 5]⟩ bc = some r :=
  C17_addition_associative ⟨'+', [9, 5]⟩ ⟨'-', [9, 5]⟩ ⟨'+', [7]⟩ (by decide) (by decide)
    (by decide)

/-- C18: zero is a two-sided additive identity.  For canonical `a`, `a + zero()` and
`zero() + a` are `a`, sign and digit sequence unchanged. -/
theorem C18_zero_additive_identity (a : bigint) (ha : invariants a) :
    operator_add a default_bigint = some a ∧ operator_add default_bigint a = some a :=
  operator_add_assign_zero a ha

/-- Witness for C18 at `-305`. -/
theorem C18_zero_additive_identity_witness :
    operator_add ⟨'-', [3, 0, 5]⟩ default_bigint = some ⟨'-', [3, 0, 5]⟩ ∧
      operator_add default_bigint ⟨'-', [3, 0, 5]⟩ = some ⟨'-', [3, 0, 5]⟩ :=
  C18_zero_additive_identity ⟨'-', [3, 0, 5]⟩ (by decide)

/-- C19: positive one is a two-sided multiplicative identity.  For canonical `a`,
`a * fromInteger(1)` and `fromInteger(1) * a` are `a`, sign and digit sequence unchanged. -/
theorem C19_one_multiplicative_identity (a : bigint) (ha : invariants a) :
    operator_mul a (from_int64 1) = some a ∧ operator_mul (from_int64 1) a = some a :=
  operator_mul_assign_one a ha

/-- Witness for C19 at `-305`: `a * 1` returns through the guard on `other` being `+1`, and
`1 * a` through the guard on `this` being `+1`. -/
theorem C19_one_multiplicative_identity_witness :
    operator_mul ⟨'-', [3, 0, 5]⟩ (from_int64 1) = some ⟨'-', [3, 0, 5]⟩ ∧
      operator_mul (from_int64 1) ⟨'-', [3, 0, 5]⟩ = some ⟨'-', [3, 0, 5]⟩ :=
  C19_one_multiplicative_identity ⟨'-', [3, 0, 5]⟩ (by decide)

/-- C20: addition preserves the data-model invariants.  For canonical `a` and `b`, `a + b` is
defined, its magnitude is non-empty with every digit in `[0,9]` and no leading zero unless the
length is 1, and its sign is `+` whenever the magnitude is `[0]`. -/
theorem C20_addition_preserves_invariants (a b : bigint) (ha : invariants a)
    (hb : invariants b) :
    ∃ r, operator_add a b = some r ∧ invariants r ∧ r.digits ≠ [] ∧ (∀ d ∈ r.digits, d ≤ 9) ∧
      (1 < r.digits.length → r.digits.head? ≠ some 0) ∧ (r.digits = [0] → r.sign = '+') := by
  obtain ⟨r, hr, _, hinv⟩ := operator_add_assign_spec a b ha hb
  exact ⟨r, hr, hinv, hinv.2.1, hinv.2.2.1, hinv.2.2.2.1, hinv.2.2.2.2⟩

/-- Witness for C20 at `1000` and `-999`. -/
theorem C20_addition_preserves_invariants_witness :
    ∃ r, operator_add ⟨'+', [1, 0, 0, 0]⟩ ⟨'-', [9, 9, 9]⟩ = some r ∧ invariants r ∧
      r.digits ≠ [] ∧ (∀ d ∈ r.digits, d ≤ 9) ∧
      (1 < r.digits.length → r.digits.head? ≠ some 0) ∧ (r.digits = [0] → r.sign = '+') :=
  C20_addition_preserves_invariants ⟨'+', [1, 0, 0, 0]⟩ ⟨'-', [9, 9, 9]⟩ (by decide) (by decide)

/-- C21: multiplication preserves the data-model invariants.  For canonical `a` and `b`,
`a * b` is defined, with a non-empty magnitude, every digit in `[0,9]` and no leading zero
unless the length is 1; it is the canonical zero when either operand is zero; and for operands
other than zero the accumulation loops are defined and the unguarded stripping loop stops on a
non-empty vector. -/
theorem C21_multiplication_preserves_invariants (a b : bigint) (ha : invariants a)
    (hb : invariants b) :
    (∃ r, operator_mul a b = some r ∧ invariants r ∧ r.digits ≠ [] ∧
        (∀ d ∈ r.digits, d ≤ 9) ∧ (1 < r.digits.length → r.digits.head? ≠ some 0)) ∧
      ((a = default_bigint ∨ b = default_bigint) → operator_mul a b = some default_bigint) ∧
      (a ≠ default_bigint → b ≠ default_bigint →
        ∃ acc ds, for_loop (mul_outer_step a.digits b.digits) 0 a.digits.length
            (List.replicate (a.digits.length + b.digits.length) 0) = some acc ∧
          strip_zeros_unguarded acc = some ds ∧ ds ≠ []) := by
  obtain ⟨r, hr, _, hinv⟩ := operator_mul_assign_spec a b ha hb
  exact ⟨⟨r, hr, hinv, hinv.2.1, hinv.2.2.1, hinv.2.2.2.1⟩,
    operator_mul_assign_zero a b ha hb, mul_strip_defined a b ha hb⟩

/-- Witness for C21 at `-25` and `40`. -/
theorem C21_multiplication_preserves_invariants_witness :
    ∃ r, operator_mul ⟨'-', [2, 5]⟩ ⟨'+', [4, 0]⟩ = some r ∧ invariants r ∧ r.digits ≠ [] ∧
      (∀ d ∈ r.digits, d ≤ 9) ∧ (1 < r.digits.length → r.digits.head? ≠ some 0) :=
  (C21_multiplication_preserves_invariants ⟨'-', [2, 5]⟩ ⟨'+', [4, 0]⟩ (by decide)
    (by decide)).1

/-- C22: at the canonical zero, which satisfies the invariants, `a - a` is the negative zero
(sign `-`, digits `[0]`), which `operator==` does not equate with the canonical zero. -/
theorem C22_subtract_zero_from_zero :
    invariants default_bigint ∧
      operator_sub default_bigint default_bigint = some ⟨'-', [0]⟩ ∧
      operator_eq ⟨'-', [0]⟩ default_bigint = false := by
  decide

/-- C23: the unary minus on the canonical zero gives sign `-` with digits `[0]`: a value that
`operator==` does not equate with zero and that breaks the no-negative-zero invariant. -/
theorem C23_negate_zero :
    operator_neg default_bigint = ⟨'-', [0]⟩ ∧
      operator_eq (operator_neg default_bigint) default_bigint = false ∧
      ¬ invariants (operator_neg default_bigint) := by
  decide

/-- C24: the derived comparisons agree with the integer order.  For canonical `a` and `b`,
`a < b` iff `value a < value b`, `a >= b` iff `value a ≥ value b`, `a > b` iff
`value a > value b`; and `a >= b` equals `b <= a`, `a > b` equals `b < a`. -/
theorem C24_derived_comparisons (a b : bigint) (ha : invariants a) (hb : invariants b) :
    (operator_lt a b = true ↔ value a < value b) ∧
      (operator_ge a b = true ↔ value a ≥ value b) ∧
      (operator_gt a b = true ↔ value a > value b) ∧
      operator_ge a b = operator_le b a ∧ operator_gt a b = operator_lt b a :=
  ⟨operator_lt_iff_value a b ha hb, operator_ge_iff_value a b ha hb,
    operator_gt_iff_value a b ha hb, operator_ge_eq_le_swap a b ha hb,
    operator_gt_eq_lt_swap a b ha hb⟩

/-- Witness for C24 at `-12` and `-7`. -/
theorem C24_derived_comparisons_witness :
    (operator_lt ⟨'-', [1, 2]⟩ ⟨'-', [7]⟩ = true ↔ value ⟨'-', [1, 2]⟩ < value ⟨'-', [7]⟩) ∧
      (operator_ge ⟨'-', [1, 2]⟩ ⟨'-', [7]⟩ = true ↔
        value ⟨'-', [1, 2]⟩ ≥ value ⟨'-', [7]⟩) ∧
      (operator_gt ⟨'-', [1, 2]⟩ ⟨'-', [7]⟩ = true ↔
        value ⟨'-', [1, 2]⟩ > value ⟨'-', [7]⟩) ∧
      operator_ge ⟨'-', [1, 2]⟩ ⟨'-', [7]⟩ = operator_le ⟨'-', [7]⟩ ⟨'-', [1, 2]⟩ ∧
      operator_gt ⟨'-', [1, 2]⟩ ⟨'-', [7]⟩ = operator_lt ⟨'-', [7]⟩ ⟨'-', [1, 2]⟩ :=
  C24_derived_comparisons ⟨'-', [1, 2]⟩ ⟨'-', [7]⟩ (by decide) (by decide)

/-- C25: at the canonical zero, multiplying by negative one on either side gives the canonical
zero, while the unary minus gives the negative zero; `operator==` tells them apart. -/
theorem C25_multiply_zero_by_negative_one :
    invariants default_bigint ∧
      operator_mul default_bigint (from_int64 (-1)) = some default_bigint ∧
      operator_mul (from_int64 (-1)) default_bigint = some default_bigint ∧
      operator_neg default_bigint = ⟨'-', [0]⟩ ∧
      operator_eq default_bigint (operator_neg default_bigint) = false := by
  decide

/-- C26: a non-empty string of spaces passes the length guard (no `empty_string`); the
leading scan stops at the terminating null and the trailing scan decrements its index below
zero, a read outside the string.  For a string with a character other than the space both
scans stop, with `i ≤ l ≤ size - 1`, and the constructor never reads outside `[0, size]`
(the outcome is not `undefined`). -/
theorem C26_whitespace_only_input (s : List Char) (hne : s ≠ []) :
    ((∀ c ∈ s, c = ' ') →
        from_string s ≠ outcome.empty_string ∧
        skip_spaces_up s (s.length + 1) 0 = some s.length ∧
        skip_spaces_down s (s.length - 1) = none ∧ from_string s = outcome.undefined) ∧
      ((∃ c ∈ s, c ≠ ' ') →
        ∃ i l, skip_spaces_up s (s.length + 1) 0 = some i ∧
          skip_spaces_down s (s.length - 1) = some l ∧ i ≤ l ∧ l ≤ s.length - 1 ∧
          from_string s ≠ outcome.undefined) :=
  from_string_index_safety s hne

/-- Witness for C26 at the strings `"  "` and `" 7 "`. -/
theorem C26_whitespace_only_input_witness :
    (from_string [' ', ' '] ≠ outcome.empty_string ∧
        skip_spaces_up [' ', ' '] ([' ', ' '].length + 1) 0 = some [' ', ' '].length ∧
        skip_spaces_down [' ', ' '] ([' ', ' '].length - 1) = none ∧
        from_string [' ', ' '] = outcome.undefined) ∧
      ∃ i l, skip_spaces_up [' ', '7', ' '] ([' ', '7', ' '].length + 1) 0 = some i ∧
        skip_spaces_down [' ', '7', ' '] ([' ', '7', ' '].length - 1) = some l ∧ i ≤ l ∧
        l ≤ [' ', '7', ' '].length - 1 ∧ from_string [' ', '7', ' '] ≠ outcome.undefined :=
  ⟨(C26_whitespace_only_input [' ', ' '] (by decide)).1 (by decide),
    (C26_whitespace_only_input [' ', '7', ' '] (by decide)).2 ⟨'7', by decide, by decide⟩⟩

/-- C27: parse undoes print.  For canonical `a` the string constructor accepts the printed
form of `a` and returns `a`, same sign and same digit sequence. -/
theorem C27_parse_undoes_print (a : bigint) (ha : invariants a) :
    from_string (to_string a) = outcome.ok a :=
  from_string_to_string_inverse a ha

/-- Witness for C27 at `-120`. -/
theorem C27_parse_undoes_print_witness :
    from_string (to_string ⟨'-', [1, 2, 0]⟩) = outcome.ok ⟨'-', [1, 2, 0]⟩ :=
  C27_parse_undoes_print ⟨'-', [1, 2, 0]⟩ (by decide)

/-- C28: no 8-bit wrap-around.  With all operand digits in `[0,9]`, at every state the loops
pass through: in `operator*=` the carry is at most 9, `digit * digit + c` is at most 90, the
accumulator slot is at most 18 before its `%= 10`, the new carry is at most 9, each narrowing
to `uint8_t` is the identity, and the slot overwritten with the carry after the inner loop
holds 0; in the same-sign loops of `operator+=` the carry is at most 1, `temp` is at most 19
and the narrowing is the identity. -/
theorem C28_no_wrap_around (a b : List Nat) (ha : ∀ d ∈ a, d ≤ 9) (hb : ∀ d ∈ b, d ≤ 9) :
    (∀ i j acc0 acc c, i < a.length → j ≤ b.length →
        for_loop (mul_outer_step a b) 0 i (List.replicate (a.length + b.length) 0)
          = some acc0 →
        for_loop (mul_inner_step a b i) 0 j (acc0, 0) = some (acc, c) →
        c ≤ 9 ∧
        (j < b.length →
          ∃ d o p, a[a.length - 1 - i]? = some d ∧ b[b.length - 1 - j]? = some o ∧
            acc[acc.length - 1 - (i + j)]? = some p ∧
            d * o + c ≤ 90 ∧ (d * o + c) % 256 = d * o + c ∧
            p + (d * o + c) % 10 ≤ 18 ∧
            (p + (d * o + c) % 10) % 256 = p + (d * o + c) % 10 ∧
            (d * o + c) / 10 + (p + (d * o + c) % 10) / 10 ≤ 9) ∧
        (j = b.length → acc[a.length - 1 - i]? = some 0)) ∧
      (∀ i ds c, i ≤ min a.length b.length →
        for_loop (add_both_step b) 0 i (a, 0) = some (ds, c) →
        c ≤ 1 ∧
        (i < min a.length b.length →
          ∃ d o, ds[ds.length - 1 - i]? = some d ∧ b[b.length - 1 - i]? = some o ∧
            d + o + c ≤ 19 ∧ (d + o + c) % 256 = d + o + c)) ∧
      (∀ k st1 ds c, b.length < a.length → k ≤ a.length - b.length →
        for_loop (add_both_step b) 0 (min a.length b.length) (a, 0) = some st1 →
        for_loop add_this_step (min a.length b.length) k st1 = some (ds, c) →
        c ≤ 1 ∧
        (k < a.length - b.length →
          ∃ d, ds[ds.length - 1 - (min a.length b.length + k)]? = some d ∧
            d + c ≤ 19 ∧ (d + c) % 256 = d + c)) ∧
      (∀ k st1 ds c, a.length < b.length → k ≤ b.length - a.length →
        for_loop (add_both_step b) 0 (min a.length b.length) (a, 0) = some st1 →
        for_loop (add_other_step b) (min a.length b.length) k st1 = some (ds, c) →
        c ≤ 1 ∧
        (k < b.length - a.length →
          ∃ o, b[b.length - 1 - (min a.length b.length + k)]? = some o ∧
            o + c ≤ 19 ∧ (o + c) % 256 = o + c)) :=
  digit_arithmetic_in_range a b ha hb

/-- Witness for C28 at `99 * 99`, second round of the outer loop, before the second round of
the inner loop: the accumulator is `[0, 8, 0, 1]` and the carry is 9. -/
theorem C28_no_wrap_around_witness :
    for_loop (mul_outer_step [9, 9] [9, 9]) 0 1 (List.replicate 4 0) = some [0, 8, 9, 1] ∧
      for_loop (mul_inner_step [9, 9] [9, 9] 1) 0 1 ([0, 8, 9, 1], 0) = some ([0, 8, 0, 1], 9) ∧
      (9 : Nat) ≤ 9 :=
  ⟨by decide, by decide,
    ((C28_no_wrap_around [9, 9] [9, 9] (by decide) (by decide)).1 1 1 [0, 8, 9, 1]
      [0, 8, 0, 1] 9 (by decide) (by decide) (by decide) (by decide)).1⟩

/-- C29: the opposite-sign path of `operator+=` is index-safe and total.  For canonical
operands of opposite sign, neither zero nor additive inverses, one magnitude is strictly the
larger.  When it is that of `this`, the loop over the digits of `other` and the loop
`while (b != 0)` are defined (every index in range) and end with borrow 0; when it is that of
`other`, both loops are defined and the borrow left after the last loop is 0.  In both cases
`operator+` returns the stripped digits with the sign of the larger magnitude. -/
theorem C29_opposite_sign_path_safe (a b : bigint) (ha : invariants a) (hb : invariants b)
    (hsign : a.sign ≠ b.sign) (hza : a ≠ default_bigint) (hzb : b ≠ default_bigint)
    (hinv : a ≠ operator_neg b) :
    (magnitude b.digits < magnitude a.digits ∨ magnitude a.digits < magnitude b.digits) ∧
      (magnitude b.digits < magnitude a.digits →
        ∃ st1 st2,
          for_loop (sub_other_step b.digits) 0 b.digits.length (a.digits, 0) = some st1 ∧
          borrow_while (a.digits.length - b.digits.length) b.digits.length st1 = some st2 ∧
          st2.2 = 0 ∧ operator_add a b = some ⟨a.sign, strip_leading_zeros st2.1⟩) ∧
      (magnitude a.digits < magnitude b.digits →
        ∃ st1 st2,
          for_loop (rsub_this_step b.digits) 0 a.digits.length (a.digits, 0) = some st1 ∧
          for_loop (rsub_other_step b.digits) a.digits.length
            (b.digits.length - a.digits.length) st1 = some st2 ∧
          st2.2 = 0 ∧ operator_add a b = some ⟨b.sign, strip_leading_zeros st2.1⟩) := by
  obtain ⟨hne, hadd⟩ := operator_add_assign_opposite a b ha hb hsign hza hzb hinv
  obtain ⟨_, hnea, hda, h0a, _⟩ := ha
  obtain ⟨_, hneb, hdb, h0b, _⟩ := hb
  refine ⟨?_, ?_, ?_⟩
  · have : magnitude a.digits ≠ magnitude b.digits := by
      intro h
      exact hne (magnitude_inj a.digits b.digits hnea hneb hda hdb h0a h0b h)
    omega
  · intro hlt
    obtain ⟨st1, st2, h1, h2, h3, h4⟩ := opposite_sign_larger_this a.sign a.digits b hda hdb
      hnea hneb h0a h0b hlt
    refine ⟨st1, st2, h1, h2, h3, ?_⟩
    unfold operator_add
    rw [hadd, h4]
    rfl
  · intro hlt
    obtain ⟨st1, st2, h1, h2, h3, h4⟩ := opposite_sign_smaller_this a.sign a.digits b hda hdb
      hnea hneb h0a h0b hlt
    refine ⟨st1, st2, h1, h2, h3, ?_⟩
    unfold operator_add
    rw [hadd, h4]
    rfl

/-- Witness for C29 at `1000` and `-1`: the borrow runs through three zeros. -/
theorem C29_opposite_sign_path_safe_witness :
    ∃ st1 st2,
      for_loop (sub_other_step [1]) 0 1 ([1, 0, 0, 0], 0) = some st1 ∧
      borrow_while (4 - 1) 1 st1 = some st2 ∧ st2.2 = 0 ∧
      operator_add ⟨'+', [1, 0, 0, 0]⟩ ⟨'-', [1]⟩
        = some ⟨'+', strip_leading_zeros st2.1⟩ :=
  (C29_opposite_sign_path_safe ⟨'+', [1, 0, 0, 0]⟩ ⟨'-', [1]⟩ (by decide) (by decide)
    (by decide) (by decide) (by decide) (by decide)).2.1 (by decide)

end BigintCpp
